import Mathlib

/-!
# Static Huffman archiver: model and verified properties

A shallow embedding of `huffman.h` / `huffman.cpp`.

* `code_t` (`std::uint32_t`) values are natural numbers reduced `% 4294967296`
  wherever the C++ arithmetic can wrap; `byte_t` values kept in variables are
  natural numbers reduced `% 256`; bytes stored in files are `Fin 256`.
* `std::shared_ptr<TreeNode>` is the inductive type `TreeNodePtr`: the null
  pointer or a node with its four fields.
* `std::array<code_t, 256>` and the code table are functions on the index.
* `std::priority_queue` is library code: it is modelled by its contract
  (`PriorityQueue`). General results are proved for every implementation of
  the contract; `listPQ` is one executable implementation, used where a
  result is evaluated on a concrete input.
* A 32-bit shift by a count of 32 or more is out of range in C++; the shift
  instruction of the compiled program takes the count modulo 32, and so does
  the model: `code >> bit` reads bit `bit % 32` of `code`, and `1 << len` sets
  bit `len % 32`. For counts below 32, which is all that code lengths of at
  most 32 bits need, this is the plain shift.
-/

namespace Huffman

/-! ## Data model -/

/-- The type `byte_t` as stored in a file. -/
abbrev byte_t := Fin 256

/-- Conversion of an integer value to `byte_t` (truncation to 8 bits). -/
def toByte (x : Nat) : byte_t := ⟨x % 256, Nat.mod_lt x (by decide)⟩

/-- `VALUES_RANGE = (code_t)1 << (sizeof(byte_t) * 8)`. -/
def VALUES_RANGE : Nat := 256

/-- `bits_in_byte = 8 * sizeof(byte_t)`. -/
def bits_in_byte : Nat := 8

/-- `HuffTree::TreeNodePtr`: a null pointer or a `TreeNode` with the fields
`left`, `right`, `letter`, `frequency`. -/
inductive TreeNodePtr where
  | null : TreeNodePtr
  | node (left right : TreeNodePtr) (letter frequency : Nat) : TreeNodePtr
  deriving DecidableEq, Repr

namespace TreeNodePtr

/-- Field `frequency` (0 stands in for the access through a null pointer, which
the program never performs). -/
def frequency : TreeNodePtr → Nat
  | null => 0
  | node _ _ _ f => f

/-- Field `letter`. -/
def letter : TreeNodePtr → Nat
  | null => 0
  | node _ _ l _ => l

/-- Field `left`. -/
def left : TreeNodePtr → TreeNodePtr
  | null => null
  | node l _ _ _ => l

/-- Field `right`. -/
def right : TreeNodePtr → TreeNodePtr
  | null => null
  | node _ r _ _ => r

/-- `TreeNode::is_leaf`: `!left && !right`. -/
def is_leaf : TreeNodePtr → Bool
  | node null null _ _ => true
  | _ => false

end TreeNodePtr

open TreeNodePtr

/-- `TreeNode(byte_t symbol, code_t freq)`. -/
def TreeNode.leaf (symbol freq : Nat) : TreeNodePtr := node null null symbol freq

/-- `TreeNode()`: no children, `letter = frequency = 0`. -/
def TreeNode.new : TreeNodePtr := node null null 0 0

/-- `TreeNode(l, r)`: `frequency = l->frequency + r->frequency` in `code_t`;
`letter` is left unset by the constructor and is never read on such a node
(0 here). -/
def TreeNode.merge (l r : TreeNodePtr) : TreeNodePtr :=
  node l r 0 ((l.frequency + r.frequency) % 4294967296)

/-- Contract of `std::priority_queue<TreeNodePtr, std::vector<TreeNodePtr>, TreeNodeCmp>`
with `TreeNodeCmp(lhs, rhs) = lhs->frequency > rhs->frequency`: the queue holds
a multiset of nodes (`elems`), `top` is one of its elements with the least
frequency (which one among equals is up to the implementation) and `pop`
removes it. -/
structure PriorityQueue where
  /-- States of the queue. -/
  Q : Type
  /-- The default-constructed queue. -/
  empty : Q
  /-- Method `emplace`. -/
  emplace : Q → TreeNodePtr → Q
  /-- Method `top`. -/
  top : Q → TreeNodePtr
  /-- Method `pop`. -/
  pop : Q → Q
  /-- Method `size`. -/
  size : Q → Nat
  /-- The elements held. -/
  elems : Q → Multiset TreeNodePtr
  elems_empty : elems empty = 0
  elems_emplace : ∀ q x, elems (emplace q x) = x ::ₘ elems q
  size_eq : ∀ q, size q = Multiset.card (elems q)
  top_mem : ∀ q, elems q ≠ 0 → top q ∈ elems q
  top_min : ∀ q, ∀ y ∈ elems q, (top q).frequency ≤ y.frequency
  elems_pop : ∀ q, elems (pop q) = (elems q).erase (top q)

/-- First element of least frequency in a list (`null` for the empty list). -/
def listMin : List TreeNodePtr → TreeNodePtr
  | [] => null
  | [x] => x
  | x :: y :: rest =>
    let m := listMin (y :: rest)
    if x.frequency ≤ m.frequency then x else m

/-- An executable priority queue meeting the contract: an unordered list, `top`
scans for the first element of least frequency. -/
def listPQ : PriorityQueue where
  Q := List TreeNodePtr
  empty := []
  emplace q x := x :: q
  top q := listMin q
  pop q := q.erase (listMin q)
  size q := q.length
  elems q := (q : Multiset TreeNodePtr)
  elems_empty := rfl
  elems_emplace _ _ := rfl
  size_eq _ := rfl
  top_mem q h := by
    have hq : q ≠ [] := fun e => h (by simp [e])
    have key : ∀ (l : List TreeNodePtr), l ≠ [] → listMin l ∈ l := by
      intro l
      induction l with
      | nil => intro h0; exact absurd rfl h0
      | cons x t ih =>
        intro _
        cases t with
        | nil => simp [listMin]
        | cons y rest =>
          have hy := ih (by simp)
          simp only [listMin]
          split
          · simp
          · exact List.mem_cons_of_mem _ hy
    simpa using key q hq
  top_min q y hy := by
    have key : ∀ (l : List TreeNodePtr), ∀ z ∈ l, (listMin l).frequency ≤ z.frequency := by
      intro l
      induction l with
      | nil => intro z hz; simp at hz
      | cons x t ih =>
        intro z hz
        cases t with
        | nil =>
          simp only [List.mem_singleton] at hz
          simp [listMin, hz]
        | cons y rest =>
          simp only [listMin]
          rcases List.mem_cons.1 hz with rfl | hz
          · split <;> omega
          · have := ih z hz
            split <;> omega
    exact key q y (by simpa using hy)
  elems_pop _ := rfl

/-- Counted loop `for (i = 0; i < n; ++i) s = body(i, s)`. -/
def forRange {σ : Type} (n : Nat) (body : Nat → σ → σ) (s : σ) : σ :=
  (List.range n).foldl (fun s i => body i s) s

/-- `HuffTree`: its only field is `root`. -/
structure HuffTree where
  root : TreeNodePtr
  deriving DecidableEq, Repr

/-- `HuffTree::HuffTree()`. -/
def HuffTree.new : HuffTree := ⟨TreeNode.new⟩

/-- The loop `while (pq.size() > 1) { ... }` of the constructor, run for at most
`fuel` iterations; returns the final `root`. -/
def HuffTree.mergeLoop (P : PriorityQueue) : Nat → P.Q → TreeNodePtr → TreeNodePtr
  | 0, _, root => root
  | fuel + 1, pq, root =>
    if P.size pq > 1 then
      let left := P.top pq
      let pq := P.pop pq
      let right := P.top pq
      let pq := P.pop pq
      let pq := P.emplace pq (TreeNode.merge left right)
      HuffTree.mergeLoop P fuel pq (P.top pq)
    else root

/-- The queue after the loop `for (letter = 0; letter < VALUES_RANGE; ++letter)`
of the constructor. -/
def HuffTree.fillQueue (P : PriorityQueue) (frequencies : Nat → Nat) : P.Q :=
  forRange VALUES_RANGE
    (fun letter pq =>
      if frequencies letter = 0 then pq
      else P.emplace pq (TreeNode.leaf letter (frequencies letter)))
    P.empty

/-- `HuffTree::HuffTree(std::array<code_t, VALUES_RANGE> frequencies)`. Each
iteration of the merge loop shortens the queue by one, so `size` iterations
of fuel are enough (`mergeLoop_reduces`). -/
def HuffTree.ofFrequencies (P : PriorityQueue) (frequencies : Nat → Nat) : HuffTree :=
  let pq := HuffTree.fillQueue P frequencies
  if P.size pq = 0 then ⟨TreeNode.new⟩
  else if P.size pq = 1 then ⟨node (P.top pq) null 0 0⟩
  else ⟨HuffTree.mergeLoop P (P.size pq) pq null⟩

/-- `HuffTree::get_total_length_impl`. -/
def get_total_length_impl : TreeNodePtr → Nat → Nat
  | null, _ => 0
  | node null null _ f, cur_len => (cur_len * f) % 4294967296
  | node l r _ _, cur_len =>
    (get_total_length_impl l ((cur_len + 1) % 4294967296)
      + get_total_length_impl r ((cur_len + 1) % 4294967296)) % 4294967296

/-- `HuffTree::get_total_length`. -/
def HuffTree.get_total_length (t : HuffTree) : Nat := get_total_length_impl t.root 0

/-- The child that `add_letter` moves to: the existing one, or a fresh
`TreeNode()` when it is null. -/
def orNew : TreeNodePtr → TreeNodePtr
  | null => TreeNode.new
  | t => t

/-- The loop of `HuffTree::add_letter` started at `node` with loop counter `bit`
and `n = len - bit` iterations to go, followed by `node->letter = letter`;
returns the updated subtree. The shift `code >> bit` is on the 32-bit `code_t`:
for `bit < 32` it is the plain shift; for `bit ≥ 32` the count is out of range
and the shift instruction of the compiled program takes it modulo 32. -/
def add_letter_impl (code : Nat) (letter : Nat) : Nat → Nat → TreeNodePtr → TreeNodePtr
  | _, _, null => null
  | 0, _, node l r _ f => node l r letter f
  | n + 1, bit, node l r lt f =>
    if (code >>> (bit % 32)) &&& 1 ≠ 0 then
      node l (add_letter_impl code letter n (bit + 1) (orNew r)) lt f
    else
      node (add_letter_impl code letter n (bit + 1) (orNew l)) r lt f

/-- `HuffTree::add_letter(code, len, letter)`. -/
def HuffTree.add_letter (t : HuffTree) (code len letter : Nat) : HuffTree :=
  ⟨add_letter_impl code letter len 0 t.root⟩

/-! ## Bit input and output -/

/-- `BitReader`: `src` is the part of the file not yet read by the stream `in`,
`failed` its eof/fail state. -/
structure BitReader where
  src : List byte_t
  failed : Bool
  current_bit : Nat
  current_byte : Nat
  deriving DecidableEq, Repr

/-- `BitReader::BitReader(file)` for a file with the given content. -/
def BitReader.open (file : List byte_t) : BitReader := ⟨file, false, 8, 0⟩

/-- `BitReader::eof`. -/
def BitReader.eof (r : BitReader) : Bool := r.failed && r.current_bit == 8

/-- The last statement of `read_bit`: `bit = (current_byte >> (current_bit++)) & 1`. -/
def BitReader.take_bit (r : BitReader) : Option Bool × BitReader :=
  (some ((r.current_byte >>> r.current_bit) &&& 1 ≠ 0),
    { r with current_bit := (r.current_bit + 1) % 256 })

/-- `BitReader::read_bit`: `none` is the return value `false` (the argument
is then left untouched). -/
def BitReader.read_bit (r : BitReader) : Option Bool × BitReader :=
  if r.current_bit = 8 then
    match r.src with
    | [] => (none, { r with failed := true })
    | c :: rest => BitReader.take_bit { r with src := rest, current_byte := c.val, current_bit := 0 }
  else BitReader.take_bit r

/-- `BitReader::read_byte`. -/
def BitReader.read_byte (r : BitReader) : Option byte_t × BitReader :=
  match r.src with
  | [] => (none, { r with failed := true })
  | c :: rest => (some c, { r with src := rest })

/-- Value of a `code_t` stored as 4 bytes, least significant first. -/
def le_value : List byte_t → Nat
  | [] => 0
  | b :: rest => b.val + 256 * le_value rest

/-- The 4 bytes of a `code_t` in memory, least significant first. -/
def le_bytes (x : Nat) : List byte_t :=
  [toByte x, toByte (x / 256), toByte (x / 65536), toByte (x / 16777216)]

/-- `BitReader::read_bytes(reinterpret_cast<char *>(&x), sizeof(code_t))`: the
value read into `x`; `none` when fewer than 4 bytes are left, in which case
the stream fails and `x` is not (fully) written. -/
def BitReader.read_bytes (r : BitReader) : Option Nat × BitReader :=
  if 4 ≤ r.src.length then (some (le_value (r.src.take 4)), { r with src := r.src.drop 4 })
  else (none, { r with src := [], failed := true })

/-- `BitWriter`: `out` is what the stream has received so far. -/
structure BitWriter where
  out : List byte_t
  current_bit : Nat
  current_byte : Nat
  deriving DecidableEq, Repr

/-- `BitWriter::BitWriter(file)`. -/
def BitWriter.open : BitWriter := ⟨[], 0, 0⟩

/-- `BitWriter::write_bit`. -/
def BitWriter.write_bit (w : BitWriter) (bit : Bool) : BitWriter :=
  let w : BitWriter :=
    if w.current_bit = 8 then ⟨w.out ++ [toByte w.current_byte], 0, 0⟩ else w
  let w : BitWriter :=
    if bit then { w with current_byte := (w.current_byte ||| (1 <<< w.current_bit)) % 256 }
    else w
  { w with current_bit := (w.current_bit + 1) % 256 }

/-- `BitWriter::write_byte`. -/
def BitWriter.write_byte (w : BitWriter) (byte : byte_t) : BitWriter :=
  { w with out := w.out ++ [byte] }

/-- `BitWriter::write_bytes`. -/
def BitWriter.write_bytes (w : BitWriter) (bytes : List byte_t) : BitWriter :=
  { w with out := w.out ++ bytes }

/-- `BitWriter::close`. -/
def BitWriter.close (w : BitWriter) : BitWriter :=
  let w : BitWriter :=
    if w.current_bit > 0 then { w with out := w.out ++ [toByte w.current_byte] } else w
  { w with current_bit := 0 }

/-- `BitWriter::~BitWriter`: the content of the file once the writer is gone. -/
def BitWriter.destroy (w : BitWriter) : List byte_t :=
  if w.current_bit > 0 then w.out ++ [toByte w.current_byte] else w.out

/-! ## The archiver -/

/-- The member `table`: `std::array<std::pair<code_t, byte_t>, VALUES_RANGE>`. -/
abbrev Table := Nat → Nat × Nat

/-- The loop of `HuffmanArchiever::get_frequencies` over the bytes still to be
read. `reader.eof()` is false until a read has failed, so the loop ends at the
`break` taken when `read_byte` fails at the end of the file. -/
def get_frequencies_loop : List byte_t → (Nat → Nat) → (Nat → Nat)
  | [], frequencies => frequencies
  | byte :: rest, frequencies =>
    get_frequencies_loop rest
      (Function.update frequencies byte.val ((frequencies byte.val + 1) % 4294967296))

/-- `HuffmanArchiever::get_frequencies` on an input file with content `input`. -/
def get_frequencies (input : List byte_t) : Nat → Nat :=
  get_frequencies_loop input (fun _ => 0)

/-- `HuffmanArchiever::make_table_impl`. The shift `1 << len` is a 32-bit shift:
for `len < 32` it is the plain shift; for `len ≥ 32` the count is out of range
and the shift instruction of the compiled program takes it modulo 32. -/
def make_table_impl : TreeNodePtr → Nat → Nat → Table → Table
  | null, _, _, table => table
  | node null null letter _, code, len, table => Function.update table letter (code, len)
  | node l r _ _, code, len, table =>
    let table := if l ≠ null then make_table_impl l code ((len + 1) % 256) table else table
    if r ≠ null then
      make_table_impl r ((code ||| (1 <<< (len % 32))) % 4294967296) ((len + 1) % 256) table
    else table

/-- `HuffmanArchiever::make_table`. -/
def make_table (tree : HuffTree) : Table :=
  make_table_impl tree.root 0 0 (fun _ => (0, 0))

/-- The loop `for (bit = 0; bit < len; bit++) writer.write_bit((code >> bit) & 1)`.
The shift is on the 32-bit `code_t`: for `bit < 32` it is the plain shift; for
`bit ≥ 32` the count is out of range and the shift instruction of the compiled
program takes it modulo 32. -/
def write_code (code len : Nat) (w : BitWriter) : BitWriter :=
  forRange len (fun bit w => w.write_bit ((code >>> (bit % 32)) &&& 1 ≠ 0)) w

/-- The second loop of `write_encoded`, over the bytes of the input file. -/
def write_payload (table : Table) : List byte_t → BitWriter → BitWriter
  | [], w => w
  | byte :: rest, w =>
    write_payload table rest (write_code (table byte.val).1 (table byte.val).2 w)

/-- The header and table part of `write_encoded`. -/
def write_header (table : Table) (code_len table_size : Nat) (w : BitWriter) : BitWriter :=
  let w := w.write_bytes (le_bytes code_len)
  let w := w.write_bytes (le_bytes table_size)
  forRange VALUES_RANGE
    (fun byte w =>
      if (table byte).2 = 0 then w
      else ((w.write_bytes (le_bytes (table byte).1)).write_byte
              (toByte (table byte).2)).write_byte (toByte byte))
    w

/-- `HuffmanArchiever::write_encoded`: the content of the output file. -/
def write_encoded (input : List byte_t) (table : Table) (code_len table_size : Nat) :
    List byte_t :=
  (write_payload table input (write_header table code_len table_size BitWriter.open)).destroy

/-- The value of `code_len` computed by `encode`. -/
def encode_code_len (frequencies : Nat → Nat) (table : Table) : Nat :=
  forRange VALUES_RANGE
    (fun byte code_len =>
      (code_len + (frequencies byte * (table byte).2) % 4294967296) % 4294967296)
    0

/-- The value of `table_size` computed by `encode`. -/
def encode_table_size (table : Table) : Nat :=
  ((List.range VALUES_RANGE).countP (fun byte => decide ((table byte).2 > 0))) % 4294967296

/-- The value of `file_size` computed by `encode`:
`std::accumulate(frequencies.begin(), frequencies.end(), static_cast<code_t>(0))`. -/
def encode_file_size (frequencies : Nat → Nat) : Nat :=
  forRange VALUES_RANGE (fun byte acc => (acc + frequencies byte) % 4294967296) 0

/-- `HuffmanArchiever::encode`: the output file written for the input file
`input`. -/
def encode (P : PriorityQueue) (input : List byte_t) : List byte_t :=
  let frequencies := get_frequencies input
  let tree := HuffTree.ofFrequencies P frequencies
  let table := make_table tree
  write_encoded input table (encode_code_len frequencies table) (encode_table_size table)

/-- What a run of `decode` ends in: the output file of a normal return, the
exit taken at `Incorrect input file`, or the use of a variable that no read
has set (a header field or a code after a failed `read_bytes`, a bit after a
failed `read_bit`). -/
inductive DecodeResult where
  | ok (output : List byte_t) : DecodeResult
  | corrupt : DecodeResult
  | indeterminate : DecodeResult
  deriving DecidableEq, Repr

/-- The loop of `decode` that reads the symbol table, `n` entries to go. -/
def decode_table : Nat → BitReader → HuffTree → Option (HuffTree × BitReader)
  | 0, reader, tree => some (tree, reader)
  | n + 1, reader, tree =>
    match reader.read_bytes with
    | (none, _) => none
    | (some code, reader) =>
      let (len, reader) := reader.read_byte
      let (byte, reader) := reader.read_byte
      decode_table n reader
        (tree.add_letter code (len.getD 0).val (byte.getD 0).val)

/-- State at the end of the loop of `decode` that walks the payload. -/
inductive WalkResult where
  | done (reader : BitReader) (cur : TreeNodePtr) (writer : BitWriter) : WalkResult
  | corrupt : WalkResult
  | indeterminate : WalkResult
  deriving DecidableEq, Repr

/-- The loop `for (i = 0; i < code_len; i++)` of `decode`, `n` iterations to go;
`cur` is the variable `node`. -/
def decode_loop (root : TreeNodePtr) :
    Nat → BitReader → TreeNodePtr → BitWriter → WalkResult
  | 0, reader, cur, writer => .done reader cur writer
  | n + 1, reader, cur, writer =>
    match reader.read_bit with
    | (none, _) => .indeterminate
    | (some bit, reader) =>
      let cur := if bit then cur.right else cur.left
      if cur = null then .corrupt
      else if cur.is_leaf then
        decode_loop root n reader root (writer.write_byte (toByte cur.letter))
      else decode_loop root n reader cur writer

/-- `HuffmanArchiever::decode` on an input file with content `input`. -/
def decode (input : List byte_t) : DecodeResult :=
  let reader := BitReader.open input
  match reader.read_bytes with
  | (none, _) => .indeterminate
  | (some code_len, reader) =>
    match reader.read_bytes with
    | (none, _) => .indeterminate
    | (some table_size, reader) =>
      match decode_table table_size reader HuffTree.new with
      | none => .indeterminate
      | some (tree, reader) =>
        match decode_loop tree.root code_len reader tree.root BitWriter.open with
        | .done _ _ writer => .ok writer.destroy
        | .corrupt => .corrupt
        | .indeterminate => .indeterminate

/-! ## Auxiliary definitions used to state the properties -/

/-- The `k` low-order bits of `x`, least significant first. -/
def lowBits (x k : Nat) : List Bool := (List.range k).map (fun j => x.testBit j)

/-- The bits of a byte sequence in the order `read_bit` delivers them: byte by
byte, least significant bit first. -/
def bytesBits (l : List byte_t) : List Bool := (l.map (fun b => lowBits b.val 8)).flatten

/-- The bits a writer holds: those of the bytes already in the sink, then the
pending ones in `current_byte`. -/
def BitWriter.bits (w : BitWriter) : List Bool :=
  bytesBits w.out ++ lowBits w.current_byte w.current_bit

/-- Invariant of a writer: at most 8 pending bits, no bit set above them. -/
def BitWriter.Valid (w : BitWriter) : Prop :=
  w.current_bit ≤ 8 ∧ w.current_byte < 2 ^ w.current_bit

/-- The sink after `BitWriter writer(file)`, one `write_bit` per element of
`bits` in order, and `writer.close()`. -/
def written (bits : List Bool) : List byte_t :=
  ((bits.foldl BitWriter.write_bit BitWriter.open).close).out

/-- The leaves of a tree from left to right, each as the path from the root
(`false` = left, `true` = right) with the letter it holds. -/
def leafPaths : TreeNodePtr → List (List Bool × Nat)
  | null => []
  | node null null s _ => [([], s)]
  | node l r _ _ =>
    (leafPaths l).map (fun e => (false :: e.1, e.2))
      ++ (leafPaths r).map (fun e => (true :: e.1, e.2))

/-- The letters at the leaves of a tree, from left to right. -/
def letters (t : TreeNodePtr) : List Nat := (leafPaths t).map Prod.snd

/-- Every node of the tree is a leaf or has two children (and the tree is not
null). -/
def isFull : TreeNodePtr → Bool
  | null => false
  | node null null _ _ => true
  | node l r _ _ => isFull l && isFull r

/-- The code value `make_table_impl` has accumulated after following `path`
down from a node reached with arguments `code`, `len`. -/
def pathCode : Nat → Nat → List Bool → Nat
  | code, _, [] => code
  | code, len, false :: p => pathCode code ((len + 1) % 256) p
  | code, len, true :: p =>
    pathCode ((code ||| (1 <<< (len % 32))) % 4294967296) ((len + 1) % 256) p

/-- The `len` argument of `make_table_impl` after following `path` down from a
node reached with argument `len`. -/
def pathLen : Nat → List Bool → Nat
  | len, [] => len
  | len, _ :: p => pathLen ((len + 1) % 256) p

/-- The symbols with a non-zero entry in a frequency table, ascending. -/
def symbols (frequencies : Nat → Nat) : List Nat :=
  (List.range VALUES_RANGE).filter (fun s => decide (frequencies s ≠ 0))

/-- The bit string a table entry `(code, length)` stands for: the `length`
low-order bits of `code`, least significant first. -/
def codeBits (e : Nat × Nat) : List Bool := lowBits e.1 e.2

/-- The bits the program takes from a table entry `(code, length)` by
`(code >> bit) & 1` for `bit = 0, ..., length - 1`: bit `bit mod 32` of `code`. -/
def shiftedBits (e : Nat × Nat) : List Bool :=
  (List.range e.2).map (fun bit => e.1.testBit (bit % 32))

/-- The bits `write_encoded` writes after the table: for each input byte in
order, the bits taken from its table entry. -/
def writtenBits (table : Table) (input : List byte_t) : List Bool :=
  (input.map (fun b => shiftedBits (table b.val))).flatten

/-- Depth (number of edges from the root) of the leftmost leaf holding `s`. -/
def leafDepth : TreeNodePtr → Nat → Option Nat
  | null, _ => none
  | node null null l _, s => if l = s then some 0 else none
  | node l r _ _, s =>
    match leafDepth l s with
    | some d => some (d + 1)
    | none => (leafDepth r s).map (· + 1)

/-- One run of the merge loop seen on the multiset of queued nodes: `Reduces F t`
when repeatedly replacing a least-frequency node `l` and a least-frequency node
`r` of the rest by `TreeNode(l, r)` can turn `F` into the single node `t`. -/
inductive Reduces : Multiset TreeNodePtr → TreeNodePtr → Prop
  | single (t : TreeNodePtr) : Reduces {t} t
  | step (F : Multiset TreeNodePtr) (l r t : TreeNodePtr)
      (hl : l ∈ F) (hlmin : ∀ y ∈ F, l.frequency ≤ y.frequency)
      (hr : r ∈ F.erase l) (hrmin : ∀ y ∈ F.erase l, r.frequency ≤ y.frequency)
      (h : Reduces (TreeNode.merge l r ::ₘ (F.erase l).erase r) t) : Reduces F t

/-- The leaves the constructor places in the queue, by ascending letter. -/
def leafNodes (frequencies : Nat → Nat) : List TreeNodePtr :=
  (symbols frequencies).map (fun s => TreeNode.leaf s (frequencies s))

/-- A frequency table with two symbols, used to instantiate results. -/
def twoSymbols : Nat → Nat := fun s => if s = 97 then 3 else if s = 98 then 5 else 0

/-- Counts that make the merge loop build a chain of depth 34 without ever
finding two queued nodes of equal frequency. -/
def skewed : List Nat := [2, 3, 4, 6, 10, 16, 26, 42, 68, 110, 178, 288, 466, 754, 1220, 1974, 3194, 5168, 8362, 13530, 21892, 35422, 57314, 92736, 150050, 242786, 392836, 635622, 1028458, 1664080, 2692538, 4356618, 7049156, 11405774, 18454930]

/-- The frequency table giving symbol `s < 35` the count `skewed[s]`. -/
def skewedFrequencies : Nat → Nat := fun s => skewed.getD s 0

/-- The table entry written for symbol `s`: the code as 4 bytes, least
significant first, the length as 1 byte, the symbol as 1 byte. -/
def tableEntry (table : Table) (s : Nat) : List byte_t :=
  le_bytes (table s).1 ++ [toByte (table s).2, toByte s]

/-- The entries for the symbols below `n` with non-zero code length, by
ascending symbol. -/
def tableEntriesBelow (table : Table) (n : Nat) : List byte_t :=
  (((List.range n).filter (fun s => decide ((table s).2 ≠ 0))).map (tableEntry table)).flatten

/-- The symbol table of an encoded file. -/
def tableEntries (table : Table) : List byte_t := tableEntriesBelow table VALUES_RANGE

/-- The payload as a bit string: for each input byte in order, the bit string of
its table entry. -/
def payloadBits (table : Table) (input : List byte_t) : List Bool :=
  (input.map (fun b => codeBits (table b.val))).flatten

/-- Number of occurrences of the byte value `s` in `input`. -/
def occurrences (input : List byte_t) (s : Nat) : Nat := (input.map Fin.val).count s

/-- A 4 GiB input: `2^31` bytes 0 followed by `2^31` bytes 1. -/
def bigInput : List byte_t := List.replicate 2147483648 0 ++ List.replicate 2147483648 1

/-- The frequency table of `bigInput`. -/
def bigFrequencies : Nat → Nat :=
  fun s => if s = 0 then 2147483648 else if s = 1 then 2147483648 else 0

/-- A two-byte input, used to instantiate results. -/
def smallInput : List byte_t := [104, 105]

/-- The bits `read_bit` is going to deliver: the unread bits of `current_byte`,
then the bits of the unread bytes. -/
def BitReader.bits (r : BitReader) : List Bool :=
  (lowBits r.current_byte 8).drop r.current_bit ++ bytesBits r.src

/-- The reader after `n` calls of `read_bit`. -/
def BitReader.skip : Nat → BitReader → BitReader
  | 0, r => r
  | n + 1, r => BitReader.skip n r.read_bit.2

/-- Outcome of walking a bit string through the tree. -/
inductive WalkOutcome where
  | done (cur : TreeNodePtr) (output : List byte_t) : WalkOutcome
  | corrupt : WalkOutcome
  deriving DecidableEq, Repr

/-- The walk of `decode` over a given bit string: from `cur`, each bit moves to
the right (1) or left (0) child; a missing child ends the walk as corrupt; a
leaf appends its letter to the output and moves back to `root`. -/
def walk (root : TreeNodePtr) : List Bool → TreeNodePtr → List byte_t → WalkOutcome
  | [], cur, output => .done cur output
  | b :: bs, cur, output =>
    if (if b then cur.right else cur.left) = null then .corrupt
    else if (if b then cur.right else cur.left).is_leaf then
      walk root bs root (output ++ [toByte (if b then cur.right else cur.left).letter])
    else walk root bs (if b then cur.right else cur.left) output

/-- How the loop of `decode` ends, given the outcome of the walk over the
first `n` bits the reader can deliver. -/
def loopResult (r : BitReader) (n : Nat) (w : BitWriter) : WalkOutcome → WalkResult
  | .corrupt => .corrupt
  | .done cur output =>
    if r.bits.length < n then .indeterminate
    else .done (r.skip n) cur ⟨output, w.current_bit, w.current_byte⟩

/-- The tree `decode` rebuilds from the bytes of a symbol table: one
`add_letter` per 6-byte entry. -/
def treeOfEntries : List byte_t → HuffTree → HuffTree
  | c0 :: c1 :: c2 :: c3 :: len :: byte :: rest, tree =>
    treeOfEntries rest (tree.add_letter (le_value [c0, c1, c2, c3]) len.val byte.val)
  | _, tree => tree

/-- How `decode` ends, given the outcome of the walk over the first `code_len`
payload bits. -/
def decodeResult (payload : List byte_t) (code_len : Nat) : WalkOutcome → DecodeResult
  | .corrupt => .corrupt
  | .done _ output =>
    if (bytesBits payload).length < code_len then .indeterminate else .ok output

/-- The node reached from `t` along `path` (`null` when the path leaves the tree). -/
def nodeAt : TreeNodePtr → List Bool → TreeNodePtr
  | t, [] => t
  | t, b :: p => nodeAt (if b then t.right else t.left) p

/-- The effect of `add_letter` in terms of the path taken: walk down `path`
creating missing nodes, then store `letter`. -/
def insertPath (letter : Nat) : List Bool → TreeNodePtr → TreeNodePtr
  | _, null => null
  | [], node l r _ f => node l r letter f
  | true :: p, node l r lt f => node l (insertPath letter p (orNew r)) lt f
  | false :: p, node l r lt f => node (insertPath letter p (orNew l)) r lt f

/-- The tree after one `add_letter` per entry of a list of (path, letter) pairs. -/
def insertAll (entries : List (List Bool × Nat)) (t : TreeNodePtr) : TreeNodePtr :=
  entries.foldl (fun t e => insertPath e.2 e.1 t) t

/-- The symbols that get a table entry, ascending. -/
def codedSymbols (table : Table) : List Nat :=
  (List.range VALUES_RANGE).filter (fun s => decide ((table s).2 ≠ 0))

/-- The (path, letter) pairs `decode` inserts for a table. -/
def tableCodes (table : Table) : List (List Bool × Nat) :=
  (codedSymbols table).map (fun s => (codeBits (table s), s))

/-- A 4 GiB input made of `2^32` bytes 0. -/
def manyZeros : List byte_t := List.replicate 4294967296 0

/-- Weighted length of an assignment of depths to weights: the sum of
weight times depth over the (weight, depth) pairs. -/
def pcost (P : Multiset (Nat × Nat)) : Nat := (P.map (fun e => e.1 * e.2)).sum

/-- Kraft sum of a multiset of depths, scaled by `2 ^ D`. -/
def kraftSum (D : Nat) (ds : Multiset Nat) : Nat := (ds.map (fun d => 2 ^ (D - d))).sum

/-- The depths of the pairs are at most `D` and satisfy Kraft's inequality, as
the leaf depths of any binary tree do. -/
def Admissible (D : Nat) (P : Multiset (Nat × Nat)) : Prop :=
  (∀ e ∈ P, e.2 ≤ D) ∧ kraftSum D (P.map Prod.snd) ≤ 2 ^ D

/-- The sum over the leaves below a node of depth times frequency, without
reduction modulo `2^32`; `d` is the depth of the node. -/
def cost : TreeNodePtr → Nat → Nat
  | null, _ => 0
  | node null null _ f, d => d * f
  | node l r _ _, d => cost l (d + 1) + cost r (d + 1)

/-- The sum of the frequencies stored at the leaves below a node. -/
def weight : TreeNodePtr → Nat
  | null => 0
  | node null null _ f => f
  | node l r _ _ => weight l + weight r

/-- Every leaf stores the frequency of its letter. -/
def carries (frequencies : Nat → Nat) : TreeNodePtr → Prop
  | null => True
  | node null null s w => w = frequencies s
  | node l r _ _ => carries frequencies l ∧ carries frequencies r

/-- The weighted length of a tree for a frequency table: the sum over its
leaves of depth times the frequency of the leaf's letter. -/
def weightedLength (frequencies : Nat → Nat) (t : TreeNodePtr) : Nat :=
  ((leafPaths t).map (fun e => e.1.length * frequencies e.2)).sum

/-- The (weight, depth) pairs of the leaves of a tree for a frequency table. -/
def depthPairs (frequencies : Nat → Nat) (t : TreeNodePtr) : Multiset (Nat × Nat) :=
  (((leafPaths t).map (fun e => (frequencies e.2, e.1.length)) : List (Nat × Nat)) :
    Multiset (Nat × Nat))

/-- A frequency table with ties: counts 6, 6, 2, 2, 1, 1 for the symbols 1 to 6. -/
def tiedFrequencies : Nat → Nat := fun s => [0, 6, 6, 2, 2, 1, 1].getD s 0

/-- The frequency table whose only non-zero entry is `f` at `s`. -/
def singleFrequency (s f : Nat) : Nat → Nat := fun i => if i = s then f else 0

/-- Number of distinct byte values in `input`: the byte values that occur in it. -/
def distinctBytes (input : List byte_t) : Nat :=
  ((List.range VALUES_RANGE).filter (fun s => decide (0 < occurrences input s))).length

/-- The shape of a tree together with the letters at its leaves: frequencies
and the letters of inner nodes are erased. -/
def skeleton : TreeNodePtr → TreeNodePtr
  | null => null
  | node null null s _ => node null null s 0
  | node l r _ _ => node (skeleton l) (skeleton r) 0 0

/-- The tree obtained from `HuffTree()` by one call
`add_letter(code, length, symbol)` per table entry of non-zero length, by
ascending symbol. -/
def rebuilt (table : Table) : HuffTree :=
  (codedSymbols table).foldl (fun t s => t.add_letter (table s).1 (table s).2 s) HuffTree.new

/-- The byte sequence made of `counts[0]` bytes of value `first`, then
`counts[1]` bytes of value `first + 1`, and so on. -/
def blocks : List Nat → Nat → List byte_t
  | [], _ => []
  | c :: cs, first => List.replicate c (toByte first) ++ blocks cs (first + 1)

/-- An input of 48,315,633 bytes in which the byte value `s < 35` occurs
`skewed[s]` times. -/
def skewedInput : List byte_t := blocks skewed 0

/-- The larger of the weights of the two children of a node (0 for a leaf). -/
def childWeight : TreeNodePtr → Nat
  | null => 0
  | node l r _ _ => max (weight l) (weight r)

/-- Sibling property: at every node, each child weighs at least as much as
either child of the other child. -/
def Balanced : TreeNodePtr → Prop
  | null => True
  | node l r _ _ => childWeight l ≤ weight r ∧ childWeight r ≤ weight l ∧ Balanced l ∧ Balanced r

/-- Every leaf stores a non-zero frequency. -/
def positive : TreeNodePtr → Prop
  | null => True
  | node null null _ f => 0 < f
  | node l r _ _ => positive l ∧ positive r

/-- An input of `2^32 + 1` bytes: `2^32` bytes 0 followed by one byte 1. -/
def zerosThenOne : List byte_t := List.replicate 4294967296 0 ++ [1]

/-! ## Verified properties -/

theorem shr_and_one (x j : Nat) : decide ((x >>> j) &&& 1 ≠ 0) = x.testBit j := by
  unfold Nat.testBit
  rw [Nat.and_comm]
  cases h : (1 &&& x >>> j) with
  | zero => simp
  | succ n => simp

theorem lowBits_length (x k : Nat) : (lowBits x k).length = k := by simp [lowBits]

theorem lowBits_succ (x k : Nat) : lowBits x (k + 1) = lowBits x k ++ [x.testBit k] := by
  simp [lowBits, List.range_succ]

theorem lowBits_congr {x y k : Nat} (h : ∀ j, j < k → x.testBit j = y.testBit j) :
    lowBits x k = lowBits y k := by
  unfold lowBits
  apply List.map_congr_left
  intro j hj
  exact h j (List.mem_range.1 hj)

theorem bytesBits_append (a b : List byte_t) : bytesBits (a ++ b) = bytesBits a ++ bytesBits b := by
  simp [bytesBits]

theorem bytesBits_cons (x : byte_t) (xs : List byte_t) :
    bytesBits (x :: xs) = lowBits x.val 8 ++ bytesBits xs := by simp [bytesBits]

theorem bytesBits_length (a : List byte_t) : (bytesBits a).length = 8 * a.length := by
  induction a with
  | nil => rfl
  | cons x xs ih =>
    rw [bytesBits_cons, List.length_append, ih, lowBits_length]
    simp only [List.length_cons]; omega

theorem toByte_val_of_lt {x : Nat} (h : x < 256) : (toByte x).val = x := by
  simp [toByte, Nat.mod_eq_of_lt h]

theorem setBit_lt {cy cb : Nat} (hlt : cy < 2 ^ cb) :
    (cy ||| 1 <<< cb) % 256 < 2 ^ (cb + 1) := by
  have h1 : cy < 2 ^ (cb + 1) := lt_of_lt_of_le hlt (Nat.pow_le_pow_right (by decide) (by omega))
  have h2 : 1 <<< cb < 2 ^ (cb + 1) := by
    rw [Nat.one_shiftLeft]; exact Nat.pow_lt_pow_right (by decide) (by omega)
  exact lt_of_le_of_lt (Nat.mod_le _ _) (Nat.or_lt_two_pow h1 h2)

theorem setBit_testBit {cy cb : Nat} (hcb : cb < 8) (j : Nat) (hj : j ≤ cb) :
    ((cy ||| 1 <<< cb) % 256).testBit j = (cy.testBit j || decide (cb = j)) := by
  have : (256 : Nat) = 2 ^ 8 := by norm_num
  rw [this, Nat.testBit_mod_two_pow, Nat.testBit_or, Nat.one_shiftLeft, Nat.testBit_two_pow]
  have : j < 8 := by omega
  simp [this]

theorem write_bit_spec (w : BitWriter) (b : Bool) (hw : w.Valid) :
    (w.write_bit b).Valid ∧ (w.write_bit b).bits = w.bits ++ [b] ∧
      1 ≤ (w.write_bit b).current_bit := by
  obtain ⟨h8, hlt⟩ := hw
  rcases w with ⟨out, cb, cy⟩
  simp only at h8 hlt
  by_cases hc : cb = 8
  · subst hc
    have hcy : cy < 256 := by simpa using hlt
    cases b
    · simp [BitWriter.write_bit, BitWriter.Valid, BitWriter.bits, bytesBits_append, bytesBits,
        toByte_val_of_lt hcy, lowBits]
    · simp [BitWriter.write_bit, BitWriter.Valid, BitWriter.bits, bytesBits_append, bytesBits,
        toByte_val_of_lt hcy, lowBits, List.range_succ]
  · have hcb : cb < 8 := by omega
    have hmod : (cb + 1) % 256 = cb + 1 := Nat.mod_eq_of_lt (by omega)
    cases b
    · have : cy.testBit cb = false := Nat.testBit_lt_two_pow hlt
      refine ⟨⟨?_, ?_⟩, ?_, ?_⟩
      · simp [BitWriter.write_bit, hc, hmod]; omega
      · simp only [BitWriter.write_bit, hc, hmod, if_false, Bool.false_eq_true]
        calc cy < 2 ^ cb := hlt
          _ ≤ 2 ^ (cb + 1) := Nat.pow_le_pow_right (by decide) (by omega)
      · simp [BitWriter.write_bit, hc, hmod, BitWriter.bits, lowBits_succ, this]
      · simp [BitWriter.write_bit, hc, hmod]
    · have h0 : cy.testBit cb = false := Nat.testBit_lt_two_pow hlt
      refine ⟨⟨?_, ?_⟩, ?_, ?_⟩
      · simp [BitWriter.write_bit, hc, hmod]; omega
      · simp only [BitWriter.write_bit, hc, hmod, if_false, if_true]
        exact setBit_lt hlt
      · simp only [BitWriter.write_bit, hc, hmod, if_false, if_true, BitWriter.bits,
          lowBits_succ, List.append_assoc]
        congr 2
        · apply lowBits_congr
          intro j hj
          rw [setBit_testBit hcb j (by omega)]
          have : cb ≠ j := by omega
          simp [this]
        · rw [setBit_testBit hcb cb (le_refl _)]; simp
      · simp [BitWriter.write_bit, hc, hmod]

theorem foldl_write_bit_spec (bs : List Bool) : ∀ (w : BitWriter), w.Valid →
    (bs.foldl BitWriter.write_bit w).Valid ∧ (bs.foldl BitWriter.write_bit w).bits = w.bits ++ bs ∧
      (bs ≠ [] → 1 ≤ (bs.foldl BitWriter.write_bit w).current_bit) := by
  induction bs with
  | nil => intro w hw; simp [hw]
  | cons b bs ih =>
    intro w hw
    obtain ⟨h1, h2, h3⟩ := write_bit_spec w b hw
    obtain ⟨i1, i2, i3⟩ := ih (w.write_bit b) h1
    refine ⟨i1, ?_, ?_⟩
    · simp only [List.foldl_cons, i2, h2, List.append_assoc, List.singleton_append]
    · intro _
      simp only [List.foldl_cons]
      by_cases hbs : bs = []
      · subst hbs; simpa using h3
      · exact i3 hbs

theorem lowBits_pad {cy cb : Nat} (hlt : cy < 2 ^ cb) (d : Nat) :
    lowBits cy (cb + d) = lowBits cy cb ++ List.replicate d false := by
  induction d with
  | zero => simp
  | succ d ih =>
    have hb : cy.testBit (cb + d) = false :=
      Nat.testBit_lt_two_pow (lt_of_lt_of_le hlt (Nat.pow_le_pow_right (by decide) (by omega)))
    rw [← Nat.add_assoc, lowBits_succ, ih, hb, List.replicate_succ', List.append_assoc]

theorem destroy_bits (w : BitWriter) (hw : w.Valid) :
    ∃ pad, pad < 8 ∧ bytesBits w.destroy = w.bits ++ List.replicate pad false := by
  obtain ⟨h8, hlt⟩ := hw
  by_cases hc : w.current_bit > 0
  · refine ⟨8 - w.current_bit, by omega, ?_⟩
    have hcy : w.current_byte < 256 :=
      lt_of_lt_of_le hlt (by
        have : (256 : Nat) = 2 ^ 8 := by norm_num
        rw [this]; exact Nat.pow_le_pow_right (by decide) h8)
    have := lowBits_pad hlt (8 - w.current_bit)
    rw [show w.current_bit + (8 - w.current_bit) = 8 by omega] at this
    simp only [BitWriter.destroy, hc, if_true, bytesBits_append, BitWriter.bits, List.append_assoc]
    simp [bytesBits, toByte_val_of_lt hcy, this]
  · refine ⟨0, by omega, ?_⟩
    have h0 : w.current_bit = 0 := by omega
    simp [BitWriter.destroy, hc, BitWriter.bits, h0, lowBits]

theorem close_out (w : BitWriter) : w.close.out = w.destroy := by
  unfold BitWriter.close BitWriter.destroy
  split <;> rfl

theorem bytesBits_getD (l : List byte_t) : ∀ (k j : Nat), k < l.length → j < 8 →
    (bytesBits l).getD (8 * k + j) false = (l.getD k 0).val.testBit j := by
  induction l with
  | nil => intro k j hk; simp at hk
  | cons x xs ih =>
    intro k j hk hj
    rw [bytesBits_cons]
    cases k with
    | zero =>
      have hlen : j < (lowBits x.val 8).length := by rw [lowBits_length]; exact hj
      simp only [Nat.mul_zero, Nat.zero_add, List.getD_cons_zero]
      rw [List.getD_append _ _ _ _ hlen]
      simp [lowBits, List.getD_eq_getElem?_getD, hj]
    | succ k =>
      have hk' : k < xs.length := by simpa using hk
      have hge : (lowBits x.val 8).length ≤ 8 * (k + 1) + j := by rw [lowBits_length]; omega
      rw [List.getD_append_right _ _ _ _ hge, lowBits_length,
        show 8 * (k + 1) + j - 8 = 8 * k + j by omega, ih k j hk' hj]
      simp

theorem opened_valid : BitWriter.open.Valid := by simp [BitWriter.open, BitWriter.Valid]

theorem written_bits (bits : List Bool) :
    ∃ pad, pad < 8 ∧ bytesBits (written bits) = bits ++ List.replicate pad false := by
  obtain ⟨hv, hb, -⟩ := foldl_write_bit_spec bits BitWriter.open opened_valid
  obtain ⟨pad, hp, h⟩ := destroy_bits _ hv
  refine ⟨pad, hp, ?_⟩
  rw [written, close_out, h, hb]
  simp [BitWriter.bits, BitWriter.open, bytesBits, lowBits]

theorem getD_replicate_false (n i : Nat) : (List.replicate n false).getD i false = false := by
  simp only [List.getD_eq_getElem?_getD, List.getElem?_replicate]
  split <;> rfl

/-- C10 (bit writer flush): after `n` calls of `write_bit` and `close` the sink
holds `ceil(n / 8)` bytes; bit `j` of byte `k` is the `(8k + j)`-th bit written
when there is one and 0 otherwise; no bits give an empty sink, and 1 to 7 bits
give exactly one byte holding them in its low-order positions. -/
theorem bit_writer_flush (bits : List Bool) :
    (written bits).length = (bits.length + 7) / 8 ∧
    (∀ k j, k < (written bits).length → j < 8 →
      ((written bits).getD k 0).val.testBit j = bits.getD (8 * k + j) false) ∧
    (bits.length = 0 → written bits = []) ∧
    (0 < bits.length → bits.length < 8 →
      ∃ b, written bits = [b] ∧ ∀ j, j < 8 → b.val.testBit j = bits.getD j false) := by
  obtain ⟨pad, hp, h⟩ := written_bits bits
  have hlen : 8 * (written bits).length = bits.length + pad := by
    rw [← bytesBits_length, h]; simp
  have hbit : ∀ k j, k < (written bits).length → j < 8 →
      ((written bits).getD k 0).val.testBit j = bits.getD (8 * k + j) false := by
    intro k j hk hj
    rw [← bytesBits_getD _ k j hk hj, h]
    by_cases hlt : 8 * k + j < bits.length
    · rw [List.getD_append _ _ _ _ hlt]
    · rw [List.getD_append_right _ _ _ _ (by omega), getD_replicate_false,
        List.getD_eq_default _ _ (by omega)]
  refine ⟨by omega, hbit, ?_, ?_⟩
  · intro h0
    exact List.eq_nil_of_length_eq_zero (by omega)
  · intro h1 h2
    have hl1 : (written bits).length = 1 := by omega
    obtain ⟨b, hb⟩ := List.length_eq_one.1 hl1
    refine ⟨b, hb, ?_⟩
    intro j hj
    have := hbit 0 j (by omega) hj
    simpa [hb] using this

theorem tree_induction {motive : TreeNodePtr → Prop} (hnull : motive null)
    (hleaf : ∀ s f, motive (node null null s f))
    (hnode : ∀ l r s f, ¬(l = null ∧ r = null) → motive l → motive r → motive (node l r s f)) :
    ∀ t, motive t := by
  intro t
  induction t with
  | null => exact hnull
  | node l r s f ihl ihr =>
    by_cases h : l = null ∧ r = null
    · obtain ⟨rfl, rfl⟩ := h; exact hleaf s f
    · exact hnode l r s f h ihl ihr

theorem leafPaths_node {l r : TreeNodePtr} (s f : Nat) (h : ¬(l = null ∧ r = null)) :
    leafPaths (node l r s f) = (leafPaths l).map (fun e => (false :: e.1, e.2))
      ++ (leafPaths r).map (fun e => (true :: e.1, e.2)) := by
  cases l <;> cases r <;> simp_all [leafPaths]

theorem isFull_node {l r : TreeNodePtr} (s f : Nat) (h : ¬(l = null ∧ r = null)) :
    isFull (node l r s f) = (isFull l && isFull r) := by
  cases l <;> cases r <;> simp_all [isFull]

theorem is_leaf_node (l r : TreeNodePtr) (s f : Nat) :
    (node l r s f).is_leaf = decide (l = null ∧ r = null) := by
  cases l <;> cases r <;> simp [is_leaf]

theorem make_table_impl_node {l r : TreeNodePtr} (s f code len : Nat) (table : Table)
    (h : ¬(l = null ∧ r = null)) :
    make_table_impl (node l r s f) code len table =
      make_table_impl r ((code ||| (1 <<< (len % 32))) % 4294967296) ((len + 1) % 256)
        (make_table_impl l code ((len + 1) % 256) table) := by
  cases l <;> cases r <;> simp_all [make_table_impl]

/-- `make_table_impl` writes one entry per leaf, from left to right. -/
theorem make_table_impl_eq (t : TreeNodePtr) : ∀ (code len : Nat) (table : Table),
    make_table_impl t code len table =
      (leafPaths t).foldl
        (fun (tb : Table) (e : List Bool × Nat) =>
          Function.update tb e.2 (pathCode code len e.1, pathLen len e.1)) table := by
  induction t using tree_induction with
  | hnull => intro code len table; simp [make_table_impl, leafPaths]
  | hleaf s f => intro code len table; simp [make_table_impl, leafPaths, pathCode, pathLen]
  | hnode l r s f h ihl ihr =>
    intro code len table
    rw [make_table_impl_node s f code len table h, leafPaths_node s f h, List.foldl_append,
      ihl, ihr, List.foldl_map, List.foldl_map]
    simp only [pathCode, pathLen]


theorem foldl_update_not_mem (g : List Bool → Nat × Nat) (s : Nat) :
    ∀ (L : List (List Bool × Nat)) (tb : Table), s ∉ L.map Prod.snd →
      (L.foldl (fun (tb : Table) (e : List Bool × Nat) => Function.update tb e.2 (g e.1)) tb) s
        = tb s := by
  intro L
  induction L with
  | nil => intro tb _; rfl
  | cons e L ih =>
    intro tb hs
    simp only [List.map_cons, List.mem_cons, not_or] at hs
    rw [List.foldl_cons, ih _ hs.2, Function.update_noteq hs.1]

theorem foldl_update_mem (g : List Bool → Nat × Nat) :
    ∀ (L : List (List Bool × Nat)) (tb : Table), (L.map Prod.snd).Nodup → ∀ e ∈ L,
      (L.foldl (fun (tb : Table) (e : List Bool × Nat) => Function.update tb e.2 (g e.1)) tb) e.2
        = g e.1 := by
  intro L
  induction L with
  | nil => intro tb _ e he; simp at he
  | cons x L ih =>
    intro tb hnd e he
    simp only [List.map_cons, List.nodup_cons] at hnd
    rw [List.foldl_cons]
    rcases List.mem_cons.1 he with rfl | he
    · rw [foldl_update_not_mem g _ L _ hnd.1, Function.update_same]
    · exact ih _ hnd.2 e he

theorem make_table_mem (t : HuffTree) (hnd : (letters t.root).Nodup) (e : List Bool × Nat)
    (he : e ∈ leafPaths t.root) : make_table t e.2 = (pathCode 0 0 e.1, pathLen 0 e.1) := by
  unfold make_table
  rw [make_table_impl_eq]
  exact foldl_update_mem (fun p => (pathCode 0 0 p, pathLen 0 p)) _ _ hnd e he

theorem make_table_not_mem (t : HuffTree) (s : Nat) (hs : s ∉ letters t.root) :
    make_table t s = (0, 0) := by
  unfold make_table
  rw [make_table_impl_eq]
  exact foldl_update_not_mem (fun p => (pathCode 0 0 p, pathLen 0 p)) s _ _ hs

theorem leafPaths_prefix_free (t : TreeNodePtr) :
    ∀ e₁ ∈ leafPaths t, ∀ e₂ ∈ leafPaths t, e₁.1 <+: e₂.1 → e₁ = e₂ := by
  induction t using tree_induction with
  | hnull => intro e₁ h; simp [leafPaths] at h
  | hleaf s f =>
    intro e₁ h₁ e₂ h₂ _
    simp only [leafPaths, List.mem_singleton] at h₁ h₂
    rw [h₁, h₂]
  | hnode l r s f h ihl ihr =>
    intro e₁ h₁ e₂ h₂ hp
    rw [leafPaths_node s f h] at h₁ h₂
    simp only [List.mem_append, List.mem_map] at h₁ h₂
    rcases h₁ with ⟨a, ha, rfl⟩ | ⟨a, ha, rfl⟩ <;> rcases h₂ with ⟨b, hb, rfl⟩ | ⟨b, hb, rfl⟩
    · have := ihl a ha b hb (by simpa using hp)
      rw [this]
    · simp at hp
    · simp at hp
    · have := ihr a ha b hb (by simpa using hp)
      rw [this]

theorem pathLen_eq : ∀ (p : List Bool) (len : Nat), len + p.length ≤ 255 →
    pathLen len p = len + p.length := by
  intro p
  induction p with
  | nil => intro len _; rfl
  | cons b p ih =>
    intro len h
    simp only [List.length_cons] at h
    rw [pathLen, Nat.mod_eq_of_lt (by omega), ih _ (by omega)]
    simp only [List.length_cons]; omega

theorem setBit32_lt {code len : Nat} (hlt : code < 2 ^ len) :
    (code ||| 1 <<< len) % 4294967296 < 2 ^ (len + 1) := by
  have h1 : code < 2 ^ (len + 1) :=
    lt_of_lt_of_le hlt (Nat.pow_le_pow_right (by decide) (by omega))
  have h2 : 1 <<< len < 2 ^ (len + 1) := by
    rw [Nat.one_shiftLeft]; exact Nat.pow_lt_pow_right (by decide) (by omega)
  exact lt_of_le_of_lt (Nat.mod_le _ _) (Nat.or_lt_two_pow h1 h2)

theorem setBit32_testBit {code len : Nat} (hlen : len < 32) (j : Nat) (hj : j ≤ len) :
    ((code ||| 1 <<< len) % 4294967296).testBit j = (code.testBit j || decide (len = j)) := by
  have : (4294967296 : Nat) = 2 ^ 32 := by norm_num
  rw [this, Nat.testBit_mod_two_pow, Nat.testBit_or, Nat.one_shiftLeft, Nat.testBit_two_pow]
  have : j < 32 := by omega
  simp [this]

theorem lowBits_pathCode : ∀ (p : List Bool) (code len : Nat), code < 2 ^ len →
    len + p.length ≤ 32 →
    lowBits (pathCode code len p) (len + p.length) = lowBits code len ++ p ∧
      pathCode code len p < 2 ^ (len + p.length) := by
  intro p
  induction p with
  | nil => intro code len h _; exact ⟨by simp [pathCode], by simpa [pathCode] using h⟩
  | cons b p ih =>
    intro code len hlt hlen
    simp only [List.length_cons] at hlen
    have hm : (len + 1) % 256 = len + 1 := Nat.mod_eq_of_lt (by omega)
    have e : len + (b :: p).length = (len + 1) + p.length := by
      simp only [List.length_cons]; omega
    cases b
    · have h1 : code < 2 ^ (len + 1) :=
        lt_of_lt_of_le hlt (Nat.pow_le_pow_right (by decide) (by omega))
      obtain ⟨i1, i2⟩ := ih code (len + 1) h1 (by omega)
      rw [pathCode, hm, e]
      refine ⟨?_, i2⟩
      rw [i1, lowBits_succ, Nat.testBit_lt_two_pow hlt]
      simp
    · obtain ⟨i1, i2⟩ := ih _ (len + 1) (setBit32_lt hlt) (by omega)
      have hm32 : len % 32 = len := Nat.mod_eq_of_lt (by omega)
      rw [pathCode, hm, hm32, e]
      refine ⟨?_, i2⟩
      rw [i1, lowBits_succ, setBit32_testBit (by omega) len (le_refl _)]
      have : lowBits ((code ||| 1 <<< len) % 4294967296) len = lowBits code len := by
        apply lowBits_congr
        intro j hj
        rw [setBit32_testBit (by omega) j (by omega)]
        have : len ≠ j := by omega
        simp [this]
      rw [this]
      simp

theorem codeBits_path (p : List Bool) (h : p.length ≤ 32) :
    codeBits (pathCode 0 0 p, pathLen 0 p) = p := by
  have h1 := (lowBits_pathCode p 0 0 (by simp) (by omega)).1
  have h2 := pathLen_eq p 0 (by omega)
  simp only [Nat.zero_add] at h1 h2
  have h0 : lowBits 0 0 = [] := rfl
  rw [codeBits, h2, h1, h0, List.nil_append]

theorem leafPaths_length_pos {t : TreeNodePtr} (h : isFull t = true) :
    0 < (leafPaths t).length := by
  induction t using tree_induction with
  | hnull => simp [isFull] at h
  | hleaf s f => simp [leafPaths]
  | hnode l r s f hn ihl ihr =>
    rw [isFull_node s f hn, Bool.and_eq_true] at h
    rw [leafPaths_node s f hn]
    have := ihl h.1
    simp only [List.length_append, List.length_map]
    omega

theorem path_length_lt {t : TreeNodePtr} (h : isFull t = true) :
    ∀ e ∈ leafPaths t, e.1.length + 1 ≤ (leafPaths t).length := by
  induction t using tree_induction with
  | hnull => simp [isFull] at h
  | hleaf s f => intro e he; simp only [leafPaths, List.mem_singleton] at he; simp [he, leafPaths]
  | hnode l r s f hn ihl ihr =>
    rw [isFull_node s f hn, Bool.and_eq_true] at h
    intro e he
    rw [leafPaths_node s f hn] at he ⊢
    have pl := leafPaths_length_pos h.1
    have pr := leafPaths_length_pos h.2
    simp only [List.mem_append, List.mem_map] at he
    simp only [List.length_append, List.length_map]
    rcases he with ⟨a, ha, rfl⟩ | ⟨a, ha, rfl⟩
    · have := ihl h.1 a ha
      simp only [List.length_cons]; omega
    · have := ihr h.2 a ha
      simp only [List.length_cons]; omega

theorem leafDepth_none (t : TreeNodePtr) (s : Nat) (hs : s ∉ letters t) :
    leafDepth t s = none := by
  induction t using tree_induction with
  | hnull => rfl
  | hleaf a f =>
    simp only [letters, leafPaths, List.map_cons, List.map_nil, List.mem_singleton] at hs
    simp [leafDepth, Ne.symm hs]
  | hnode l r a f hn ihl ihr =>
    simp only [letters, leafPaths_node a f hn, List.map_append, List.map_map,
      List.mem_append, not_or] at hs
    have h1 : s ∉ letters l := by
      intro h; apply hs.1; simpa [letters, Function.comp_def] using h
    have h2 : s ∉ letters r := by
      intro h; apply hs.2; simpa [letters, Function.comp_def] using h
    have : leafDepth (node l r a f) s =
        match leafDepth l s with
        | some d => some (d + 1)
        | none => (leafDepth r s).map (· + 1) := by
      cases l <;> cases r <;> simp_all [leafDepth]
    rw [this, ihl h1, ihr h2]
    rfl

theorem leafDepth_mem (t : TreeNodePtr) (hnd : (letters t).Nodup) :
    ∀ e ∈ leafPaths t, leafDepth t e.2 = some e.1.length := by
  induction t using tree_induction with
  | hnull => intro e he; simp [leafPaths] at he
  | hleaf a f =>
    intro e he
    simp only [leafPaths, List.mem_singleton] at he
    simp [he, leafDepth]
  | hnode l r a f hn ihl ihr =>
    intro e he
    have hl : letters (node l r a f) = letters l ++ letters r := by
      simp [letters, leafPaths_node a f hn, Function.comp_def]
    rw [hl] at hnd
    have hdef : leafDepth (node l r a f) e.2 =
        match leafDepth l e.2 with
        | some d => some (d + 1)
        | none => (leafDepth r e.2).map (· + 1) := by
      cases l <;> cases r <;> simp_all [leafDepth]
    rw [leafPaths_node a f hn] at he
    simp only [List.mem_append, List.mem_map] at he
    rcases he with ⟨x, hx, rfl⟩ | ⟨x, hx, rfl⟩
    · rw [hdef, ihl (List.Nodup.of_append_left hnd) x hx]
      simp
    · have hnot : x.2 ∉ letters l := by
        intro hm
        exact (List.disjoint_of_nodup_append hnd) hm (List.mem_map_of_mem Prod.snd hx)
      rw [hdef, leafDepth_none l _ hnot, ihr (List.Nodup.of_append_right hnd) x hx]
      simp

theorem forRange_succ {σ : Type} (n : Nat) (body : Nat → σ → σ) (s : σ) :
    forRange (n + 1) body s = body n (forRange n body s) := by
  simp [forRange, List.range_succ]

theorem forRange_zero {σ : Type} (body : Nat → σ → σ) (s : σ) : forRange 0 body s = s := rfl

theorem fillQueue_elems_aux (P : PriorityQueue) (f : Nat → Nat) (n : Nat) :
    P.elems (forRange n
      (fun letter pq =>
        if f letter = 0 then pq else P.emplace pq (TreeNode.leaf letter (f letter))) P.empty)
      = ((((List.range n).filter (fun s => decide (f s ≠ 0))).map
          (fun s => TreeNode.leaf s (f s)) : List TreeNodePtr) : Multiset TreeNodePtr) := by
  induction n with
  | zero => simp [forRange_zero, P.elems_empty]
  | succ n ih =>
    rw [forRange_succ, List.range_succ, List.filter_append, List.map_append]
    by_cases h : f n = 0
    · simp [h, ih]
    · simp only [h, if_false, P.elems_emplace, ih]
      simp [h, ← Multiset.coe_add, ← Multiset.singleton_add, add_comm]

theorem fillQueue_elems (P : PriorityQueue) (f : Nat → Nat) :
    P.elems (HuffTree.fillQueue P f) = (leafNodes f : Multiset TreeNodePtr) :=
  fillQueue_elems_aux P f VALUES_RANGE

theorem mergeLoop_reduces (P : PriorityQueue) : ∀ (fuel : Nat) (q : P.Q) (root : TreeNodePtr),
    1 ≤ Multiset.card (P.elems q) → Multiset.card (P.elems q) ≤ fuel + 1 →
    (Multiset.card (P.elems q) = 1 → root = P.top q) →
    Reduces (P.elems q) (HuffTree.mergeLoop P fuel q root) := by
  have single : ∀ (q : P.Q) (root : TreeNodePtr), Multiset.card (P.elems q) = 1 →
      root = P.top q → Reduces (P.elems q) root := by
    intro q root hc hr
    obtain ⟨a, ha⟩ := Multiset.card_eq_one.1 hc
    have hm := P.top_mem q (by rw [ha]; simp)
    rw [ha, Multiset.mem_singleton] at hm
    rw [ha, hr, hm]
    exact Reduces.single a
  intro fuel
  induction fuel with
  | zero =>
    intro q root h1 h2 h3
    have hc : Multiset.card (P.elems q) = 1 := by omega
    simpa [HuffTree.mergeLoop] using single q root hc (h3 hc)
  | succ fuel ih =>
    intro q root h1 h2 h3
    by_cases hs : P.size q > 1
    · have hne : P.elems q ≠ 0 := by
        intro h0; rw [P.size_eq, h0] at hs; simp at hs
      have hl := P.top_mem q hne
      have hc1 : Multiset.card (P.elems (P.pop q)) = Multiset.card (P.elems q) - 1 := by
        rw [P.elems_pop, Multiset.card_erase_of_mem hl]; rfl
      have hne1 : P.elems (P.pop q) ≠ 0 := by
        intro h0
        rw [h0, Multiset.card_zero] at hc1
        rw [P.size_eq] at hs
        omega
      have hr := P.top_mem (P.pop q) hne1
      have hc2 : Multiset.card (P.elems (P.pop (P.pop q))) = Multiset.card (P.elems q) - 2 := by
        rw [P.elems_pop, Multiset.card_erase_of_mem hr, hc1]; rfl
      rw [P.size_eq] at hs
      simp only [HuffTree.mergeLoop, P.size_eq, hs, if_true]
      have hc3 : Multiset.card (P.elems (P.emplace (P.pop (P.pop q))
          (TreeNode.merge (P.top q) (P.top (P.pop q))))) = Multiset.card (P.elems q) - 1 := by
        rw [P.elems_emplace, Multiset.card_cons, hc2]; omega
      have key := ih (P.emplace (P.pop (P.pop q)) (TreeNode.merge (P.top q) (P.top (P.pop q))))
        (P.top (P.emplace (P.pop (P.pop q)) (TreeNode.merge (P.top q) (P.top (P.pop q)))))
        (by omega) (by omega) (fun _ => rfl)
      rw [P.elems_emplace, P.elems_pop, P.elems_pop] at key
      refine Reduces.step _ (P.top q) (P.top (P.pop q)) _ hl (P.top_min q) ?_ ?_ key
      · rw [← P.elems_pop]; exact hr
      · rw [← P.elems_pop]; exact P.top_min (P.pop q)
    · rw [P.size_eq] at hs
      have hc : Multiset.card (P.elems q) = 1 := by omega
      simp only [HuffTree.mergeLoop, P.size_eq, hs, if_false]
      exact single q root hc (h3 hc)

theorem symbols_length (f : Nat → Nat) : (symbols f).length ≤ 256 := by
  unfold symbols
  exact le_trans (List.length_filter_le _ _) (by simp [VALUES_RANGE])

theorem mem_symbols {f : Nat → Nat} {s : Nat} : s ∈ symbols f ↔ s < 256 ∧ f s ≠ 0 := by
  simp [symbols, VALUES_RANGE]

theorem symbols_nodup (f : Nat → Nat) : (symbols f).Nodup :=
  List.Nodup.filter _ (List.nodup_range _)

/-- The three cases of the constructor. -/
theorem ofFrequencies_cases (P : PriorityQueue) (f : Nat → Nat) :
    (symbols f = [] ∧ (HuffTree.ofFrequencies P f).root = TreeNode.new) ∨
    (∃ s, symbols f = [s] ∧
      (HuffTree.ofFrequencies P f).root = node (TreeNode.leaf s (f s)) null 0 0) ∨
    (2 ≤ (symbols f).length ∧
      Reduces (leafNodes f : Multiset TreeNodePtr) (HuffTree.ofFrequencies P f).root) := by
  have he := fillQueue_elems P f
  have hsz : P.size (HuffTree.fillQueue P f) = (symbols f).length := by
    rw [P.size_eq, he]; simp [leafNodes]
  unfold HuffTree.ofFrequencies
  simp only [hsz]
  by_cases h0 : (symbols f).length = 0
  · left
    rw [if_pos h0]
    exact ⟨List.eq_nil_of_length_eq_zero h0, rfl⟩
  · by_cases h1 : (symbols f).length = 1
    · right; left
      obtain ⟨s, hs⟩ := List.length_eq_one.1 h1
      refine ⟨s, hs, ?_⟩
      rw [if_neg h0, if_pos h1]
      have hm := P.top_mem (HuffTree.fillQueue P f) (by rw [he]; simp [leafNodes, hs])
      rw [he] at hm
      simp only [leafNodes, hs, List.map_cons, List.map_nil, Multiset.mem_coe,
        List.mem_singleton] at hm
      rw [hm]
    · right; right
      refine ⟨by omega, ?_⟩
      rw [if_neg h0, if_neg h1]
      show Reduces _ (HuffTree.mergeLoop P _ _ null)
      rw [← he]
      apply mergeLoop_reduces
      · rw [← P.size_eq, hsz]; omega
      · rw [← P.size_eq, hsz]; omega
      · rw [← P.size_eq, hsz]; intro h; omega


theorem letters_merge {l r : TreeNodePtr} (hl : isFull l = true) :
    letters (TreeNode.merge l r) = letters l ++ letters r := by
  have hn : ¬(l = null ∧ r = null) := by
    rintro ⟨rfl, -⟩; simp [isFull] at hl
  simp [letters, TreeNode.merge, leafPaths_node _ _ hn, Function.comp_def]

theorem isFull_merge {l r : TreeNodePtr} (hl : isFull l = true) (hr : isFull r = true) :
    isFull (TreeNode.merge l r) = true := by
  have hn : ¬(l = null ∧ r = null) := by
    rintro ⟨rfl, -⟩; simp [isFull] at hl
  simp [TreeNode.merge, isFull_node _ _ hn, hl, hr]

theorem reduces_decompose {F : Multiset TreeNodePtr} {l r : TreeNodePtr} (hl : l ∈ F)
    (hr : r ∈ F.erase l) : F = l ::ₘ r ::ₘ (F.erase l).erase r := by
  rw [Multiset.cons_erase hr, Multiset.cons_erase hl]

theorem reduces_full_letters {F : Multiset TreeNodePtr} {t : TreeNodePtr} (h : Reduces F t) :
    (∀ x ∈ F, isFull x = true) →
      isFull t = true ∧
        (letters t : Multiset Nat) = (F.map (fun x => (letters x : Multiset Nat))).sum := by
  induction h with
  | single t => intro hF; exact ⟨hF t (by simp), by simp⟩
  | step F l r t hl hlmin hr hrmin h ih =>
    intro hF
    have hdec := reduces_decompose hl hr
    have hfl : isFull l = true := hF l hl
    have hfr : isFull r = true := hF r (Multiset.mem_of_mem_erase hr)
    have hF' : ∀ x ∈ TreeNode.merge l r ::ₘ (F.erase l).erase r, isFull x = true := by
      intro x hx
      rcases Multiset.mem_cons.1 hx with rfl | hx
      · exact isFull_merge hfl hfr
      · exact hF x (Multiset.mem_of_mem_erase (Multiset.mem_of_mem_erase hx))
    obtain ⟨i1, i2⟩ := ih hF'
    refine ⟨i1, ?_⟩
    rw [i2]
    conv_rhs => rw [hdec]
    simp only [Multiset.map_cons, Multiset.sum_cons, letters_merge hfl, ← Multiset.coe_add,
      add_assoc]

theorem leafNodes_full (f : Nat → Nat) : ∀ x ∈ (leafNodes f : Multiset TreeNodePtr),
    isFull x = true := by
  intro x hx
  simp only [leafNodes, Multiset.mem_coe, List.mem_map] at hx
  obtain ⟨s, -, rfl⟩ := hx
  rfl

theorem leafNodes_letters (f : Nat → Nat) :
    (((leafNodes f : Multiset TreeNodePtr)).map (fun x => (letters x : Multiset Nat))).sum
      = (symbols f : Multiset Nat) := by
  unfold leafNodes
  induction symbols f with
  | nil => simp
  | cons s L ih =>
    simp only [List.map_cons, ← Multiset.cons_coe, Multiset.map_cons, Multiset.sum_cons] at ih ⊢
    rw [ih]
    simp [letters, leafPaths, TreeNode.leaf]

/-- Shape of the tree built from two or more symbols. -/
theorem ofFrequencies_full (P : PriorityQueue) (f : Nat → Nat) (h2 : 2 ≤ (symbols f).length) :
    isFull (HuffTree.ofFrequencies P f).root = true ∧
      (letters (HuffTree.ofFrequencies P f).root).Perm (symbols f) := by
  rcases ofFrequencies_cases P f with ⟨h, -⟩ | ⟨s, h, -⟩ | ⟨-, h⟩
  · rw [h] at h2; simp at h2
  · rw [h] at h2; simp at h2
  · obtain ⟨h1, h3⟩ := reduces_full_letters h (leafNodes_full f)
    rw [leafNodes_letters] at h3
    exact ⟨h1, Multiset.coe_eq_coe.1 h3⟩

/-- Facts on the built tree that the table and the decoder rely on. -/
theorem ofFrequencies_paths (P : PriorityQueue) (f : Nat → Nat) :
    (letters (HuffTree.ofFrequencies P f).root).Nodup ∧
    (∀ e ∈ leafPaths (HuffTree.ofFrequencies P f).root, e.1.length ≤ 255) ∧
    (symbols f ≠ [] → (letters (HuffTree.ofFrequencies P f).root).Perm (symbols f) ∧
      ∀ e ∈ leafPaths (HuffTree.ofFrequencies P f).root, e.1 ≠ []) := by
  rcases ofFrequencies_cases P f with ⟨h, hr⟩ | ⟨s, h, hr⟩ | ⟨h2, -⟩
  · rw [hr]
    refine ⟨by simp [letters, leafPaths, TreeNode.new], ?_, fun hne => absurd h hne⟩
    intro e he
    simp only [TreeNode.new, leafPaths, List.mem_singleton] at he
    simp [he]
  · rw [hr]
    have hp : leafPaths (node (TreeNode.leaf s (f s)) null 0 0) = [([false], s)] := by
      simp [leafPaths, TreeNode.leaf]
    refine ⟨by simp [letters, hp], ?_, fun _ => ⟨by simp [letters, hp, h], ?_⟩⟩
    · intro e he; rw [hp, List.mem_singleton] at he; simp [he]
    · intro e he; rw [hp, List.mem_singleton] at he; simp [he]
  · obtain ⟨hfull, hperm⟩ := ofFrequencies_full P f h2
    have hlen : (leafPaths (HuffTree.ofFrequencies P f).root).length ≤ 256 := by
      have := hperm.length_eq
      have := symbols_length f
      simp only [letters, List.length_map] at *
      omega
    refine ⟨hperm.nodup_iff.2 (symbols_nodup f), ?_, fun _ => ⟨hperm, ?_⟩⟩
    · intro e he
      have := path_length_lt hfull e he
      omega
    · intro e he hnil
      have h1 := path_length_lt hfull e he
      -- a full tree with a leaf at the root has a single leaf
      have : (leafPaths (HuffTree.ofFrequencies P f).root).length = 1 := by
        generalize (HuffTree.ofFrequencies P f).root = t at he hfull
        induction t using tree_induction with
        | hnull => simp [leafPaths] at he
        | hleaf a b => simp [leafPaths]
        | hnode l r a b hn _ _ =>
          rw [leafPaths_node a b hn] at he
          simp only [List.mem_append, List.mem_map] at he
          rcases he with ⟨x, -, rfl⟩ | ⟨x, -, rfl⟩ <;> simp at hnil
      have h3 := hperm.length_eq
      simp only [letters, List.length_map] at h3
      omega

theorem ofFrequencies_empty (P : PriorityQueue) (f : Nat → Nat) (h : symbols f = []) :
    HuffTree.ofFrequencies P f = ⟨TreeNode.new⟩ := by
  rcases ofFrequencies_cases P f with ⟨-, hr⟩ | ⟨s, hs, -⟩ | ⟨h2, -⟩
  · cases hT : HuffTree.ofFrequencies P f with
    | mk root => rw [hT] at hr; simp only at hr; rw [hr]
  · rw [h] at hs; simp at hs
  · rw [h] at h2; simp at h2

set_option maxRecDepth 1000000 in
/-- C2 (empty input): for the empty input `encode` computes `code_len = 0` and
`table_size = 0`, writes exactly the 8 header bytes, and `decode` of that
output returns normally with the empty output. -/
theorem empty_input (P : PriorityQueue) :
    encode_code_len (get_frequencies [])
        (make_table (HuffTree.ofFrequencies P (get_frequencies []))) = 0 ∧
    encode_table_size (make_table (HuffTree.ofFrequencies P (get_frequencies []))) = 0 ∧
    encode P [] = le_bytes 0 ++ le_bytes 0 ∧
    (encode P []).length = 8 ∧
    decode (encode P []) = DecodeResult.ok [] := by
  have h : HuffTree.ofFrequencies P (get_frequencies []) = ⟨TreeNode.new⟩ :=
    ofFrequencies_empty P _ (by decide)
  unfold encode
  simp only [h]
  decide

/-- C5 (code lengths equal leaf depths): a symbol with a non-zero frequency
sits at exactly one leaf of the tree built by `HuffTree(frequencies)`, and the
length `make_table` records for it is the depth of that leaf. -/
theorem code_length_eq_leaf_depth (P : PriorityQueue) (frequencies : Nat → Nat) (b : Nat)
    (hb : b < 256) (hf : frequencies b ≠ 0) :
    (letters (HuffTree.ofFrequencies P frequencies).root).count b = 1 ∧
    leafDepth (HuffTree.ofFrequencies P frequencies).root b
      = some (make_table (HuffTree.ofFrequencies P frequencies) b).2 := by
  obtain ⟨hnd, hlen, hsym⟩ := ofFrequencies_paths P frequencies
  have hmem : b ∈ symbols frequencies := mem_symbols.2 ⟨hb, hf⟩
  obtain ⟨hperm, -⟩ := hsym (List.ne_nil_of_mem hmem)
  have hbl : b ∈ letters (HuffTree.ofFrequencies P frequencies).root := hperm.mem_iff.2 hmem
  refine ⟨List.count_eq_one_of_mem hnd hbl, ?_⟩
  obtain ⟨e, he, rfl⟩ := List.mem_map.1 hbl
  rw [leafDepth_mem _ hnd e he, make_table_mem _ hnd e he,
    pathLen_eq _ _ (by have := hlen e he; omega)]
  simp

/-- C5 at the symbol 98 of the table `twoSymbols`. -/
theorem code_length_eq_leaf_depth_witness :
    (98 < 256 ∧ twoSymbols 98 ≠ 0) ∧
    (letters (HuffTree.ofFrequencies listPQ twoSymbols).root).count 98 = 1 ∧
    leafDepth (HuffTree.ofFrequencies listPQ twoSymbols).root 98
      = some (make_table (HuffTree.ofFrequencies listPQ twoSymbols) 98).2 :=
  ⟨by decide, code_length_eq_leaf_depth listPQ twoSymbols 98 (by decide) (by decide)⟩

/-- A table entry of non-zero length belongs to a leaf of the tree. -/
theorem entry_of_length_ne_zero (t : HuffTree) (hnd : (letters t.root).Nodup) (a : Nat)
    (ha : (make_table t a).2 ≠ 0) :
    ∃ e ∈ leafPaths t.root, e.2 = a ∧ make_table t a = (pathCode 0 0 e.1, pathLen 0 e.1) := by
  by_cases hm : a ∈ letters t.root
  · obtain ⟨e, he, rfl⟩ := List.mem_map.1 hm
    exact ⟨e, he, rfl, make_table_mem t hnd e he⟩
  · rw [make_table_not_mem t a hm] at ha
    exact absurd rfl ha

/-- The letters at the leaves of a built tree are byte values. -/
theorem ofFrequencies_letter_lt (P : PriorityQueue) (f : Nat → Nat) :
    ∀ s ∈ letters (HuffTree.ofFrequencies P f).root, s < 256 := by
  intro s hs
  by_cases h : symbols f = []
  · rw [ofFrequencies_empty P f h] at hs
    simp [letters, leafPaths, TreeNode.new] at hs
    omega
  · obtain ⟨hperm, -⟩ := (ofFrequencies_paths P f).2.2 h
    exact (mem_symbols.1 (hperm.mem_iff.1 hs)).1

/-- The bit string of a table entry of non-zero length is the path to the
leaf, when lengths stay within 32. -/
theorem entry_bits (P : PriorityQueue) (f : Nat → Nat)
    (hlen : ∀ s, s < 256 → (make_table (HuffTree.ofFrequencies P f) s).2 ≤ 32)
    (e : List Bool × Nat) (he : e ∈ leafPaths (HuffTree.ofFrequencies P f).root) :
    e.1.length ≤ 32 ∧ make_table (HuffTree.ofFrequencies P f) e.2 = (pathCode 0 0 e.1, e.1.length)
      ∧ codeBits (make_table (HuffTree.ofFrequencies P f) e.2) = e.1 := by
  obtain ⟨hnd, h255, -⟩ := ofFrequencies_paths P f
  have hlt := ofFrequencies_letter_lt P f e.2 (List.mem_map_of_mem Prod.snd he)
  have hm := make_table_mem _ hnd e he
  have hpl := pathLen_eq e.1 0 (by have := h255 e he; omega)
  have h32 : e.1.length ≤ 32 := by
    have := hlen e.2 hlt
    rw [hm] at this
    simp only [hpl] at this
    omega
  refine ⟨h32, ?_, ?_⟩
  · rw [hm, hpl]; simp
  · rw [hm]; exact codeBits_path e.1 h32

/-- C4 as amended (prefix-freeness of the code table): when every code length
assigned by `make_table` is at most 32, the bit strings of two distinct symbols
with non-zero code length are not prefixes of one another. -/
theorem code_table_prefix_free (P : PriorityQueue) (frequencies : Nat → Nat)
    (hlen : ∀ s, s < 256 → (make_table (HuffTree.ofFrequencies P frequencies) s).2 ≤ 32)
    (a b : Nat) (hab : a ≠ b)
    (ha : (make_table (HuffTree.ofFrequencies P frequencies) a).2 ≠ 0)
    (hb : (make_table (HuffTree.ofFrequencies P frequencies) b).2 ≠ 0) :
    ¬ (codeBits (make_table (HuffTree.ofFrequencies P frequencies) a)
        <+: codeBits (make_table (HuffTree.ofFrequencies P frequencies) b)) := by
  obtain ⟨hnd, -, -⟩ := ofFrequencies_paths P frequencies
  obtain ⟨ea, hea, rfl, -⟩ := entry_of_length_ne_zero _ hnd a ha
  obtain ⟨eb, heb, rfl, -⟩ := entry_of_length_ne_zero _ hnd b hb
  rw [(entry_bits P frequencies hlen ea hea).2.2, (entry_bits P frequencies hlen eb heb).2.2]
  intro hp
  exact hab (by rw [leafPaths_prefix_free _ ea hea eb heb hp])

set_option maxRecDepth 1000000 in
/-- C4 as amended, at the symbols 97 and 98 of the table `twoSymbols`. -/
theorem code_table_prefix_free_witness :
    (∀ s, s < 256 → (make_table (HuffTree.ofFrequencies listPQ twoSymbols) s).2 ≤ 32) ∧
    (97 : Nat) ≠ 98 ∧
    (make_table (HuffTree.ofFrequencies listPQ twoSymbols) 97).2 ≠ 0 ∧
    (make_table (HuffTree.ofFrequencies listPQ twoSymbols) 98).2 ≠ 0 ∧
    ¬ (codeBits (make_table (HuffTree.ofFrequencies listPQ twoSymbols) 97)
        <+: codeBits (make_table (HuffTree.ofFrequencies listPQ twoSymbols) 98)) :=
  ⟨by decide, by decide, by decide, by decide,
    code_table_prefix_free listPQ twoSymbols (by decide) 97 98 (by decide) (by decide)
      (by decide)⟩

set_option maxRecDepth 1000000 in
/-- C4 as stated fails: with the counts `skewedFrequencies` the leaves of
symbols 0 and 1 are siblings at depth 34, both get the code `0xFFFFFFFF` with
length 34, so the code of symbol 0 is a prefix of (equal to) the code of the
distinct symbol 1. -/
theorem prefix_free_fails_beyond_32_bits :
    (0 : Nat) ≠ 1 ∧
    make_table (HuffTree.ofFrequencies listPQ skewedFrequencies) 0 = (4294967295, 34) ∧
    make_table (HuffTree.ofFrequencies listPQ skewedFrequencies) 1 = (4294967295, 34) ∧
    codeBits (make_table (HuffTree.ofFrequencies listPQ skewedFrequencies) 0)
      <+: codeBits (make_table (HuffTree.ofFrequencies listPQ skewedFrequencies) 1) := by
  have h0 : make_table (HuffTree.ofFrequencies listPQ skewedFrequencies) 0
      = (4294967295, 34) := by decide
  have h1 : make_table (HuffTree.ofFrequencies listPQ skewedFrequencies) 1
      = (4294967295, 34) := by decide
  refine ⟨by decide, h0, h1, ?_⟩
  rw [h0, h1]

theorem write_header_eq (table : Table) (n ts : Nat) (w : BitWriter) :
    write_header table n ts w =
      ⟨w.out ++ le_bytes n ++ le_bytes ts ++ tableEntries table, w.current_bit, w.current_byte⟩ := by
  unfold write_header tableEntries
  generalize VALUES_RANGE = N
  induction N with
  | zero => simp [forRange_zero, tableEntriesBelow, BitWriter.write_bytes]
  | succ N ih =>
    rw [forRange_succ, ih]
    by_cases h : (table N).2 = 0
    · simp [h, tableEntriesBelow, List.range_succ, List.filter_append]
    · simp [h, tableEntriesBelow, List.range_succ, List.filter_append, BitWriter.write_bytes,
        BitWriter.write_byte, tableEntry]

theorem shiftedBits_length (e : Nat × Nat) : (shiftedBits e).length = e.2 := by
  simp [shiftedBits]

/-- Up to 32 bits the program takes the low-order bits of the code. -/
theorem shiftedBits_eq (e : Nat × Nat) (h : e.2 ≤ 32) : shiftedBits e = codeBits e := by
  unfold shiftedBits codeBits lowBits
  apply List.map_congr_left
  intro j hj
  rw [Nat.mod_eq_of_lt (by have := List.mem_range.1 hj; omega)]

theorem writtenBits_eq (table : Table) (input : List byte_t)
    (h : ∀ s, s < 256 → (table s).2 ≤ 32) : writtenBits table input = payloadBits table input := by
  unfold writtenBits payloadBits
  apply congrArg List.flatten
  apply List.map_congr_left
  intro b _
  exact shiftedBits_eq _ (h _ b.isLt)

theorem writtenBits_length (table : Table) (input : List byte_t) :
    (writtenBits table input).length = (input.map (fun b => (table b.val).2)).sum := by
  induction input with
  | nil => rfl
  | cons b rest ih =>
    have : writtenBits table (b :: rest) = shiftedBits (table b.val) ++ writtenBits table rest := by
      simp [writtenBits]
    rw [this, List.length_append, ih, shiftedBits_length]
    simp

theorem write_code_eq (code len : Nat) (w : BitWriter) :
    write_code code len w = (shiftedBits (code, len)).foldl BitWriter.write_bit w := by
  unfold write_code forRange shiftedBits
  rw [List.foldl_map]
  simp only [shr_and_one]

theorem write_payload_eq (table : Table) : ∀ (input : List byte_t) (w : BitWriter),
    write_payload table input w = (writtenBits table input).foldl BitWriter.write_bit w := by
  intro input
  induction input with
  | nil => intro w; rfl
  | cons b rest ih =>
    intro w
    rw [write_payload, ih, write_code_eq]
    simp [writtenBits, List.foldl_append]

theorem write_bit_shift (pre : List byte_t) (w : BitWriter) (b : Bool) :
    BitWriter.write_bit ⟨pre ++ w.out, w.current_bit, w.current_byte⟩ b =
      ⟨pre ++ (w.write_bit b).out, (w.write_bit b).current_bit, (w.write_bit b).current_byte⟩ := by
  unfold BitWriter.write_bit
  by_cases h : w.current_bit = 8 <;> cases b <;> simp [h]

theorem foldl_write_bit_shift (pre : List byte_t) : ∀ (bits : List Bool) (w : BitWriter),
    bits.foldl BitWriter.write_bit ⟨pre ++ w.out, w.current_bit, w.current_byte⟩ =
      ⟨pre ++ (bits.foldl BitWriter.write_bit w).out,
        (bits.foldl BitWriter.write_bit w).current_bit,
        (bits.foldl BitWriter.write_bit w).current_byte⟩ := by
  intro bits
  induction bits with
  | nil => intro w; rfl
  | cons b bits ih =>
    intro w
    rw [List.foldl_cons, write_bit_shift, ih, List.foldl_cons]

/-- The output of `encode`: header fields, symbol table, and the packed bits
taken from the table entries of the input bytes. -/
theorem write_encoded_bits (input : List byte_t) (table : Table) (n ts : Nat) :
    write_encoded input table n ts =
      le_bytes n ++ le_bytes ts ++ tableEntries table ++ written (writtenBits table input) := by
  unfold write_encoded
  rw [write_header_eq, write_payload_eq]
  have := foldl_write_bit_shift (le_bytes n ++ le_bytes ts ++ tableEntries table)
    (writtenBits table input) BitWriter.open
  simp only [BitWriter.open, List.nil_append, List.append_assoc, List.append_nil] at this ⊢
  rw [this, written, close_out]
  simp only [BitWriter.destroy, BitWriter.open]
  split <;> simp

/-- The output of `encode` for a table with code lengths of at most 32: header
fields, symbol table, packed payload. -/
theorem write_encoded_eq (input : List byte_t) (table : Table) (n ts : Nat)
    (h : ∀ s, s < 256 → (table s).2 ≤ 32) :
    write_encoded input table n ts =
      le_bytes n ++ le_bytes ts ++ tableEntries table ++ written (payloadBits table input) := by
  rw [write_encoded_bits, writtenBits_eq table input h]

/-- C7 as amended (payload content): for every input for which every code
length assigned by `make_table` is at most 32, what `encode` writes after the
symbol table is the concatenation, over the input bytes in order, of the
`length` low-order bits of the byte's code from least to most significant,
packed into bytes least significant bit first and padded with fewer than 8 zero
bits. -/
theorem payload_content (P : PriorityQueue) (input : List byte_t)
    (hlen : ∀ s, s < 256 →
      (make_table (HuffTree.ofFrequencies P (get_frequencies input)) s).2 ≤ 32) :
    ∃ payload pad, pad < 8 ∧
      encode P input =
        le_bytes (encode_code_len (get_frequencies input)
            (make_table (HuffTree.ofFrequencies P (get_frequencies input))))
          ++ le_bytes (encode_table_size
            (make_table (HuffTree.ofFrequencies P (get_frequencies input))))
          ++ tableEntries (make_table (HuffTree.ofFrequencies P (get_frequencies input)))
          ++ payload ∧
      bytesBits payload =
        payloadBits (make_table (HuffTree.ofFrequencies P (get_frequencies input))) input
          ++ List.replicate pad false := by
  obtain ⟨pad, hp, h⟩ := written_bits
    (payloadBits (make_table (HuffTree.ofFrequencies P (get_frequencies input))) input)
  exact ⟨_, pad, hp, write_encoded_eq _ _ _ _ hlen, h⟩


theorem written_length (bits : List Bool) : (written bits).length = (bits.length + 7) / 8 := by
  obtain ⟨pad, hp, h⟩ := written_bits bits
  have hlen : 8 * (written bits).length = bits.length + pad := by
    rw [← bytesBits_length, h]; simp
  omega

theorem get_frequencies_loop_eq : ∀ (input : List byte_t) (f : Nat → Nat) (s : Nat),
    get_frequencies_loop input f s % 4294967296 = (f s + occurrences input s) % 4294967296 := by
  intro input
  induction input with
  | nil => intro f s; simp [get_frequencies_loop, occurrences]
  | cons b rest ih =>
    intro f s
    rw [get_frequencies_loop, ih]
    by_cases h : s = b.val
    · subst h
      simp only [Function.update_same, occurrences, List.map_cons, List.count_cons_self]
      omega
    · have h' : ¬ (b.val == s) = true := by simpa using Ne.symm h
      simp only [Function.update_noteq h, occurrences, List.map_cons, List.count_cons, h',
        if_false, Bool.false_eq_true, Nat.add_zero]

theorem get_frequencies_loop_lt : ∀ (input : List byte_t) (f : Nat → Nat),
    (∀ s, f s < 4294967296) → ∀ s, get_frequencies_loop input f s < 4294967296 := by
  intro input
  induction input with
  | nil => intro f hf s; exact hf s
  | cons b rest ih =>
    intro f hf s
    rw [get_frequencies_loop]
    apply ih
    intro t
    by_cases h : t = b.val
    · subst h; simp only [Function.update_same]; exact Nat.mod_lt _ (by norm_num)
    · simp only [Function.update_noteq h]; exact hf t

/-- The entries of the frequency table are the occurrence counts reduced modulo `2^32`. -/
theorem get_frequencies_eq (input : List byte_t) (s : Nat) :
    get_frequencies input s = occurrences input s % 4294967296 := by
  have h1 := get_frequencies_loop_eq input (fun _ => 0) s
  have h2 := get_frequencies_loop_lt input (fun _ => 0) (fun _ => by norm_num) s
  rw [Nat.mod_eq_of_lt h2] at h1
  simpa [get_frequencies] using h1

theorem encode_code_len_eq (f : Nat → Nat) (table : Table) :
    encode_code_len f table
      = (((List.range VALUES_RANGE).map (fun s => f s * (table s).2)).sum) % 4294967296 := by
  unfold encode_code_len
  generalize VALUES_RANGE = N
  induction N with
  | zero => simp [forRange_zero]
  | succ N ih =>
    rw [forRange_succ, ih, List.range_succ, List.map_append, List.sum_append]
    simp only [List.map_cons, List.map_nil, List.sum_cons, List.sum_nil, Nat.add_zero]
    omega

theorem occurrences_lt (input : List byte_t) (s : Nat) (h : 256 ≤ s) : occurrences input s = 0 := by
  unfold occurrences
  apply List.count_eq_zero_of_not_mem
  intro hm
  obtain ⟨b, -, hb⟩ := List.mem_map.1 hm
  have := b.isLt
  omega

theorem sum_occurrences (g : Nat → Nat) (N : Nat) : ∀ (input : List byte_t),
    (∀ b ∈ input, b.val < N) →
    ((List.range N).map (fun s => occurrences input s * g s)).sum
      = (input.map (fun b => g b.val)).sum := by
  intro input
  induction input with
  | nil => intro _; simp [occurrences]
  | cons b rest ih =>
    intro hb
    have hrest := ih (fun x hx => hb x (List.mem_cons_of_mem _ hx))
    have hbN : b.val < N := hb b (List.mem_cons_self _ _)
    rw [List.map_cons, List.sum_cons, ← hrest]
    have key : ∀ s, occurrences (b :: rest) s * g s
        = (if s = b.val then g s else 0) + occurrences rest s * g s := by
      intro s
      by_cases h : s = b.val
      · subst h
        simp only [occurrences, List.map_cons, List.count_cons_self, if_true]
        ring
      · have h' : ¬ (b.val == s) = true := by simpa using Ne.symm h
        simp [occurrences, List.count_cons, h', h]
    simp only [key]
    rw [List.sum_map_add]
    congr 1
    have : ∀ M, ((List.range M).map (fun s => if s = b.val then g s else 0)).sum
        = if b.val < M then g b.val else 0 := by
      intro M
      induction M with
      | zero => simp
      | succ M ihM =>
        rw [List.range_succ, List.map_append, List.sum_append, ihM]
        by_cases h1 : b.val < M
        · have : M ≠ b.val := by omega
          simp [h1, this, Nat.lt_succ_of_lt h1]
        · by_cases h2 : M = b.val
          · simp [h1, h2]
          · have : ¬ b.val < M + 1 := by omega
            simp [h1, h2, this]
    rw [this N, if_pos hbN]

theorem payloadBits_length (table : Table) (input : List byte_t) :
    (payloadBits table input).length = (input.map (fun b => (table b.val).2)).sum := by
  induction input with
  | nil => rfl
  | cons b rest ih =>
    have : payloadBits table (b :: rest) = codeBits (table b.val) ++ payloadBits table rest := by
      simp [payloadBits]
    rw [this, List.length_append, ih]
    simp [codeBits, lowBits_length]


/-- When the payload has fewer than `2^32` bits, `code_len` is its number of bits. -/
theorem code_len_exact (table : Table) (input : List byte_t)
    (hbits : (payloadBits table input).length < 4294967296) :
    encode_code_len (get_frequencies input) table = (payloadBits table input).length := by
  have hsum : ((List.range VALUES_RANGE).map (fun s => occurrences input s * (table s).2)).sum
      = (input.map (fun b => (table b.val).2)).sum :=
    sum_occurrences (fun s => (table s).2) VALUES_RANGE input
      (fun b _ => by simp [VALUES_RANGE])
  rw [payloadBits_length] at hbits ⊢
  rw [← hsum] at hbits ⊢
  rw [encode_code_len_eq]
  have hterm : ∀ s ∈ List.range VALUES_RANGE,
      get_frequencies input s * (table s).2 = occurrences input s * (table s).2 := by
    intro s hs
    by_cases h0 : (table s).2 = 0
    · simp [h0]
    · have hle : occurrences input s * (table s).2
          ≤ ((List.range VALUES_RANGE).map (fun s => occurrences input s * (table s).2)).sum :=
        List.single_le_sum (by intro x _; exact Nat.zero_le x) _
          (List.mem_map_of_mem (fun s => occurrences input s * (table s).2) hs)
      have hpos : 1 ≤ (table s).2 := Nat.one_le_iff_ne_zero.2 h0
      have : occurrences input s ≤ occurrences input s * (table s).2 :=
        Nat.le_mul_of_pos_right _ hpos
      rw [get_frequencies_eq, Nat.mod_eq_of_lt (by omega)]
  rw [List.map_congr_left hterm, Nat.mod_eq_of_lt hbits]

theorem encode_table_size_eq (table : Table) :
    encode_table_size table
      = ((List.range VALUES_RANGE).filter (fun s => decide ((table s).2 ≠ 0))).length := by
  unfold encode_table_size
  have h1 : (fun byte => decide ((table byte).2 > 0)) = (fun s => decide ((table s).2 ≠ 0)) := by
    funext s; simp [Nat.pos_iff_ne_zero]
  rw [h1, List.countP_eq_length_filter]
  apply Nat.mod_eq_of_lt
  have := List.length_filter_le (fun s => decide ((table s).2 ≠ 0)) (List.range VALUES_RANGE)
  simp only [List.length_range, VALUES_RANGE] at this
  simp only [VALUES_RANGE]
  omega

theorem tableEntries_length (table : Table) :
    (tableEntries table).length
      = 6 * ((List.range VALUES_RANGE).filter (fun s => decide ((table s).2 ≠ 0))).length := by
  unfold tableEntries tableEntriesBelow
  induction (List.range VALUES_RANGE).filter (fun s => decide ((table s).2 ≠ 0)) with
  | nil => rfl
  | cons s L ih =>
    simp only [List.map_cons, List.flatten_cons, List.length_append, ih, List.length_cons]
    simp [tableEntry, le_bytes]
    omega

/-- C6 as amended (header and table layout): when the payload has fewer than
`2^32` bits, the output of `encode` is `code_len` as 4 little-endian bytes,
`table_size` as 4 little-endian bytes, `table_size` entries of 6 bytes (code as
4 little-endian bytes, length, symbol), one per symbol with non-zero code
length by ascending symbol, then `ceil(code_len / 8)` payload bytes:
`8 + 6 * table_size + ceil(code_len / 8)` bytes in all. -/
theorem encoded_layout (P : PriorityQueue) (input : List byte_t)
    (hbits : (payloadBits (make_table (HuffTree.ofFrequencies P (get_frequencies input)))
      input).length < 4294967296) :
    ∃ payload,
      encode P input =
        le_bytes (encode_code_len (get_frequencies input)
            (make_table (HuffTree.ofFrequencies P (get_frequencies input))))
          ++ le_bytes (encode_table_size
            (make_table (HuffTree.ofFrequencies P (get_frequencies input))))
          ++ tableEntries (make_table (HuffTree.ofFrequencies P (get_frequencies input)))
          ++ payload ∧
      (tableEntries (make_table (HuffTree.ofFrequencies P (get_frequencies input)))).length
        = 6 * encode_table_size (make_table (HuffTree.ofFrequencies P (get_frequencies input))) ∧
      payload.length
        = (encode_code_len (get_frequencies input)
            (make_table (HuffTree.ofFrequencies P (get_frequencies input))) + 7) / 8 ∧
      (encode P input).length
        = 8 + 6 * encode_table_size (make_table (HuffTree.ofFrequencies P (get_frequencies input)))
          + (encode_code_len (get_frequencies input)
            (make_table (HuffTree.ofFrequencies P (get_frequencies input))) + 7) / 8 := by
  have hw : (writtenBits (make_table (HuffTree.ofFrequencies P (get_frequencies input)))
      input).length = encode_code_len (get_frequencies input)
        (make_table (HuffTree.ofFrequencies P (get_frequencies input))) := by
    rw [writtenBits_length, ← payloadBits_length, code_len_exact _ _ hbits]
  refine ⟨written (writtenBits (make_table (HuffTree.ofFrequencies P (get_frequencies input)))
    input), write_encoded_bits _ _ _ _, ?_, ?_, ?_⟩
  · rw [tableEntries_length, encode_table_size_eq]
  · rw [written_length, hw]
  · unfold encode
    rw [write_encoded_bits]
    simp only [List.length_append, written_length, hw, tableEntries_length,
      encode_table_size_eq]
    simp [le_bytes]


set_option maxRecDepth 1000000 in
/-- C6 as amended, at the input `smallInput`. -/
theorem encoded_layout_witness :
    (payloadBits (make_table (HuffTree.ofFrequencies listPQ (get_frequencies smallInput)))
      smallInput).length < 4294967296 ∧
    ∃ payload,
      encode listPQ smallInput =
        le_bytes (encode_code_len (get_frequencies smallInput)
            (make_table (HuffTree.ofFrequencies listPQ (get_frequencies smallInput))))
          ++ le_bytes (encode_table_size
            (make_table (HuffTree.ofFrequencies listPQ (get_frequencies smallInput))))
          ++ tableEntries (make_table (HuffTree.ofFrequencies listPQ (get_frequencies smallInput)))
          ++ payload ∧
      (tableEntries (make_table (HuffTree.ofFrequencies listPQ (get_frequencies smallInput)))).length
        = 6 * encode_table_size
            (make_table (HuffTree.ofFrequencies listPQ (get_frequencies smallInput))) ∧
      payload.length
        = (encode_code_len (get_frequencies smallInput)
            (make_table (HuffTree.ofFrequencies listPQ (get_frequencies smallInput))) + 7) / 8 ∧
      (encode listPQ smallInput).length
        = 8 + 6 * encode_table_size
              (make_table (HuffTree.ofFrequencies listPQ (get_frequencies smallInput)))
          + (encode_code_len (get_frequencies smallInput)
            (make_table (HuffTree.ofFrequencies listPQ (get_frequencies smallInput))) + 7) / 8 :=
  ⟨by decide, encoded_layout listPQ smallInput (by decide)⟩

theorem occurrences_append (a b : List byte_t) (s : Nat) :
    occurrences (a ++ b) s = occurrences a s + occurrences b s := by
  simp [occurrences]

theorem occurrences_replicate (n : Nat) (b : byte_t) (s : Nat) :
    occurrences (List.replicate n b) s = if b.val = s then n else 0 := by
  simp only [occurrences, List.map_replicate, List.count_replicate]
  by_cases h : b.val = s <;> simp [h]

theorem get_frequencies_bigInput : get_frequencies bigInput = bigFrequencies := by
  funext s
  rw [get_frequencies_eq, bigInput, occurrences_append, occurrences_replicate,
    occurrences_replicate, bigFrequencies]
  have e0 : ((0 : byte_t).val) = 0 := rfl
  have e1 : ((1 : byte_t).val) = 1 := rfl
  rw [e0, e1]
  by_cases h0 : 0 = s
  · subst h0; simp
  · by_cases h1 : 1 = s
    · subst h1; simp
    · have g0 : ¬ s = 0 := fun h => h0 h.symm
      have g1 : ¬ s = 1 := fun h => h1 h.symm
      simp [h0, h1, g0, g1]

set_option maxRecDepth 1000000 in
/-- C6 as stated fails: for the 4 GiB input `bigInput` both symbols get a
1-bit code, the payload has `2^32` bits, `code_len` wraps to 0 and
`table_size` is 2, yet the output has `20 + 2^29` bytes and not
`8 + 6 * 2 + ceil(0 / 8) = 20`. -/
theorem layout_fails_when_code_len_wraps :
    encode_code_len (get_frequencies bigInput)
        (make_table (HuffTree.ofFrequencies listPQ (get_frequencies bigInput))) = 0 ∧
    encode_table_size (make_table (HuffTree.ofFrequencies listPQ (get_frequencies bigInput))) = 2 ∧
    (encode listPQ bigInput).length = 536870932 ∧
    (encode listPQ bigInput).length ≠
      8 + 6 * encode_table_size
            (make_table (HuffTree.ofFrequencies listPQ (get_frequencies bigInput)))
        + (encode_code_len (get_frequencies bigInput)
            (make_table (HuffTree.ofFrequencies listPQ (get_frequencies bigInput))) + 7) / 8 := by
  have h0 : (make_table (HuffTree.ofFrequencies listPQ bigFrequencies) 0).2 = 1 := by decide
  have h1 : (make_table (HuffTree.ofFrequencies listPQ bigFrequencies) 1).2 = 1 := by decide
  have hc : encode_code_len bigFrequencies
      (make_table (HuffTree.ofFrequencies listPQ bigFrequencies)) = 0 := by decide
  have ht : encode_table_size (make_table (HuffTree.ofFrequencies listPQ bigFrequencies)) = 2 := by
    decide
  have hl : (encode listPQ bigInput).length = 536870932 := by
    unfold encode
    rw [write_encoded_bits, get_frequencies_bigInput]
    simp only [List.length_append, written_length, tableEntries_length, ← encode_table_size_eq, ht,
      writtenBits_length]
    have hb : (bigInput.map
        (fun b => (make_table (HuffTree.ofFrequencies listPQ bigFrequencies) b.val).2)).sum
          = 4294967296 := by
      simp only [bigInput, List.map_append, List.map_replicate, List.sum_append,
        List.sum_replicate, smul_eq_mul]
      have e0 : ((0 : byte_t).val) = 0 := rfl
      have e1 : ((1 : byte_t).val) = 1 := rfl
      rw [e0, e1, h0, h1]
    rw [hb]
    simp [le_bytes]
  rw [get_frequencies_bigInput] at *
  refine ⟨hc, ht, hl, ?_⟩
  rw [hl, hc, ht]
  decide

theorem read_bit_nil (r : BitReader) (h : r.current_bit ≤ 8) (hb : r.bits = []) :
    r.read_bit.1 = none := by
  unfold BitReader.bits at hb
  have h1 := List.append_eq_nil.1 hb
  have h8 : r.current_bit = 8 := by
    have := congrArg List.length h1.1
    simp [lowBits_length] at this
    omega
  have hs : r.src = [] := by
    cases hsrc : r.src with
    | nil => rfl
    | cons c rest =>
      have := congrArg List.length h1.2
      rw [hsrc, bytesBits_length] at this
      simp at this
  simp [BitReader.read_bit, h8, hs]

theorem lowBits_drop (x k : Nat) (hk : k < 8) :
    (lowBits x 8).drop k = x.testBit k :: (lowBits x 8).drop (k + 1) := by
  have hlen : k < (lowBits x 8).length := by rw [lowBits_length]; exact hk
  rw [List.drop_eq_getElem_cons hlen]
  simp [lowBits]

theorem read_bit_cons (r : BitReader) (h : r.current_bit ≤ 8) (b : Bool) (bs : List Bool)
    (hb : r.bits = b :: bs) :
    r.read_bit.1 = some b ∧ r.read_bit.2.bits = bs ∧ r.read_bit.2.current_bit ≤ 8 := by
  by_cases h8 : r.current_bit = 8
  · cases hsrc : r.src with
    | nil =>
      have := congrArg List.length hb
      simp [BitReader.bits, h8, hsrc, lowBits_length, bytesBits] at this
    | cons c rest =>
      have hd : (lowBits r.current_byte 8).drop 8 = [] := by
        apply List.drop_eq_nil_of_le; rw [lowBits_length]
      rw [BitReader.bits, h8, hsrc, hd, List.nil_append, bytesBits_cons,
        ← List.drop_zero (lowBits c.val 8), lowBits_drop _ 0 (by norm_num), List.cons_append,
        List.cons.injEq] at hb
      simp only [BitReader.read_bit, h8, hsrc, if_true, BitReader.take_bit, shr_and_one,
        BitReader.bits]
      refine ⟨by rw [hb.1], ?_, by norm_num⟩
      rw [← hb.2]
  · have hlt : r.current_bit < 8 := by omega
    rw [BitReader.bits, lowBits_drop _ _ hlt, List.cons_append, List.cons.injEq] at hb
    have hm : (r.current_bit + 1) % 256 = r.current_bit + 1 := Nat.mod_eq_of_lt (by omega)
    simp only [BitReader.read_bit, h8, if_false, BitReader.take_bit, shr_and_one, BitReader.bits,
      hm]
    exact ⟨by rw [hb.1], hb.2, by omega⟩

theorem decode_loop_eq (root : TreeNodePtr) : ∀ (n : Nat) (r : BitReader) (cur : TreeNodePtr)
    (w : BitWriter), r.current_bit ≤ 8 →
    decode_loop root n r cur w = loopResult r n w (walk root (r.bits.take n) cur w.out) := by
  intro n
  induction n with
  | zero =>
    intro r cur w _
    simp [decode_loop, walk, loopResult, BitReader.skip]
  | succ n ih =>
    intro r cur w h
    cases hb : r.bits with
    | nil =>
      have := read_bit_nil r h hb
      have e : r.read_bit = (none, r.read_bit.2) := by rw [← this]
      rw [decode_loop, e]
      simp [walk, loopResult, hb]
    | cons b bs =>
      obtain ⟨h1, h2, h3⟩ := read_bit_cons r h b bs hb
      have e : r.read_bit = (some b, r.read_bit.2) := by rw [← h1]
      rw [decode_loop, e]
      simp only [List.take_succ_cons, walk]
      have hres : ∀ o, loopResult r.read_bit.2 n
          ⟨o, w.current_bit, w.current_byte⟩ = loopResult r (n + 1) ⟨o, w.current_bit, w.current_byte⟩ := by
        intro o
        funext x
        cases x with
        | corrupt => rfl
        | done c o' =>
          simp only [loopResult, h2, hb, List.length_cons, BitReader.skip, Nat.add_lt_add_iff_right]
      by_cases hn : (if b = true then cur.right else cur.left) = null
      · simp [hn, loopResult]
      · by_cases hl : (if b = true then cur.right else cur.left).is_leaf = true
        · simp only [hn, hl, if_false, if_true]
          rw [ih _ _ _ h3, h2]
          exact congrFun (hres _) _
        · simp only [hn, hl, if_false, Bool.false_eq_true]
          rw [ih _ _ _ h3, h2]
          have := congrFun (hres w.out) (walk root (List.take n bs)
            (if b = true then cur.right else cur.left) w.out)
          exact this


theorem read_bytes_append (a rest : List byte_t) (fl : Bool) (cb cy : Nat) (ha : a.length = 4) :
    BitReader.read_bytes ⟨a ++ rest, fl, cb, cy⟩ = (some (le_value a), ⟨rest, fl, cb, cy⟩) := by
  have h4 : 4 ≤ (a ++ rest).length := by rw [List.length_append]; omega
  simp only [BitReader.read_bytes, h4, if_true]
  rw [List.take_left' ha, List.drop_left' ha]

theorem treeOfEntries_cons (c0 c1 c2 c3 len byte : byte_t) (rest : List byte_t) (tree : HuffTree) :
    treeOfEntries (c0 :: c1 :: c2 :: c3 :: len :: byte :: rest) tree =
      treeOfEntries rest (tree.add_letter (le_value [c0, c1, c2, c3]) len.val byte.val) := by
  rw [treeOfEntries]

theorem decode_table_eq : ∀ (n : Nat) (E rest : List byte_t) (fl : Bool) (cb cy : Nat)
    (tree : HuffTree), E.length = 6 * n →
    decode_table n ⟨E ++ rest, fl, cb, cy⟩ tree
      = some (treeOfEntries E tree, ⟨rest, fl, cb, cy⟩) := by
  intro n
  induction n with
  | zero =>
    intro E rest fl cb cy tree hE
    have : E = [] := List.eq_nil_of_length_eq_zero (by omega)
    subst this
    simp [decode_table, treeOfEntries]
  | succ n ih =>
    intro E rest fl cb cy tree hE
    match E, hE with
    | c0 :: c1 :: c2 :: c3 :: len :: byte :: E', hE =>
      have hE' : E'.length = 6 * n := by simp only [List.length_cons] at hE; omega
      have hr := read_bytes_append [c0, c1, c2, c3] (len :: byte :: (E' ++ rest)) fl cb cy rfl
      simp only [List.cons_append, List.nil_append] at hr ⊢
      rw [decode_table, hr]
      simp only [BitReader.read_byte, Option.getD_some]
      rw [ih E' rest fl cb cy _ hE', treeOfEntries_cons]
    | [], hE => simp at hE
    | [_], hE => simp at hE; omega
    | [_, _], hE => simp at hE; omega
    | [_, _, _], hE => simp at hE; omega
    | [_, _, _, _], hE => simp at hE; omega
    | [_, _, _, _, _], hE => simp at hE; omega

/-- What `decode` does with a file made of two 4-byte header fields, a complete
symbol table and a payload. -/
theorem decode_eq (a b E p : List byte_t) (ha : a.length = 4) (hb : b.length = 4)
    (hE : E.length = 6 * le_value b) :
    decode (a ++ b ++ E ++ p) =
      decodeResult p (le_value a)
        (walk (treeOfEntries E HuffTree.new).root ((bytesBits p).take (le_value a))
          (treeOfEntries E HuffTree.new).root []) := by
  unfold decode BitReader.open
  simp only [List.append_assoc]
  rw [read_bytes_append a _ _ _ _ ha]
  simp only
  rw [read_bytes_append b _ _ _ _ hb]
  simp only
  rw [decode_table_eq _ E p _ _ _ _ hE]
  simp only
  rw [decode_loop_eq _ _ _ _ _ (by simp)]
  have hbits : (BitReader.bits ⟨p, false, 8, 0⟩) = bytesBits p := by
    simp [BitReader.bits, lowBits]
  rw [hbits]
  simp only [BitWriter.open]
  cases walk (treeOfEntries E HuffTree.new).root ((bytesBits p).take (le_value a))
      (treeOfEntries E HuffTree.new).root [] with
  | corrupt => rfl
  | done c o =>
    simp only [loopResult, decodeResult, hbits]
    by_cases h : (bytesBits p).length < le_value a
    · simp only [h, if_true]
    · simp [h, BitWriter.destroy]

theorem take_eq_length_lt {α : Type} (x y : List α) (n : Nat) (h : x.take n = y.take n) :
    (x.length < n ↔ y.length < n) := by
  have := congrArg List.length h
  simp only [List.length_take] at this
  omega

/-- C8 (decode consumes exactly `code_len` payload bits): two files with the
same two header fields `a`, `b`, the same complete symbol table `E` and payloads
that agree on their first `code_len` bits are decoded to the same result,
whatever the later bits and bytes of the payloads are. -/
theorem decode_ignores_padding (a b E p₁ p₂ : List byte_t) (ha : a.length = 4)
    (hb : b.length = 4) (hE : E.length = 6 * le_value b)
    (hbits : (bytesBits p₁).take (le_value a) = (bytesBits p₂).take (le_value a)) :
    decode (a ++ b ++ E ++ p₁) = decode (a ++ b ++ E ++ p₂) := by
  rw [decode_eq a b E p₁ ha hb hE, decode_eq a b E p₂ ha hb hE, hbits]
  have := take_eq_length_lt _ _ _ hbits
  cases walk (treeOfEntries E HuffTree.new).root ((bytesBits p₂).take (le_value a))
      (treeOfEntries E HuffTree.new).root [] with
  | corrupt => rfl
  | done c o =>
    simp only [decodeResult]
    by_cases h1 : (bytesBits p₁).length < le_value a
    · rw [if_pos h1, if_pos (this.1 h1)]
    · rw [if_neg h1, if_neg (fun h => h1 (this.2 h))]

theorem walk_append (root : TreeNodePtr) : ∀ (xs ys : List Bool) (cur : TreeNodePtr)
    (o : List byte_t),
    walk root (xs ++ ys) cur o =
      match walk root xs cur o with
      | .corrupt => .corrupt
      | .done c o' => walk root ys c o' := by
  intro xs
  induction xs with
  | nil => intro ys cur o; rfl
  | cons x xs ih =>
    intro ys cur o
    simp only [List.cons_append, walk]
    by_cases hn : (if x = true then cur.right else cur.left) = null
    · simp only [hn, if_true]
    · by_cases hl : (if x = true then cur.right else cur.left).is_leaf = true
      · simp only [hn, hl, if_false, if_true]; exact ih _ _ _
      · simp only [hn, hl, if_false, Bool.false_eq_true]; exact ih _ _ _

/-- C8 at two files with one table entry and `code_len = 2` whose payloads
`[0]` and `[252, 7]` agree on their first two bits. -/
theorem decode_ignores_padding_witness :
    ([2, 0, 0, 0] : List byte_t).length = 4 ∧ ([1, 0, 0, 0] : List byte_t).length = 4 ∧
    ([0, 0, 0, 0, 2, 5] : List byte_t).length = 6 * le_value [1, 0, 0, 0] ∧
    (bytesBits [0]).take (le_value [2, 0, 0, 0])
      = (bytesBits [252, 7]).take (le_value [2, 0, 0, 0]) ∧
    decode ([2, 0, 0, 0] ++ [1, 0, 0, 0] ++ [0, 0, 0, 0, 2, 5] ++ [0])
      = decode ([2, 0, 0, 0] ++ [1, 0, 0, 0] ++ [0, 0, 0, 0, 2, 5] ++ [252, 7]) :=
  ⟨by decide, by decide, by decide, by decide,
    decode_ignores_padding [2, 0, 0, 0] [1, 0, 0, 0] [0, 0, 0, 0, 2, 5] [0] [252, 7]
      (by decide) (by decide) (by decide) (by decide)⟩

theorem add_letter_impl_eq (code letter : Nat) : ∀ (n bit : Nat) (t : TreeNodePtr),
    add_letter_impl code letter n bit t
      = insertPath letter ((List.range n).map (fun i => code.testBit ((bit + i) % 32))) t := by
  intro n
  induction n with
  | zero => intro bit t; cases t <;> simp [add_letter_impl, insertPath]
  | succ n ih =>
    intro bit t
    cases t with
    | null => simp [add_letter_impl, insertPath]
    | node l r lt f =>
      have hr : (List.range (n + 1)).map (fun i => code.testBit ((bit + i) % 32))
          = code.testBit (bit % 32)
            :: (List.range n).map (fun i => code.testBit ((bit + 1 + i) % 32)) := by
        rw [List.range_succ_eq_map, List.map_cons, List.map_map]
        simp only [Nat.add_zero, List.cons.injEq, true_and]
        apply List.map_congr_left
        intro i _
        simp only [Function.comp, Nat.succ_eq_add_one]
        have e : bit + (i + 1) = bit + 1 + i := by omega
        rw [e]
      rw [hr, add_letter_impl]
      have hb := shr_and_one code (bit % 32)
      by_cases hbit : code.testBit (bit % 32) = true
      · have : (code >>> (bit % 32)) &&& 1 ≠ 0 := of_decide_eq_true (by rw [hb, hbit])
        rw [if_pos this, hbit, insertPath, ih]
      · have hbit' : code.testBit (bit % 32) = false := by simpa using hbit
        have : ¬ ((code >>> (bit % 32)) &&& 1 ≠ 0) := of_decide_eq_false (by rw [hb, hbit'])
        rw [if_neg this, hbit', insertPath, ih]

/-- The effect of `add_letter` in terms of the bits taken from the code. -/
theorem add_letter_bits (t : HuffTree) (code len letter : Nat) :
    (t.add_letter code len letter).root = insertPath letter (shiftedBits (code, len)) t.root := by
  simp [HuffTree.add_letter, add_letter_impl_eq, shiftedBits]

theorem add_letter_eq (t : HuffTree) (code len letter : Nat) (h : len ≤ 32) :
    (t.add_letter code len letter).root = insertPath letter (codeBits (code, len)) t.root := by
  rw [add_letter_bits, shiftedBits_eq _ h]

theorem nodeAt_null (p : List Bool) : nodeAt null p = null := by
  induction p with
  | nil => rfl
  | cons b p ih => cases b <;> simpa [nodeAt, TreeNodePtr.left, TreeNodePtr.right] using ih

theorem insertPath_ne_null (letter : Nat) (p : List Bool) (t : TreeNodePtr) (h : t ≠ null) :
    insertPath letter p t ≠ null := by
  cases t with
  | null => exact absurd rfl h
  | node l r lt f => cases p with
    | nil => simp [insertPath]
    | cons b p => cases b <;> simp [insertPath]

theorem orNew_ne_null (t : TreeNodePtr) : orNew t ≠ null := by
  cases t <;> simp [orNew, TreeNode.new]

theorem nodeAt_orNew (t : TreeNodePtr) (q : List Bool) (hq : q ≠ []) :
    nodeAt (orNew t) q = nodeAt t q := by
  cases t with
  | null =>
    cases q with
    | nil => exact absurd rfl hq
    | cons b q =>
      cases b <;>
        simp [orNew, TreeNode.new, nodeAt, TreeNodePtr.left, TreeNodePtr.right, nodeAt_null]
  | node l r lt f => rfl

/-- Which nodes exist after an insertion. -/
theorem nodeAt_insertPath_ne_null (letter : Nat) : ∀ (p : List Bool) (t : TreeNodePtr) (q : List Bool),
    t ≠ null →
    (nodeAt (insertPath letter p t) q ≠ null ↔ (nodeAt t q ≠ null ∨ q <+: p)) := by
  intro p
  induction p with
  | nil =>
    intro t q ht
    cases t with
    | null => exact absurd rfl ht
    | node l r lt f =>
      cases q with
      | nil => simp [insertPath, nodeAt]
      | cons b q => cases b <;> simp [insertPath, nodeAt, TreeNodePtr.left, TreeNodePtr.right]
  | cons x p ih =>
    intro t q ht
    cases t with
    | null => exact absurd rfl ht
    | node l r lt f =>
      cases q with
      | nil => cases x <;> simp [insertPath, nodeAt]
      | cons b q =>
        cases x <;> cases b <;>
          simp only [insertPath, nodeAt, TreeNodePtr.left, TreeNodePtr.right, if_true, if_false,
            Bool.false_eq_true, List.prefix_cons_inj, List.cons_prefix_cons, false_and, or_false,
            reduceCtorEq, true_and]
        · rw [ih _ q (orNew_ne_null l)]
          by_cases hq : q = []
          · subst hq; simp [nodeAt, orNew_ne_null]
          · rw [nodeAt_orNew l q hq]
        · rw [ih _ q (orNew_ne_null r)]
          by_cases hq : q = []
          · subst hq; simp [nodeAt, orNew_ne_null]
          · rw [nodeAt_orNew r q hq]

/-- The letters after an insertion. -/
theorem nodeAt_insertPath_letter (letter : Nat) : ∀ (p : List Bool) (t : TreeNodePtr)
    (q : List Bool), t ≠ null →
    (nodeAt (insertPath letter p t) q).letter
      = if q = p then letter else (nodeAt t q).letter := by
  intro p
  induction p with
  | nil =>
    intro t q ht
    cases t with
    | null => exact absurd rfl ht
    | node l r lt f =>
      cases q with
      | nil => simp [insertPath, nodeAt, TreeNodePtr.letter]
      | cons b q => cases b <;> simp [insertPath, nodeAt, TreeNodePtr.left, TreeNodePtr.right]
  | cons x p ih =>
    intro t q ht
    cases t with
    | null => exact absurd rfl ht
    | node l r lt f =>
      cases q with
      | nil => cases x <;> simp [insertPath, nodeAt, TreeNodePtr.letter]
      | cons b q =>
        have hnew : ∀ (c : TreeNodePtr), (nodeAt (orNew c) q).letter = (nodeAt c q).letter := by
          intro c
          by_cases hq : q = []
          · subst hq
            cases c <;> simp [nodeAt, orNew, TreeNode.new, TreeNodePtr.letter]
          · rw [nodeAt_orNew c q hq]
        cases x <;> cases b <;>
          simp only [insertPath, nodeAt, TreeNodePtr.left, TreeNodePtr.right, if_true, if_false,
            Bool.false_eq_true, List.cons.injEq, reduceCtorEq, false_and, true_and]
        · rw [ih _ q (orNew_ne_null l), hnew]
        · rw [ih _ q (orNew_ne_null r), hnew]


theorem insertAll_ne_null : ∀ (C : List (List Bool × Nat)) (t : TreeNodePtr), t ≠ null →
    insertAll C t ≠ null := by
  intro C
  induction C with
  | nil => intro t h; exact h
  | cons e C ih => intro t h; exact ih _ (insertPath_ne_null _ _ _ h)

theorem nodeAt_insertAll_ne_null : ∀ (C : List (List Bool × Nat)) (t : TreeNodePtr)
    (q : List Bool), t ≠ null →
    (nodeAt (insertAll C t) q ≠ null ↔ (nodeAt t q ≠ null ∨ ∃ e ∈ C, q <+: e.1)) := by
  intro C
  induction C with
  | nil => intro t q _; simp [insertAll]
  | cons e C ih =>
    intro t q ht
    have := ih (insertPath e.2 e.1 t) q (insertPath_ne_null _ _ _ ht)
    simp only [insertAll, List.foldl_cons] at this ⊢
    rw [this, nodeAt_insertPath_ne_null _ _ _ _ ht]
    simp only [List.mem_cons, exists_eq_or_imp, or_assoc]

theorem nodeAt_insertAll_letter_other : ∀ (C : List (List Bool × Nat)) (t : TreeNodePtr)
    (q : List Bool), t ≠ null → (∀ e ∈ C, e.1 ≠ q) →
    (nodeAt (insertAll C t) q).letter = (nodeAt t q).letter := by
  intro C
  induction C with
  | nil => intro t q _ _; rfl
  | cons e C ih =>
    intro t q ht h
    have := ih (insertPath e.2 e.1 t) q (insertPath_ne_null _ _ _ ht)
      (fun x hx => h x (List.mem_cons_of_mem _ hx))
    simp only [insertAll, List.foldl_cons] at this ⊢
    rw [this, nodeAt_insertPath_letter _ _ _ _ ht,
      if_neg (fun hq => h e (List.mem_cons_self _ _) hq.symm)]

theorem nodeAt_insertAll_letter : ∀ (C : List (List Bool × Nat)) (t : TreeNodePtr), t ≠ null →
    (∀ e₁ ∈ C, ∀ e₂ ∈ C, e₁.1 = e₂.1 → e₁.2 = e₂.2) →
    ∀ e ∈ C, (nodeAt (insertAll C t) e.1).letter = e.2 := by
  intro C
  induction C with
  | nil => intro t _ _ e he; simp at he
  | cons x C ih =>
    intro t ht h e he
    have hC : ∀ e₁ ∈ C, ∀ e₂ ∈ C, e₁.1 = e₂.1 → e₁.2 = e₂.2 :=
      fun e₁ h₁ e₂ h₂ => h e₁ (List.mem_cons_of_mem _ h₁) e₂ (List.mem_cons_of_mem _ h₂)
    have ht' := insertPath_ne_null x.2 x.1 t ht
    by_cases hex : ∃ e' ∈ C, e'.1 = e.1
    · obtain ⟨e', he', hp⟩ := hex
      have := ih _ ht' hC e' he'
      simp only [insertAll, List.foldl_cons] at this ⊢
      rw [← hp, this]
      exact h e' (List.mem_cons_of_mem _ he') e he hp
    · have hno : ∀ e' ∈ C, e'.1 ≠ e.1 := fun e' he' hp => hex ⟨e', he', hp⟩
      have hx : e = x := by
        rcases List.mem_cons.1 he with h1 | h1
        · exact h1
        · exact absurd rfl (hno e h1)
      have := nodeAt_insertAll_letter_other C _ e.1 ht' hno
      simp only [insertAll, List.foldl_cons] at this ⊢
      rw [this, nodeAt_insertPath_letter _ _ _ _ ht, hx, if_pos rfl]

theorem nodeAt_append_singleton : ∀ (q : List Bool) (t : TreeNodePtr) (b : Bool),
    nodeAt t (q ++ [b]) = if b then (nodeAt t q).right else (nodeAt t q).left := by
  intro q
  induction q with
  | nil => intro t b; simp [nodeAt]
  | cons x q ih => intro t b; simp only [List.cons_append, nodeAt]; exact ih _ _

theorem is_leaf_iff (t : TreeNodePtr) :
    t.is_leaf = true ↔ t ≠ null ∧ t.left = null ∧ t.right = null := by
  cases t with
  | null => simp [is_leaf]
  | node l r lt f => simp [is_leaf_node, TreeNodePtr.left, TreeNodePtr.right]

theorem nodeAt_new (q : List Bool) : nodeAt TreeNode.new q ≠ null ↔ q = [] := by
  cases q with
  | nil => simp [nodeAt, TreeNode.new]
  | cons b q =>
    cases b <;> simp [nodeAt, TreeNode.new, TreeNodePtr.left, TreeNodePtr.right, nodeAt_null]

/-- Walking the bits of one code word through the rebuilt tree emits its
letter and returns to the root. -/
theorem walk_code (C : List (List Bool × Nat))
    (hfree : ∀ e₁ ∈ C, ∀ e₂ ∈ C, e₁.1 <+: e₂.1 → e₁ = e₂)
    (e : List Bool × Nat) (he : e ∈ C) (rest : List Bool) (output : List byte_t) :
    ∀ (r q : List Bool), q ++ r = e.1 → r ≠ [] →
      walk (insertAll C TreeNode.new) (r ++ rest) (nodeAt (insertAll C TreeNode.new) q) output
        = walk (insertAll C TreeNode.new) rest (insertAll C TreeNode.new)
            (output ++ [toByte e.2]) := by
  have hnew : TreeNode.new ≠ null := by simp [TreeNode.new]
  have hexists : ∀ q : List Bool, q ≠ [] →
      (nodeAt (insertAll C TreeNode.new) q ≠ null ↔ ∃ e' ∈ C, q <+: e'.1) := by
    intro q hq
    rw [nodeAt_insertAll_ne_null C _ q hnew, nodeAt_new]
    simp [hq]
  intro r
  induction r with
  | nil => intro q _ h; exact absurd rfl h
  | cons b r ih =>
    intro q hq _
    have hchild : (if b = true then (nodeAt (insertAll C TreeNode.new) q).right
        else (nodeAt (insertAll C TreeNode.new) q).left)
        = nodeAt (insertAll C TreeNode.new) (q ++ [b]) := by
      rw [nodeAt_append_singleton]
    have hqb : q ++ [b] ≠ [] := by simp
    have hpre : q ++ [b] <+: e.1 := ⟨r, by rw [← hq]; simp⟩
    have hnn : nodeAt (insertAll C TreeNode.new) (q ++ [b]) ≠ null :=
      (hexists _ hqb).2 ⟨e, he, hpre⟩
    simp only [List.cons_append, walk, hchild, hnn, if_false]
    cases r with
    | nil =>
      have hq' : q ++ [b] = e.1 := hq
      have hleaf : (nodeAt (insertAll C TreeNode.new) (q ++ [b])).is_leaf = true := by
        rw [is_leaf_iff]
        refine ⟨hnn, ?_, ?_⟩
        · by_contra hc
          have h1 : nodeAt (insertAll C TreeNode.new) (q ++ [b] ++ [false]) ≠ null := by
            rw [nodeAt_append_singleton]; simpa using hc
          obtain ⟨e', he', hp'⟩ := (hexists _ (by simp)).1 h1
          have h2 : e.1 <+: e'.1 := by
            rw [← hq']; exact List.IsPrefix.trans (List.prefix_append _ _) hp'
          have h3 := hfree e he e' he' h2
          rw [← h3, ← hq'] at hp'
          have := hp'.length_le
          simp at this
        · by_contra hc
          have h1 : nodeAt (insertAll C TreeNode.new) (q ++ [b] ++ [true]) ≠ null := by
            rw [nodeAt_append_singleton]; simpa using hc
          obtain ⟨e', he', hp'⟩ := (hexists _ (by simp)).1 h1
          have h2 : e.1 <+: e'.1 := by
            rw [← hq']; exact List.IsPrefix.trans (List.prefix_append _ _) hp'
          have h3 := hfree e he e' he' h2
          rw [← h3, ← hq'] at hp'
          have := hp'.length_le
          simp at this
      have hletter : (nodeAt (insertAll C TreeNode.new) (q ++ [b])).letter = e.2 := by
        rw [hq']
        apply nodeAt_insertAll_letter C _ hnew _ e he
        intro e₁ h₁ e₂ h₂ h12
        rw [hfree e₁ h₁ e₂ h₂ (by rw [h12])]
      simp only [hleaf, if_true, hletter, List.nil_append]
      rfl
    | cons c r' =>
      have hnotleaf : ¬ (nodeAt (insertAll C TreeNode.new) (q ++ [b])).is_leaf = true := by
        rw [is_leaf_iff]
        intro ⟨_, hl, hr⟩
        have hpre2 : q ++ [b] ++ [c] <+: e.1 := ⟨r', by rw [← hq]; simp⟩
        have h1 := (hexists (q ++ [b] ++ [c]) (by simp)).2 ⟨e, he, hpre2⟩
        rw [nodeAt_append_singleton] at h1
        cases c
        · simp only [Bool.false_eq_true, if_false] at h1; exact h1 hl
        · simp only [if_true] at h1; exact h1 hr
      simp only [hnotleaf, if_false]
      have := ih (q ++ [b]) (by rw [← hq]; simp) (by simp)
      simpa using this

theorem le_value_le_bytes (x : Nat) (h : x < 4294967296) : le_value (le_bytes x) = x := by
  simp only [le_value, le_bytes, toByte]
  omega

theorem pathCode_lt : ∀ (p : List Bool) (code len : Nat), code < 4294967296 →
    pathCode code len p < 4294967296 := by
  intro p
  induction p with
  | nil => intro code len h; exact h
  | cons b p ih =>
    intro code len h
    cases b
    · exact ih _ _ h
    · exact ih _ _ (Nat.mod_lt _ (by norm_num))

theorem make_table_code_lt (t : HuffTree) (hnd : (letters t.root).Nodup) (s : Nat) :
    (make_table t s).1 < 4294967296 := by
  by_cases hm : s ∈ letters t.root
  · obtain ⟨e, he, rfl⟩ := List.mem_map.1 hm
    rw [make_table_mem t hnd e he]
    exact pathCode_lt _ _ _ (by norm_num)
  · rw [make_table_not_mem t s hm]; norm_num

theorem treeOfEntries_flatten (table : Table) : ∀ (L : List Nat) (T0 : HuffTree),
    (∀ s ∈ L, (table s).1 < 4294967296 ∧ (table s).2 ≤ 32 ∧ s < 256) →
    (treeOfEntries ((L.map (tableEntry table)).flatten) T0).root
      = insertAll (L.map (fun s => (codeBits (table s), s))) T0.root := by
  intro L
  induction L with
  | nil => intro T0 _; simp [treeOfEntries, insertAll]
  | cons s L ih =>
    intro T0 h
    obtain ⟨h1, h2, h3⟩ := h s (List.mem_cons_self _ _)
    have hcons : ((s :: L).map (tableEntry table)).flatten
        = toByte (table s).1 :: toByte ((table s).1 / 256) :: toByte ((table s).1 / 65536)
          :: toByte ((table s).1 / 16777216) :: toByte (table s).2 :: toByte s
          :: (L.map (tableEntry table)).flatten := by
      simp [tableEntry, le_bytes]
    have hv : le_value [toByte (table s).1, toByte ((table s).1 / 256),
        toByte ((table s).1 / 65536), toByte ((table s).1 / 16777216)] = (table s).1 :=
      le_value_le_bytes _ h1
    rw [hcons, treeOfEntries_cons, hv, toByte_val_of_lt (lt_of_le_of_lt h2 (by decide)),
      toByte_val_of_lt h3, ih _ (fun x hx => h x (List.mem_cons_of_mem _ hx))]
    simp only [List.map_cons, insertAll, List.foldl_cons, add_letter_eq _ _ _ _ h2]


theorem tableEntries_eq (table : Table) :
    tableEntries table = ((codedSymbols table).map (tableEntry table)).flatten := rfl

theorem mem_codedSymbols {table : Table} {s : Nat} :
    s ∈ codedSymbols table ↔ s < 256 ∧ (table s).2 ≠ 0 := by
  simp [codedSymbols, VALUES_RANGE]

/-- Every pair `decode` inserts is a leaf of the tree `encode` built. -/
theorem tableCodes_subset (P : PriorityQueue) (f : Nat → Nat)
    (hlen : ∀ s, s < 256 → (make_table (HuffTree.ofFrequencies P f) s).2 ≤ 32) :
    ∀ c ∈ tableCodes (make_table (HuffTree.ofFrequencies P f)),
      c ∈ leafPaths (HuffTree.ofFrequencies P f).root := by
  intro c hc
  obtain ⟨s, hs, rfl⟩ := List.mem_map.1 hc
  obtain ⟨hnd, -, -⟩ := ofFrequencies_paths P f
  obtain ⟨e, he, rfl, -⟩ := entry_of_length_ne_zero _ hnd s (mem_codedSymbols.1 hs).2
  rw [(entry_bits P f hlen e he).2.2]
  exact he

/-- Every leaf of a tree built from at least one symbol is inserted by `decode`. -/
theorem leafPaths_subset (P : PriorityQueue) (f : Nat → Nat)
    (hlen : ∀ s, s < 256 → (make_table (HuffTree.ofFrequencies P f) s).2 ≤ 32)
    (hne : symbols f ≠ []) :
    ∀ e ∈ leafPaths (HuffTree.ofFrequencies P f).root,
      e ∈ tableCodes (make_table (HuffTree.ofFrequencies P f)) ∧ e.1 ≠ [] ∧
        codeBits (make_table (HuffTree.ofFrequencies P f) e.2) = e.1 := by
  intro e he
  obtain ⟨-, -, hsym⟩ := ofFrequencies_paths P f
  obtain ⟨-, hnonempty⟩ := hsym hne
  obtain ⟨h32, htab, hbits⟩ := entry_bits P f hlen e he
  have hlt := ofFrequencies_letter_lt P f e.2 (List.mem_map_of_mem Prod.snd he)
  have hpos : e.1.length ≠ 0 := fun h => hnonempty e he (List.eq_nil_of_length_eq_zero h)
  refine ⟨?_, hnonempty e he, hbits⟩
  apply List.mem_map.2
  refine ⟨e.2, mem_codedSymbols.2 ⟨hlt, by rw [htab]; exact hpos⟩, ?_⟩
  rw [hbits]

theorem rebuilt_root (P : PriorityQueue) (f : Nat → Nat)
    (hlen : ∀ s, s < 256 → (make_table (HuffTree.ofFrequencies P f) s).2 ≤ 32) :
    (treeOfEntries (tableEntries (make_table (HuffTree.ofFrequencies P f))) HuffTree.new).root
      = insertAll (tableCodes (make_table (HuffTree.ofFrequencies P f))) TreeNode.new := by
  rw [tableEntries_eq, treeOfEntries_flatten]
  · rfl
  · intro s hs
    obtain ⟨h1, -⟩ := mem_codedSymbols.1 hs
    obtain ⟨hnd, -, -⟩ := ofFrequencies_paths P f
    exact ⟨make_table_code_lt _ hnd s, hlen s h1, h1⟩

theorem payloadBits_cons (table : Table) (b : byte_t) (rest : List byte_t) :
    payloadBits table (b :: rest) = codeBits (table b.val) ++ payloadBits table rest := by
  simp [payloadBits]

theorem toByte_val (b : byte_t) : toByte b.val = b := by
  apply Fin.ext
  simp [toByte, Nat.mod_eq_of_lt b.isLt]

/-- The walk of `decode` over the payload bits of an input emits the input
and ends at the root. -/
theorem walk_payload (table : Table)
    (hfree : ∀ e₁ ∈ tableCodes table, ∀ e₂ ∈ tableCodes table, e₁.1 <+: e₂.1 → e₁ = e₂) :
    ∀ (input : List byte_t),
      (∀ b ∈ input, (codeBits (table b.val), b.val) ∈ tableCodes table
        ∧ codeBits (table b.val) ≠ []) →
      ∀ (output : List byte_t),
        walk (insertAll (tableCodes table) TreeNode.new) (payloadBits table input)
            (insertAll (tableCodes table) TreeNode.new) output
          = WalkOutcome.done (insertAll (tableCodes table) TreeNode.new) (output ++ input) := by
  intro input
  induction input with
  | nil => intro _ output; simp [payloadBits, walk]
  | cons b rest ih =>
    intro h output
    obtain ⟨h1, h2⟩ := h b (List.mem_cons_self _ _)
    rw [payloadBits_cons]
    have := walk_code (tableCodes table) hfree _ h1 (payloadBits table rest) output
      (codeBits (table b.val)) [] (by simp) h2
    simp only [nodeAt] at this
    rw [this, ih (fun x hx => h x (List.mem_cons_of_mem _ hx)), toByte_val]
    simp

theorem frequency_ne_zero (input : List byte_t) (hS : input.length < 4294967296) (b : byte_t)
    (hb : b ∈ input) : get_frequencies input b.val ≠ 0 := by
  rw [get_frequencies_eq]
  have h1 : 0 < occurrences input b.val :=
    List.count_pos_iff.2 (List.mem_map_of_mem Fin.val hb)
  have h2 : occurrences input b.val ≤ input.length := by
    unfold occurrences
    have := List.count_le_length b.val (input.map Fin.val)
    simpa using this
  rw [Nat.mod_eq_of_lt (by omega)]
  omega

/-- The walk over the payload bits in the tree `decode` rebuilds from the table
that `encode` wrote, for inputs within the bounds of the format. -/
theorem roundtrip_walk (P : PriorityQueue) (input : List byte_t)
    (hS : input.length < 4294967296)
    (hlen : ∀ s, s < 256 →
      (make_table (HuffTree.ofFrequencies P (get_frequencies input)) s).2 ≤ 32) :
    walk (treeOfEntries (tableEntries (make_table (HuffTree.ofFrequencies P
          (get_frequencies input)))) HuffTree.new).root
        (payloadBits (make_table (HuffTree.ofFrequencies P (get_frequencies input))) input)
        (treeOfEntries (tableEntries (make_table (HuffTree.ofFrequencies P
          (get_frequencies input)))) HuffTree.new).root []
      = WalkOutcome.done
          (treeOfEntries (tableEntries (make_table (HuffTree.ofFrequencies P
            (get_frequencies input)))) HuffTree.new).root input := by
  rw [rebuilt_root P _ hlen]
  have hsub := tableCodes_subset P _ hlen
  have hfree : ∀ e₁ ∈ tableCodes (make_table (HuffTree.ofFrequencies P (get_frequencies input))),
      ∀ e₂ ∈ tableCodes (make_table (HuffTree.ofFrequencies P (get_frequencies input))),
      e₁.1 <+: e₂.1 → e₁ = e₂ :=
    fun e₁ h₁ e₂ h₂ => leafPaths_prefix_free _ e₁ (hsub e₁ h₁) e₂ (hsub e₂ h₂)
  have := walk_payload _ hfree input ?_ []
  · simpa using this
  · intro b hb
    have hf := frequency_ne_zero input hS b hb
    have hmem : b.val ∈ symbols (get_frequencies input) := mem_symbols.2 ⟨b.isLt, hf⟩
    have hne : symbols (get_frequencies input) ≠ [] := List.ne_nil_of_mem hmem
    obtain ⟨-, -, hsym⟩ := ofFrequencies_paths P (get_frequencies input)
    obtain ⟨hperm, -⟩ := hsym hne
    obtain ⟨e, he, heq⟩ := List.mem_map.1 (hperm.mem_iff.2 hmem)
    obtain ⟨h1, h2, h3⟩ := leafPaths_subset P _ hlen hne e he
    rw [← heq, h3]
    exact ⟨h1, h2⟩

/-- C1 as amended (round trip): for every input of fewer than `2^32` bytes for
which every code length assigned by `make_table` is at most 32 and whose payload
has fewer than `2^32` bits, `decode` applied to the output of `encode` returns
normally with exactly the input. -/
theorem round_trip (P : PriorityQueue) (input : List byte_t)
    (hS : input.length < 4294967296)
    (hlen : ∀ s, s < 256 →
      (make_table (HuffTree.ofFrequencies P (get_frequencies input)) s).2 ≤ 32)
    (hbits : (payloadBits (make_table (HuffTree.ofFrequencies P (get_frequencies input)))
      input).length < 4294967296) :
    decode (encode P input) = DecodeResult.ok input := by
  unfold encode
  rw [write_encoded_eq _ _ _ _ hlen]
  have hts : encode_table_size (make_table (HuffTree.ofFrequencies P (get_frequencies input)))
      < 4294967296 := Nat.mod_lt _ (by norm_num)
  rw [decode_eq (le_bytes _) (le_bytes _) _ _ rfl rfl
    (by rw [le_value_le_bytes _ hts, tableEntries_length, encode_table_size_eq])]
  have hn := code_len_exact _ _ hbits
  rw [le_value_le_bytes _ (by rw [hn]; exact hbits), hn]
  obtain ⟨pad, -, hpad⟩ := written_bits
    (payloadBits (make_table (HuffTree.ofFrequencies P (get_frequencies input))) input)
  rw [hpad, List.take_left' rfl, roundtrip_walk P input hS hlen]
  simp only [decodeResult, hpad, List.length_append]
  rw [if_neg (by omega)]


set_option maxRecDepth 1000000 in
/-- C1 as amended, at the input `smallInput`. -/
theorem round_trip_witness :
    smallInput.length < 4294967296 ∧
    (∀ s, s < 256 →
      (make_table (HuffTree.ofFrequencies listPQ (get_frequencies smallInput)) s).2 ≤ 32) ∧
    (payloadBits (make_table (HuffTree.ofFrequencies listPQ (get_frequencies smallInput)))
      smallInput).length < 4294967296 ∧
    decode (encode listPQ smallInput) = DecodeResult.ok smallInput :=
  ⟨by decide, by decide, by decide,
    round_trip listPQ smallInput (by decide) (by decide) (by decide)⟩

theorem get_frequencies_manyZeros : get_frequencies manyZeros = fun _ => 0 := by
  funext s
  rw [get_frequencies_eq, manyZeros, occurrences_replicate]
  split <;> rfl

set_option maxRecDepth 1000000 in
/-- C1 as stated fails: for an input of `2^32` bytes 0 the count of byte 0
wraps to 0, `encode` writes the 8-byte file of an empty input and `decode`
returns the empty output. -/
theorem round_trip_fails_when_count_wraps :
    encode listPQ manyZeros = [0, 0, 0, 0, 0, 0, 0, 0] ∧
    decode (encode listPQ manyZeros) = DecodeResult.ok [] ∧
    decode (encode listPQ manyZeros) ≠ DecodeResult.ok manyZeros := by
  have hz : (make_table (HuffTree.ofFrequencies listPQ (fun _ => 0)) 0).2 = 0 := by decide
  have hp : payloadBits (make_table (HuffTree.ofFrequencies listPQ (fun _ => 0))) manyZeros
      = [] := by
    apply List.eq_nil_of_length_eq_zero
    rw [payloadBits_length, manyZeros, List.map_replicate, List.sum_replicate]
    have e0 : ((0 : byte_t).val) = 0 := rfl
    rw [e0, hz]
    rfl
  have hl : ∀ s, s < 256 →
      (make_table (HuffTree.ofFrequencies listPQ (get_frequencies manyZeros)) s).2 ≤ 32 := by
    rw [get_frequencies_manyZeros]; decide
  have he : encode listPQ manyZeros = [0, 0, 0, 0, 0, 0, 0, 0] := by
    unfold encode
    rw [write_encoded_eq _ _ _ _ hl, get_frequencies_manyZeros, hp]
    decide
  refine ⟨he, by rw [he]; decide, ?_⟩
  rw [he]
  intro h
  have h1 : DecodeResult.ok [] = DecodeResult.ok manyZeros := by
    rw [← h]; decide
  have h2 := congrArg List.length (DecodeResult.ok.inj h1)
  rw [manyZeros, List.length_replicate] at h2
  exact absurd h2 (by decide)

theorem exists_deepest (P : Multiset (Nat × Nat)) (h : P ≠ 0) :
    ∃ e ∈ P, ∀ e' ∈ P, e'.2 ≤ e.2 := by
  obtain ⟨x, hx⟩ := Multiset.exists_mem_of_ne_zero h
  obtain ⟨e, he, hmax⟩ := P.toFinset.exists_max_image Prod.snd ⟨x, Multiset.mem_toFinset.2 hx⟩
  exact ⟨e, Multiset.mem_toFinset.1 he, fun e' he' => hmax e' (Multiset.mem_toFinset.2 he')⟩

theorem pcost_cons (e : Nat × Nat) (P : Multiset (Nat × Nat)) :
    pcost (e ::ₘ P) = e.1 * e.2 + pcost P := by
  simp [pcost]

theorem kraftSum_cons (D d : Nat) (ds : Multiset Nat) :
    kraftSum D (d ::ₘ ds) = 2 ^ (D - d) + kraftSum D ds := by
  simp [kraftSum]

/-- Moving a least weight `a` into a slot of greatest depth `m` and taking that
slot out: the remaining pairs keep the other depths and weights and cost at most
what they did before. -/
theorem swap_into_slot (P : Multiset (Nat × Nat)) (x m a : Nat) (hx : (x, m) ∈ P)
    (hmax : ∀ e ∈ P, e.2 ≤ m) (ha : a ∈ P.map Prod.fst) (hmin : ∀ w ∈ P.map Prod.fst, a ≤ w) :
    ∃ Q : Multiset (Nat × Nat), Q.map Prod.snd = (P.erase (x, m)).map Prod.snd ∧
      Q.map Prod.fst = (P.map Prod.fst).erase a ∧ pcost Q + a * m ≤ pcost P := by
  obtain ⟨⟨a', d⟩, had, rfl⟩ := Multiset.mem_map.1 ha
  simp only at hmin ⊢
  by_cases h : (a', d) = (x, m)
  · refine ⟨P.erase (x, m), rfl, ?_, ?_⟩
    · rw [Multiset.map_erase_of_mem _ _ hx]
      simp only [Prod.mk.injEq] at h
      rw [h.1]
    · simp only [Prod.mk.injEq] at h
      conv_rhs => rw [← Multiset.cons_erase hx]
      rw [pcost_cons, h.1]
      simp only
      omega
  · have had' : (a', d) ∈ P.erase (x, m) := (Multiset.mem_erase_of_ne h).2 had
    have hP : P = (x, m) ::ₘ (a', d) ::ₘ (P.erase (x, m)).erase (a', d) := by
      rw [Multiset.cons_erase had', Multiset.cons_erase hx]
    refine ⟨(x, d) ::ₘ (P.erase (x, m)).erase (a', d), ?_, ?_, ?_⟩
    · conv_rhs => rw [← Multiset.cons_erase had']
      simp
    · conv_rhs => rw [hP]
      simp only [Multiset.map_cons]
      rw [Multiset.cons_swap, Multiset.erase_cons_head]
    · conv_rhs => rw [hP]
      simp only [pcost_cons]
      have h1 : a' ≤ x := hmin x (Multiset.mem_map.2 ⟨(x, m), hx, rfl⟩)
      have h2 : d ≤ m := hmax (a', d) had
      obtain ⟨u, rfl⟩ := Nat.exists_eq_add_of_le h1
      obtain ⟨v, rfl⟩ := Nat.exists_eq_add_of_le h2
      nlinarith [Nat.zero_le (u * v)]


theorem kraftSum_dvd (D m : Nat) (ds : Multiset Nat) (h : ∀ d ∈ ds, d + 1 ≤ m) (hm : m ≤ D) :
    2 * 2 ^ (D - m) ∣ kraftSum D ds := by
  unfold kraftSum
  apply Multiset.dvd_sum
  intro x hx
  obtain ⟨d, hd, rfl⟩ := Multiset.mem_map.1 hx
  have := h d hd
  have e : D - d = (D - m + 1) + (m - 1 - d) := by omega
  rw [e, pow_add, pow_succ]
  exact ⟨2 ^ (m - 1 - d), by ring⟩

/-- One merge step on depth assignments: if `a` and `b` are a least weight and a
least weight of the rest, an admissible assignment can be turned into an
admissible one for the weights with `a`, `b` replaced by `a + b`, whose cost is
lower by at least `a + b`. -/
theorem kraft_step : ∀ (n : Nat) (P : Multiset (Nat × Nat)) (D a b : Nat),
    (P.map Prod.snd).sum ≤ n → Admissible D P →
    a ∈ P.map Prod.fst → (∀ w ∈ P.map Prod.fst, a ≤ w) →
    b ∈ (P.map Prod.fst).erase a → (∀ w ∈ (P.map Prod.fst).erase a, b ≤ w) →
    ∃ P' : Multiset (Nat × Nat), Admissible D P' ∧
      P'.map Prod.fst = (a + b) ::ₘ ((P.map Prod.fst).erase a).erase b ∧
      pcost P' + a + b ≤ pcost P := by
  intro n
  induction n with
  | zero =>
    intro P D a b hn hadm ha hamin hb hbmin
    -- all depths are 0: two pairs already exceed the Kraft bound
    exfalso
    obtain ⟨e1, he1, -⟩ := exists_deepest P (by rintro rfl; simp at ha)
    have hR : P.erase e1 ≠ 0 := by
      intro h0
      have h1 : Multiset.card ((P.map Prod.fst).erase a) = Multiset.card P - 1 := by
        rw [Multiset.card_erase_of_mem ha, Multiset.card_map]; rfl
      have h2 : Multiset.card (P.erase e1) = Multiset.card P - 1 := by
        rw [Multiset.card_erase_of_mem he1]; rfl
      rw [h0, Multiset.card_zero] at h2
      have h3 : 0 < Multiset.card ((P.map Prod.fst).erase a) :=
        Multiset.card_pos_iff_exists_mem.2 ⟨b, hb⟩
      omega
    obtain ⟨e2, he2, -⟩ := exists_deepest _ hR
    have hP : P = e1 ::ₘ e2 ::ₘ (P.erase e1).erase e2 := by
      rw [Multiset.cons_erase he2, Multiset.cons_erase he1]
    have hz : ∀ e ∈ P, e.2 = 0 := by
      intro e he
      have : e.2 ≤ (P.map Prod.snd).sum :=
        Multiset.single_le_sum (fun _ _ => Nat.zero_le _) _ (Multiset.mem_map_of_mem _ he)
      omega
    have hk := hadm.2
    rw [hP] at hk
    simp only [Multiset.map_cons, kraftSum_cons, hz e1 he1,
      hz e2 (Multiset.mem_of_mem_erase he2), Nat.sub_zero] at hk
    have : 0 < 2 ^ D := pow_pos (by norm_num) _
    omega
  | succ n ih =>
    intro P D a b hn hadm ha hamin hb hbmin
    obtain ⟨⟨x, m⟩, he1, hmax⟩ := exists_deepest P (by rintro rfl; simp at ha)
    simp only at hmax
    have hR : P.erase (x, m) ≠ 0 := by
      intro h0
      have h1 : Multiset.card ((P.map Prod.fst).erase a) = Multiset.card P - 1 := by
        rw [Multiset.card_erase_of_mem ha, Multiset.card_map]; rfl
      have h2 : Multiset.card (P.erase (x, m)) = Multiset.card P - 1 := by
        rw [Multiset.card_erase_of_mem he1]; rfl
      rw [h0, Multiset.card_zero] at h2
      have h3 : 0 < Multiset.card ((P.map Prod.fst).erase a) :=
        Multiset.card_pos_iff_exists_mem.2 ⟨b, hb⟩
      omega
    obtain ⟨⟨y, m2⟩, he2, hmax2⟩ := exists_deepest _ hR
    simp only at hmax2
    have hm2 : m2 ≤ m := hmax _ (Multiset.mem_of_mem_erase he2)
    have hmD : m ≤ D := hadm.1 _ he1
    have hP1 : P = (x, m) ::ₘ P.erase (x, m) := (Multiset.cons_erase he1).symm
    have hk := hadm.2
    rw [hP1, Multiset.map_cons, kraftSum_cons] at hk
    dsimp only at hk
    have hpos : 0 < 2 ^ (D - m) := pow_pos (by norm_num) _
    by_cases hc : m2 = m
    · -- two slots of greatest depth
      subst hc
      have hR2 : P.erase (x, m2) = (y, m2) ::ₘ (P.erase (x, m2)).erase (y, m2) :=
        (Multiset.cons_erase he2).symm
      have hk2 := hk
      rw [hR2, Multiset.map_cons, kraftSum_cons] at hk2
      dsimp only at hk2
      have hm1 : 1 ≤ m2 := by
        by_contra h0
        have : m2 = 0 := by omega
        subst this
        simp only [Nat.sub_zero] at hk2
        have : 0 < 2 ^ D := pow_pos (by norm_num) _
        omega
      obtain ⟨Q1, hQ1d, hQ1w, hQ1c⟩ := swap_into_slot P x m2 a he1 hmax ha hamin
      have hslot : m2 ∈ Q1.map Prod.snd := by
        rw [hQ1d]; exact Multiset.mem_map.2 ⟨(y, m2), he2, rfl⟩
      obtain ⟨⟨y', d'⟩, hy', hd'⟩ := Multiset.mem_map.1 hslot
      simp only at hd'
      subst hd'
      have hQ1max : ∀ e ∈ Q1, e.2 ≤ d' := by
        intro e he
        have : e.2 ∈ (P.erase (x, d')).map Prod.snd := by
          rw [← hQ1d]; exact Multiset.mem_map_of_mem _ he
        obtain ⟨e', he', h'⟩ := Multiset.mem_map.1 this
        rw [← h']
        exact hmax2 e' he'
      obtain ⟨Q2, hQ2d, hQ2w, hQ2c⟩ := swap_into_slot Q1 y' d' b hy' hQ1max
        (by rw [hQ1w]; exact hb) (by rw [hQ1w]; exact hbmin)
      have hQ2d' : Q2.map Prod.snd = ((P.erase (x, d')).erase (y, d')).map Prod.snd := by
        rw [hQ2d, Multiset.map_erase_of_mem _ _ hy', hQ1d,
          Multiset.map_erase_of_mem _ _ he2]
      refine ⟨(a + b, d' - 1) ::ₘ Q2, ⟨?_, ?_⟩, ?_, ?_⟩
      · intro e he
        rcases Multiset.mem_cons.1 he with rfl | he
        · simp only; omega
        · have : e.2 ∈ ((P.erase (x, d')).erase (y, d')).map Prod.snd := by
            rw [← hQ2d']; exact Multiset.mem_map_of_mem _ he
          obtain ⟨e', he', h'⟩ := Multiset.mem_map.1 this
          rw [← h']
          exact hadm.1 e' (Multiset.mem_of_mem_erase (Multiset.mem_of_mem_erase he'))
      · rw [Multiset.map_cons, kraftSum_cons, hQ2d']
        have e : D - (d' - 1) = (D - d') + 1 := by omega
        simp only
        rw [e, pow_succ]
        omega
      · rw [Multiset.map_cons, hQ2w, hQ1w]
      · rw [pcost_cons]
        simp only
        have : (a + b) * (d' - 1) + (a + b) = a * d' + b * d' := by
          obtain ⟨k, rfl⟩ := Nat.exists_eq_add_of_le hm1
          simp only [Nat.add_sub_cancel_left]
          ring
        omega
    · -- a single slot of greatest depth: move it up one level
      have hlt : m2 < m := lt_of_le_of_ne hm2 hc
      have hdeep : ∀ d ∈ (P.erase (x, m)).map Prod.snd, d + 1 ≤ m := by
        intro d hd
        obtain ⟨e', he', rfl⟩ := Multiset.mem_map.1 hd
        have := hmax2 e' he'
        omega
      obtain ⟨k, hkd⟩ := kraftSum_dvd D m _ hdeep hmD
      have hD : 2 ^ D = 2 * 2 ^ (D - m) * 2 ^ (m - 1) := by
        have e : D = (D - m) + 1 + (m - 1) := by omega
        conv_lhs => rw [e]
        rw [pow_add, pow_succ]
        ring
      have hkj : k < 2 ^ (m - 1) := by
        by_contra hge
        push_neg at hge
        have := Nat.mul_le_mul_left (2 * 2 ^ (D - m)) hge
        rw [hkd, hD] at hk
        omega
      have hk' : 2 * 2 ^ (D - m) + kraftSum D ((P.erase (x, m)).map Prod.snd) ≤ 2 ^ D := by
        rw [hkd, hD]
        have := Nat.mul_le_mul_left (2 * 2 ^ (D - m)) (Nat.succ_le_of_lt hkj)
        rw [Nat.mul_succ] at this
        omega
      have hadm1 : Admissible D ((x, m - 1) ::ₘ P.erase (x, m)) := by
        constructor
        · intro e he
          rcases Multiset.mem_cons.1 he with rfl | he
          · simp only; omega
          · exact hadm.1 e (Multiset.mem_of_mem_erase he)
        · rw [Multiset.map_cons, kraftSum_cons]
          have e : D - (m - 1) = (D - m) + 1 := by omega
          simp only
          rw [e, pow_succ]
          omega
      have hw1 : ((x, m - 1) ::ₘ P.erase (x, m)).map Prod.fst = P.map Prod.fst := by
        conv_rhs => rw [hP1]
        simp
      have hsum1 : (((x, m - 1) ::ₘ P.erase (x, m)).map Prod.snd).sum ≤ n := by
        rw [hP1] at hn
        simp only [Multiset.map_cons, Multiset.sum_cons] at hn ⊢
        omega
      obtain ⟨P', h1, h2, h3⟩ := ih _ D a b hsum1 hadm1 (by rw [hw1]; exact ha)
        (by rw [hw1]; exact hamin) (by rw [hw1]; exact hb) (by rw [hw1]; exact hbmin)
      refine ⟨P', h1, by rw [h2, hw1], ?_⟩
      have hc1 : pcost ((x, m - 1) ::ₘ P.erase (x, m)) ≤ pcost P := by
        conv_rhs => rw [hP1]
        simp only [pcost_cons]
        have : x * (m - 1) ≤ x * m := Nat.mul_le_mul_left x (by omega)
        omega
      omega

theorem cost_node {l r : TreeNodePtr} (s f d : Nat) (h : ¬(l = null ∧ r = null)) :
    cost (node l r s f) d = cost l (d + 1) + cost r (d + 1) := by
  cases l <;> cases r <;> simp_all [cost]

theorem weight_node {l r : TreeNodePtr} (s f : Nat) (h : ¬(l = null ∧ r = null)) :
    weight (node l r s f) = weight l + weight r := by
  cases l <;> cases r <;> simp_all [weight]

theorem carries_node {l r : TreeNodePtr} (g : Nat → Nat) (s f : Nat)
    (h : ¬(l = null ∧ r = null)) :
    carries g (node l r s f) ↔ carries g l ∧ carries g r := by
  cases l <;> cases r <;> simp_all [carries]

theorem get_total_length_impl_node {l r : TreeNodePtr} (s f d : Nat)
    (h : ¬(l = null ∧ r = null)) :
    get_total_length_impl (node l r s f) d =
      (get_total_length_impl l ((d + 1) % 4294967296)
        + get_total_length_impl r ((d + 1) % 4294967296)) % 4294967296 := by
  cases l <;> cases r <;> simp_all [get_total_length_impl]

theorem cost_succ (t : TreeNodePtr) : ∀ d, cost t (d + 1) = cost t d + weight t := by
  induction t using tree_induction with
  | hnull => intro d; rfl
  | hleaf s f => intro d; simp only [cost, weight]; ring
  | hnode l r s f h ihl ihr =>
    intro d
    rw [cost_node s f _ h, cost_node s f _ h, weight_node s f h, ihl, ihr]
    omega

/-- `get_total_length_impl` is the exact weighted length reduced modulo `2^32`. -/
theorem get_total_length_impl_eq (t : TreeNodePtr) : ∀ (c d : Nat),
    c % 4294967296 = d % 4294967296 →
    get_total_length_impl t c = cost t d % 4294967296 := by
  induction t using tree_induction with
  | hnull => intro c d _; rfl
  | hleaf s f =>
    intro c d h
    simp only [get_total_length_impl, cost]
    exact Nat.ModEq.mul_right f h
  | hnode l r s f hn ihl ihr =>
    intro c d h
    have h1 : ((c + 1) % 4294967296) % 4294967296 = (d + 1) % 4294967296 := by omega
    rw [get_total_length_impl_node s f c hn, cost_node s f d hn, ihl _ _ h1, ihr _ _ h1]
    omega

theorem cost_eq_sum (g : Nat → Nat) (t : TreeNodePtr) (h : carries g t) : ∀ d,
    cost t d = ((leafPaths t).map (fun e => (d + e.1.length) * g e.2)).sum := by
  induction t using tree_induction with
  | hnull => intro d; rfl
  | hleaf s f =>
    intro d
    simp only [carries] at h
    simp [cost, leafPaths, h]
  | hnode l r s f hn ihl ihr =>
    intro d
    rw [carries_node g s f hn] at h
    rw [cost_node s f d hn, leafPaths_node s f hn, ihl h.1, ihr h.2]
    simp only [List.map_append, List.map_map, List.sum_append, Function.comp_def,
      List.length_cons]
    congr 2 <;>
    · apply List.map_congr_left
      intro e _
      congr 1
      omega

theorem weight_eq_sum (g : Nat → Nat) (t : TreeNodePtr) (h : carries g t) :
    weight t = ((letters t).map g).sum := by
  induction t using tree_induction with
  | hnull => rfl
  | hleaf s f =>
    simp only [carries] at h
    simp [weight, letters, leafPaths, h]
  | hnode l r s f hn ihl ihr =>
    rw [carries_node g s f hn] at h
    have hl : letters (node l r s f) = letters l ++ letters r := by
      simp [letters, leafPaths_node s f hn, Function.comp_def]
    rw [weight_node s f hn, hl, ihl h.1, ihr h.2]
    simp

/-- The leaf depths of any tree satisfy Kraft's inequality. -/
theorem tree_kraft (t : TreeNodePtr) : ∀ (D : Nat), (∀ e ∈ leafPaths t, e.1.length ≤ D) →
    ((leafPaths t).map (fun e => 2 ^ (D - e.1.length))).sum ≤ 2 ^ D := by
  induction t using tree_induction with
  | hnull => intro D _; simp [leafPaths]
  | hleaf s f => intro D _; simp [leafPaths]
  | hnode l r s f hn ihl ihr =>
    intro D hD
    rw [leafPaths_node s f hn] at hD ⊢
    by_cases hD0 : D = 0
    · subst hD0
      have hl : leafPaths l = [] := by
        cases hll : leafPaths l with
        | nil => rfl
        | cons e es =>
          have := hD (false :: e.1, e.2) (by simp [hll])
          simp at this
      have hr : leafPaths r = [] := by
        cases hrr : leafPaths r with
        | nil => rfl
        | cons e es =>
          have := hD (true :: e.1, e.2) (by simp [hrr])
          simp at this
      simp [hl, hr]
    · have h1 := ihl (D - 1) (by
        intro e he
        have := hD (false :: e.1, e.2) (by
          apply List.mem_append_left
          exact List.mem_map.2 ⟨e, he, rfl⟩)
        simp only [List.length_cons] at this
        omega)
      have h2 := ihr (D - 1) (by
        intro e he
        have := hD (true :: e.1, e.2) (by
          apply List.mem_append_right
          exact List.mem_map.2 ⟨e, he, rfl⟩)
        simp only [List.length_cons] at this
        omega)
      simp only [List.map_append, List.map_map, List.sum_append, Function.comp_def,
        List.length_cons]
      have el : ∀ (L : List (List Bool × Nat)),
          (L.map (fun e => 2 ^ (D - (e.1.length + 1)))).sum
            = (L.map (fun e => 2 ^ (D - 1 - e.1.length))).sum := by
        intro L
        congr 1
        apply List.map_congr_left
        intro e _
        congr 1
        omega
      rw [el, el]
      have hp : 2 ^ D = 2 * 2 ^ (D - 1) := by
        conv_lhs => rw [show D = (D - 1) + 1 by omega]
        rw [pow_succ]; ring
      omega


theorem weight_merge {l r : TreeNodePtr} (hl : isFull l = true) :
    weight (TreeNode.merge l r) = weight l + weight r := by
  have hn : ¬(l = null ∧ r = null) := by
    rintro ⟨rfl, -⟩; simp [isFull] at hl
  simp [TreeNode.merge, weight_node _ _ hn]

theorem cost_merge {l r : TreeNodePtr} (hl : isFull l = true) :
    cost (TreeNode.merge l r) 0 = cost l 0 + weight l + (cost r 0 + weight r) := by
  have hn : ¬(l = null ∧ r = null) := by
    rintro ⟨rfl, -⟩; simp [isFull] at hl
  simp [TreeNode.merge, cost_node _ _ _ hn, cost_succ]

theorem carries_merge (g : Nat → Nat) {l r : TreeNodePtr} (hl : isFull l = true)
    (h1 : carries g l) (h2 : carries g r) : carries g (TreeNode.merge l r) := by
  have hn : ¬(l = null ∧ r = null) := by
    rintro ⟨rfl, -⟩; simp [isFull] at hl
  simp only [TreeNode.merge]
  exact (carries_node g _ _ hn).2 ⟨h1, h2⟩

/-- The tree a run of the merge loop ends with costs no more than any
admissible assignment of depths to the weights of the queued nodes, on top of
the cost already inside those nodes. -/
theorem reduces_cost (g : Nat → Nat) {F : Multiset TreeNodePtr} {T : TreeNodePtr}
    (h : Reduces F T) :
    (∀ x ∈ F, isFull x = true ∧ carries g x ∧ x.frequency = weight x) →
    (F.map weight).sum < 4294967296 →
    (isFull T = true ∧ carries g T) ∧
      ∀ (P : Multiset (Nat × Nat)) (D : Nat), Admissible D P → P.map Prod.fst = F.map weight →
        cost T 0 ≤ (F.map (fun x => cost x 0)).sum + pcost P := by
  induction h with
  | single t =>
    intro hF _
    obtain ⟨h1, h2, -⟩ := hF t (by simp)
    refine ⟨⟨h1, h2⟩, ?_⟩
    intro P D _ _
    simp
  | step F l r t hl hlmin hr hrmin h ih =>
    intro hF hsum
    have hdec := reduces_decompose hl hr
    obtain ⟨fl, cl, wl⟩ := hF l hl
    obtain ⟨fr, cr, wr⟩ := hF r (Multiset.mem_of_mem_erase hr)
    have hsumdec : (F.map weight).sum
        = weight l + (weight r + (((F.erase l).erase r).map weight).sum) := by
      conv_lhs => rw [hdec]
      simp
    have hfreq : (TreeNode.merge l r).frequency = weight (TreeNode.merge l r) := by
      rw [weight_merge fl]
      show (l.frequency + r.frequency) % 4294967296 = weight l + weight r
      rw [wl, wr]
      have hlt : weight l + weight r < 4294967296 := by omega
      exact Nat.mod_eq_of_lt hlt
    have hF' : ∀ x ∈ TreeNode.merge l r ::ₘ (F.erase l).erase r,
        isFull x = true ∧ carries g x ∧ x.frequency = weight x := by
      intro x hx
      rcases Multiset.mem_cons.1 hx with rfl | hx
      · exact ⟨isFull_merge fl fr, carries_merge g fl cl cr, hfreq⟩
      · exact hF x (Multiset.mem_of_mem_erase (Multiset.mem_of_mem_erase hx))
    have hsum' : ((TreeNode.merge l r ::ₘ (F.erase l).erase r).map weight).sum < 4294967296 := by
      simp only [Multiset.map_cons, Multiset.sum_cons, weight_merge fl]
      omega
    obtain ⟨hT, hcost⟩ := ih hF' hsum'
    refine ⟨hT, ?_⟩
    intro P D hadm hw
    have ha : weight l ∈ P.map Prod.fst := by
      rw [hw]; exact Multiset.mem_map_of_mem _ hl
    have hamin : ∀ w ∈ P.map Prod.fst, weight l ≤ w := by
      intro w hwm
      rw [hw] at hwm
      obtain ⟨y, hy, rfl⟩ := Multiset.mem_map.1 hwm
      have := hlmin y hy
      rw [wl, (hF y hy).2.2] at this
      exact this
    have herase : (P.map Prod.fst).erase (weight l) = (F.erase l).map weight := by
      rw [hw, Multiset.map_erase_of_mem _ _ hl]
    have hb : weight r ∈ (P.map Prod.fst).erase (weight l) := by
      rw [herase]; exact Multiset.mem_map_of_mem _ hr
    have hbmin : ∀ w ∈ (P.map Prod.fst).erase (weight l), weight r ≤ w := by
      intro w hwm
      rw [herase] at hwm
      obtain ⟨y, hy, rfl⟩ := Multiset.mem_map.1 hwm
      have := hrmin y hy
      rw [wr, (hF y (Multiset.mem_of_mem_erase hy)).2.2] at this
      exact this
    obtain ⟨P', hadm', hw', hc'⟩ :=
      kraft_step _ P D (weight l) (weight r) (le_refl _) hadm ha hamin hb hbmin
    have hw'' : P'.map Prod.fst = (TreeNode.merge l r ::ₘ (F.erase l).erase r).map weight := by
      rw [hw', herase, Multiset.map_cons, weight_merge fl, Multiset.map_erase_of_mem _ _ hr]
    have := hcost P' D hadm' hw''
    have hcostdec : (F.map (fun x => cost x 0)).sum
        = cost l 0 + (cost r 0 + (((F.erase l).erase r).map (fun x => cost x 0)).sum) := by
      conv_lhs => rw [hdec]
      simp
    simp only [Multiset.map_cons, Multiset.sum_cons, cost_merge fl] at this
    omega

theorem sum_filter_ne_zero (g : Nat → Nat) (L : List Nat) :
    ((L.filter (fun s => decide (g s ≠ 0))).map g).sum = (L.map g).sum := by
  induction L with
  | nil => rfl
  | cons s L ih =>
    by_cases h : g s = 0
    · rw [List.filter_cons_of_neg (by simp [h]), ih]
      simp [h]
    · rw [List.filter_cons_of_pos (by simp [h])]
      simp only [List.map_cons, List.sum_cons]
      rw [ih]

theorem leafNodes_good (g : Nat → Nat) : ∀ x ∈ (leafNodes g : Multiset TreeNodePtr),
    isFull x = true ∧ carries g x ∧ x.frequency = weight x := by
  intro x hx
  simp only [leafNodes, Multiset.mem_coe, List.mem_map] at hx
  obtain ⟨s, -, rfl⟩ := hx
  simp [TreeNode.leaf, isFull, carries, TreeNodePtr.frequency, weight]

theorem leafNodes_weight (g : Nat → Nat) :
    ((leafNodes g : Multiset TreeNodePtr)).map weight
      = (((symbols g).map g : List Nat) : Multiset Nat) := by
  simp only [leafNodes, Multiset.map_coe, List.map_map]
  congr 1

theorem leafNodes_cost (g : Nat → Nat) :
    (((leafNodes g : Multiset TreeNodePtr)).map (fun x => cost x 0)).sum = 0 := by
  simp only [leafNodes, Multiset.map_coe, List.map_map, Multiset.sum_coe]
  apply List.sum_eq_zero
  intro x hx
  obtain ⟨s, -, rfl⟩ := List.mem_map.1 hx
  simp [TreeNode.leaf, cost]

theorem depthPairs_admissible (g : Nat → Nat) (t : TreeNodePtr) :
    Admissible (((leafPaths t).map (fun e => e.1.length)).sum) (depthPairs g t) := by
  constructor
  · intro e he
    simp only [depthPairs, Multiset.mem_coe, List.mem_map] at he
    obtain ⟨x, hx, rfl⟩ := he
    exact List.single_le_sum (fun _ _ => Nat.zero_le _) _
      (List.mem_map_of_mem (fun e => e.1.length) hx)
  · have := tree_kraft t (((leafPaths t).map (fun e => e.1.length)).sum) (by
      intro x hx
      exact List.single_le_sum (fun _ _ => Nat.zero_le _) _
        (List.mem_map_of_mem (fun e => e.1.length) hx))
    simpa [kraftSum, depthPairs, Function.comp_def] using this

theorem depthPairs_pcost (g : Nat → Nat) (t : TreeNodePtr) :
    pcost (depthPairs g t) = weightedLength g t := by
  simp only [pcost, depthPairs, Multiset.map_coe, List.map_map, Multiset.sum_coe,
    weightedLength]
  congr 1
  apply List.map_congr_left
  intro e _
  simp [Nat.mul_comm]

theorem depthPairs_weights (g : Nat → Nat) (t : TreeNodePtr) :
    (depthPairs g t).map Prod.fst = (((letters t).map g : List Nat) : Multiset Nat) := by
  simp only [depthPairs, Multiset.map_coe, List.map_map, letters]
  congr 1

/-- The tree built from two or more symbols whose counts sum to less than
`2^32`: exact weighted length and optimality. -/
theorem built_optimal (P : PriorityQueue) (g : Nat → Nat) (h2 : 2 ≤ (symbols g).length)
    (hsum : ((List.range VALUES_RANGE).map g).sum < 4294967296) :
    (HuffTree.ofFrequencies P g).get_total_length
        = weightedLength g (HuffTree.ofFrequencies P g).root % 4294967296 ∧
      ∀ t : TreeNodePtr, (letters t).Perm (symbols g) →
        weightedLength g (HuffTree.ofFrequencies P g).root ≤ weightedLength g t := by
  rcases ofFrequencies_cases P g with ⟨h, -⟩ | ⟨s, h, -⟩ | ⟨-, hred⟩
  · rw [h] at h2; simp at h2
  · rw [h] at h2; simp at h2
  · have hs : ((leafNodes g : Multiset TreeNodePtr).map weight).sum < 4294967296 := by
      rw [leafNodes_weight, Multiset.sum_coe, symbols, sum_filter_ne_zero]
      exact hsum
    obtain ⟨⟨-, hcar⟩, hopt⟩ := reduces_cost g hred (leafNodes_good g) hs
    have hexact : cost (HuffTree.ofFrequencies P g).root 0
        = weightedLength g (HuffTree.ofFrequencies P g).root := by
      rw [cost_eq_sum g _ hcar 0]
      simp [weightedLength]
    refine ⟨?_, ?_⟩
    · rw [HuffTree.get_total_length, get_total_length_impl_eq _ 0 0 rfl, hexact]
    · intro t ht
      have := hopt (depthPairs g t) _ (depthPairs_admissible g t) (by
        rw [depthPairs_weights, leafNodes_weight]
        exact Multiset.coe_eq_coe.2 (ht.map g))
      rw [leafNodes_cost, depthPairs_pcost, hexact] at this
      omega

theorem skip_bits : ∀ (n : Nat) (r : BitReader), r.current_bit ≤ 8 → n ≤ r.bits.length →
    (BitReader.skip n r).bits = r.bits.drop n ∧ (BitReader.skip n r).current_bit ≤ 8 := by
  intro n
  induction n with
  | zero => intro r h _; exact ⟨rfl, h⟩
  | succ n ih =>
    intro r h hn
    cases hb : r.bits with
    | nil => rw [hb] at hn; simp at hn
    | cons b bs =>
      obtain ⟨-, h2, h3⟩ := read_bit_cons r h b bs hb
      rw [hb] at hn
      have := ih r.read_bit.2 h3 (by rw [h2]; simpa using hn)
      rw [BitReader.skip, this.1, h2]
      exact ⟨rfl, this.2⟩

theorem open_bits (bs : List byte_t) : (BitReader.open bs).bits = bytesBits bs := by
  simp [BitReader.open, BitReader.bits, lowBits]

theorem bytesBits_getElem (l : List byte_t) (i : Nat) (h : i < (bytesBits l).length) :
    (bytesBits l)[i] = (l.getD (i / 8) 0).val.testBit (i % 8) := by
  have hlen := bytesBits_length l
  have hk : i / 8 < l.length := by omega
  have hj : i % 8 < 8 := Nat.mod_lt _ (by norm_num)
  have := bytesBits_getD l (i / 8) (i % 8) hk hj
  rw [Nat.div_add_mod] at this
  rw [← this, List.getD_eq_getElem?_getD, List.getElem?_eq_getElem h]
  rfl

theorem read_bit_end (r : BitReader) (h : r.current_bit ≤ 8) (hb : r.bits = []) :
    r.read_bit.1 = none ∧ r.read_bit.2.eof = true := by
  refine ⟨read_bit_nil r h hb, ?_⟩
  unfold BitReader.bits at hb
  have h1 := List.append_eq_nil.1 hb
  have h8 : r.current_bit = 8 := by
    have := congrArg List.length h1.1
    simp [lowBits_length] at this
    omega
  have hs : r.src = [] := by
    cases hsrc : r.src with
    | nil => rfl
    | cons c rest =>
      have := congrArg List.length h1.2
      rw [hsrc, bytesBits_length] at this
      simp at this
  simp [BitReader.read_bit, h8, hs, BitReader.eof]

/-- C11 (bit reader order and end of stream): on a source holding the bytes
`bs`, the call of `read_bit` number `8k + j` (counting from 0, `k < |bs|`,
`j < 8`) succeeds and returns bit `j` of `bs[k]`; the call after the first
`8 * |bs|` returns false and `eof()` is true after it; on an empty source
this is the very first call. -/
theorem bit_reader_order (bs : List byte_t) :
    (∀ k j, k < bs.length → j < 8 →
      (BitReader.skip (8 * k + j) (BitReader.open bs)).read_bit.1
        = some ((bs.getD k 0).val.testBit j)) ∧
    (BitReader.skip (8 * bs.length) (BitReader.open bs)).read_bit.1 = none ∧
    (BitReader.skip (8 * bs.length) (BitReader.open bs)).read_bit.2.eof = true ∧
    ((BitReader.open []).read_bit.1 = none ∧ (BitReader.open []).read_bit.2.eof = true) := by
  have hv : (BitReader.open bs).current_bit ≤ 8 := by simp [BitReader.open]
  have hlen : (BitReader.open bs).bits.length = 8 * bs.length := by
    rw [open_bits, bytesBits_length]
  refine ⟨?_, ?_, ?_, by decide⟩
  · intro k j hk hj
    obtain ⟨h1, h2⟩ := skip_bits (8 * k + j) _ hv (by omega)
    have hi' : 8 * k + j < (bytesBits bs).length := by rw [bytesBits_length]; omega
    have hd : (BitReader.skip (8 * k + j) (BitReader.open bs)).bits
        = (bytesBits bs)[8 * k + j] :: (bytesBits bs).drop (8 * k + j + 1) := by
      rw [h1, open_bits, List.drop_eq_getElem_cons hi']
    rw [(read_bit_cons _ h2 _ _ hd).1, bytesBits_getElem]
    have e1 : (8 * k + j) / 8 = k := by omega
    have e2 : (8 * k + j) % 8 = j := by omega
    rw [e1, e2]
  · obtain ⟨h1, h2⟩ := skip_bits (8 * bs.length) _ hv (by omega)
    exact (read_bit_end _ h2 (by rw [h1, List.drop_eq_nil_of_le (by omega)])).1
  · obtain ⟨h1, h2⟩ := skip_bits (8 * bs.length) _ hv (by omega)
    exact (read_bit_end _ h2 (by rw [h1, List.drop_eq_nil_of_le (by omega)])).2

theorem symbols_single (s f : Nat) (hs : s < 256) (hf : f ≠ 0) :
    symbols (singleFrequency s f) = [s] := by
  have hnd := symbols_nodup (singleFrequency s f)
  have hmem : ∀ x, x ∈ symbols (singleFrequency s f) ↔ x = s := by
    intro x
    rw [mem_symbols]
    unfold singleFrequency
    constructor
    · rintro ⟨-, h⟩
      by_contra hx
      simp [hx] at h
    · rintro rfl
      simp [hs, hf]
  cases hL : symbols (singleFrequency s f) with
  | nil =>
    have := (hmem s).2 rfl
    rw [hL] at this
    simp at this
  | cons a rest =>
    rw [hL] at hnd hmem
    have ha : a = s := (hmem a).1 (List.mem_cons_self _ _)
    cases rest with
    | nil => rw [ha]
    | cons b rest' =>
      have hb : b = s := (hmem b).1 (by simp)
      rw [ha, hb] at hnd
      simp at hnd

/-- C12 (single distinct symbol): the tree built from a table whose only
non-zero entry is `frequencies[s] = f` has `get_total_length()` equal to `f`. -/
theorem single_symbol_total_length (P : PriorityQueue) (s f : Nat) (hs : s < 256)
    (hf : 0 < f) (hf32 : f < 4294967296) :
    (HuffTree.ofFrequencies P (singleFrequency s f)).get_total_length = f := by
  have hsym := symbols_single s f hs (by omega)
  rcases ofFrequencies_cases P (singleFrequency s f) with ⟨h, -⟩ | ⟨s', h, hr⟩ | ⟨h2, -⟩
  · rw [hsym] at h; simp at h
  · rw [hsym] at h
    have hss : s' = s := by simpa using h.symm
    subst hss
    rw [HuffTree.get_total_length, hr]
    simp [get_total_length_impl, TreeNode.leaf, singleFrequency]
    omega
  · rw [hsym] at h2; simp at h2

set_option maxRecDepth 1000000 in
/-- C12 at symbol 0 with frequency 1, the table of the test `OneSymbol`. -/
theorem single_symbol_total_length_witness :
    ((0 : Nat) < 256 ∧ (0 : Nat) < 1 ∧ (1 : Nat) < 4294967296) ∧
    (HuffTree.ofFrequencies listPQ (singleFrequency 0 1)).get_total_length = 1 :=
  ⟨by decide, single_symbol_total_length listPQ 0 1 (by decide) (by decide) (by decide)⟩

set_option maxRecDepth 1000000 in
/-- C13 (known tree): for the counts 6, 6, 2, 2, 1, 1 of the symbols 1 to 6
`get_total_length()` is 42, whatever queue builds the tree. -/
theorem known_tree_total_length (P : PriorityQueue) :
    (HuffTree.ofFrequencies P tiedFrequencies).get_total_length = 42 := by
  have h2 : 2 ≤ (symbols tiedFrequencies).length := by decide
  have hsum : ((List.range VALUES_RANGE).map tiedFrequencies).sum < 4294967296 := by decide
  obtain ⟨e1, o1⟩ := built_optimal P tiedFrequencies h2 hsum
  obtain ⟨e2, o2⟩ := built_optimal listPQ tiedFrequencies h2 hsum
  have p1 := (ofFrequencies_full P tiedFrequencies h2).2
  have p2 := (ofFrequencies_full listPQ tiedFrequencies h2).2
  have h42 : (HuffTree.ofFrequencies listPQ tiedFrequencies).get_total_length = 42 := by decide
  rw [e1, Nat.le_antisymm (o1 _ p2) (o2 _ p1), ← e2, h42]

/-- C20 as amended (the bit writer emits a full byte at the next write): right
after the `write_bit` call that supplies the last of `8k` bits (`k >= 1`) the
sink has received exactly `k - 1` bytes, the first `8(k - 1)` bits, and the
buffer holds the last 8 bits with `current_bit = 8`; a `write_byte` issued next
lands before the buffered byte, which `close` (or the next `write_bit`) emits. -/
theorem write_bit_flushes_lazily (bits : List Bool) (k : Nat) (hk : 1 ≤ k)
    (hlen : bits.length = 8 * k) (byte : byte_t) :
    (bits.foldl BitWriter.write_bit BitWriter.open).out.length = k - 1 ∧
    (bits.foldl BitWriter.write_bit BitWriter.open).current_bit = 8 ∧
    bytesBits (bits.foldl BitWriter.write_bit BitWriter.open).out = bits.take (8 * (k - 1)) ∧
    lowBits (bits.foldl BitWriter.write_bit BitWriter.open).current_byte 8
      = bits.drop (8 * (k - 1)) ∧
    (((bits.foldl BitWriter.write_bit BitWriter.open).write_byte byte).close).out
      = (bits.foldl BitWriter.write_bit BitWriter.open).out
        ++ [byte, toByte (bits.foldl BitWriter.write_bit BitWriter.open).current_byte] := by
  obtain ⟨hv, hb, hpos⟩ := foldl_write_bit_spec bits BitWriter.open opened_valid
  have hne : bits ≠ [] := by
    intro h; rw [h] at hlen; simp at hlen; omega
  have h1 := hpos hne
  have hb' : bytesBits (bits.foldl BitWriter.write_bit BitWriter.open).out
      ++ lowBits (bits.foldl BitWriter.write_bit BitWriter.open).current_byte
          (bits.foldl BitWriter.write_bit BitWriter.open).current_bit = bits := by
    have : BitWriter.open.bits = [] := by simp [BitWriter.bits, BitWriter.open, bytesBits, lowBits]
    rw [this, List.nil_append] at hb
    exact hb
  have hl := congrArg List.length hb'
  rw [List.length_append, bytesBits_length, lowBits_length, hlen] at hl
  have h8 := hv.1
  have hcb : (bits.foldl BitWriter.write_bit BitWriter.open).current_bit = 8 := by omega
  have hout : (bits.foldl BitWriter.write_bit BitWriter.open).out.length = k - 1 := by omega
  rw [hcb] at hb'
  have hlo : (bytesBits (bits.foldl BitWriter.write_bit BitWriter.open).out).length
      = 8 * (k - 1) := by rw [bytesBits_length, hout]
  refine ⟨hout, hcb, ?_, ?_, ?_⟩
  · conv_rhs => rw [← hb']
    rw [List.take_left' hlo]
  · conv_rhs => rw [← hb']
    rw [List.drop_left' hlo]
  · simp [BitWriter.write_byte, BitWriter.close, hcb]


/-- C20 as amended, at 8 bits 1 followed by `write_byte(0)`. -/
theorem write_bit_flushes_lazily_witness :
    ((1 : Nat) ≤ 1 ∧ (List.replicate 8 true).length = 8 * 1) ∧
    ((List.replicate 8 true).foldl BitWriter.write_bit BitWriter.open).out.length = 1 - 1 ∧
    ((List.replicate 8 true).foldl BitWriter.write_bit BitWriter.open).current_bit = 8 ∧
    bytesBits ((List.replicate 8 true).foldl BitWriter.write_bit BitWriter.open).out
      = (List.replicate 8 true).take (8 * (1 - 1)) ∧
    lowBits ((List.replicate 8 true).foldl BitWriter.write_bit BitWriter.open).current_byte 8
      = (List.replicate 8 true).drop (8 * (1 - 1)) ∧
    ((((List.replicate 8 true).foldl BitWriter.write_bit BitWriter.open).write_byte 0).close).out
      = ((List.replicate 8 true).foldl BitWriter.write_bit BitWriter.open).out
        ++ [0, toByte ((List.replicate 8 true).foldl BitWriter.write_bit
              BitWriter.open).current_byte] :=
  ⟨by decide, write_bit_flushes_lazily (List.replicate 8 true) 1 (by decide) (by decide) 0⟩

/-- C20 as stated fails: after 8 calls of `write_bit` (`k = 1`) the sink has
received no byte and the buffer is full, not empty; a `write_byte(0)` issued
next lands before the byte 255 made of those bits. -/
theorem full_byte_not_emitted_at_once :
    ((List.replicate 8 true).foldl BitWriter.write_bit BitWriter.open).out = [] ∧
    ((List.replicate 8 true).foldl BitWriter.write_bit BitWriter.open).current_bit = 8 ∧
    ((List.replicate 8 true).foldl BitWriter.write_bit BitWriter.open).out.length ≠ 1 ∧
    ((((List.replicate 8 true).foldl BitWriter.write_bit BitWriter.open).write_byte 0).close).out
      = [0, 255] := by
  decide

theorem reduces_carries (g : Nat → Nat) {F : Multiset TreeNodePtr} {t : TreeNodePtr}
    (h : Reduces F t) : (∀ x ∈ F, isFull x = true ∧ carries g x) → carries g t := by
  induction h with
  | single t => intro hF; exact (hF t (by simp)).2
  | step F l r t hl hlmin hr hrmin h ih =>
    intro hF
    have hfl := hF l hl
    have hfr := hF r (Multiset.mem_of_mem_erase hr)
    apply ih
    intro x hx
    rcases Multiset.mem_cons.1 hx with rfl | hx
    · exact ⟨isFull_merge hfl.1 hfr.1, carries_merge g hfl.1 hfl.2 hfr.2⟩
    · exact hF x (Multiset.mem_of_mem_erase (Multiset.mem_of_mem_erase hx))

/-- Every leaf of the built tree stores the frequency of its letter. -/
theorem ofFrequencies_carries (P : PriorityQueue) (f : Nat → Nat) :
    carries f (HuffTree.ofFrequencies P f).root := by
  rcases ofFrequencies_cases P f with ⟨h, hr⟩ | ⟨s, _, hr⟩ | ⟨_, hred⟩
  · rw [hr]
    show (0 : Nat) = f 0
    have h0 : (0 : Nat) ∉ symbols f := by rw [h]; simp
    rw [mem_symbols] at h0
    by_contra hc
    exact h0 ⟨by decide, fun e => hc e.symm⟩
  · rw [hr]
    simp [carries, TreeNode.leaf]
  · exact reduces_carries f hred
      (fun x hx => ⟨leafNodes_full f x hx, (leafNodes_good f x hx).2.1⟩)

/-- C18 (shape of the built tree): for every frequency table, with no non-zero
entry the root of `HuffTree(frequencies)` exists and has no children; with
exactly one non-zero entry, at `s`, the root has the leaf holding `s` with its
frequency as left child and no right child; with two or more non-zero entries
every node is a leaf or has two children, the letters at the leaves are the
symbols of non-zero frequency, each once, and every leaf stores the frequency
of its letter. -/
theorem built_tree_shape (P : PriorityQueue) (frequencies : Nat → Nat) :
    (symbols frequencies = [] →
      (HuffTree.ofFrequencies P frequencies).root ≠ null ∧
      (HuffTree.ofFrequencies P frequencies).root.left = null ∧
      (HuffTree.ofFrequencies P frequencies).root.right = null) ∧
    (∀ s, symbols frequencies = [s] →
      (HuffTree.ofFrequencies P frequencies).root.left = TreeNode.leaf s (frequencies s) ∧
      (HuffTree.ofFrequencies P frequencies).root.left.is_leaf = true ∧
      (HuffTree.ofFrequencies P frequencies).root.right = null) ∧
    (2 ≤ (symbols frequencies).length →
      isFull (HuffTree.ofFrequencies P frequencies).root = true ∧
      (letters (HuffTree.ofFrequencies P frequencies).root).Perm (symbols frequencies) ∧
      (symbols frequencies).Nodup ∧
      carries frequencies (HuffTree.ofFrequencies P frequencies).root) := by
  refine ⟨fun h => ?_, fun s h => ?_, fun h2 => ?_⟩
  · rw [ofFrequencies_empty P frequencies h]
    exact ⟨by simp [TreeNode.new], rfl, rfl⟩
  · rcases ofFrequencies_cases P frequencies with ⟨h0, -⟩ | ⟨s', hs', hr⟩ | ⟨h2, -⟩
    · rw [h0] at h; simp at h
    · rw [hs'] at h
      have e : s' = s := by simpa using h
      subst e
      rw [hr]
      exact ⟨rfl, rfl, rfl⟩
    · rw [h] at h2; simp at h2
  · obtain ⟨h1, h3⟩ := ofFrequencies_full P frequencies h2
    exact ⟨h1, h3, symbols_nodup frequencies, ofFrequencies_carries P frequencies⟩

set_option maxRecDepth 1000000 in
/-- The three cases of `built_tree_shape` on the all-zero table, on a table
with one symbol and on a table with two. -/
theorem built_tree_shape_witness :
    (symbols (fun _ => 0) = [] ∧
      (HuffTree.ofFrequencies listPQ (fun _ => 0)).root ≠ null ∧
      (HuffTree.ofFrequencies listPQ (fun _ => 0)).root.left = null ∧
      (HuffTree.ofFrequencies listPQ (fun _ => 0)).root.right = null) ∧
    (symbols (singleFrequency 7 3) = [7] ∧
      (HuffTree.ofFrequencies listPQ (singleFrequency 7 3)).root.left
        = TreeNode.leaf 7 (singleFrequency 7 3 7) ∧
      (HuffTree.ofFrequencies listPQ (singleFrequency 7 3)).root.left.is_leaf = true ∧
      (HuffTree.ofFrequencies listPQ (singleFrequency 7 3)).root.right = null) ∧
    (2 ≤ (symbols twoSymbols).length ∧
      isFull (HuffTree.ofFrequencies listPQ twoSymbols).root = true ∧
      (letters (HuffTree.ofFrequencies listPQ twoSymbols).root).Perm (symbols twoSymbols) ∧
      (symbols twoSymbols).Nodup ∧
      carries twoSymbols (HuffTree.ofFrequencies listPQ twoSymbols).root) :=
  ⟨⟨by decide, (built_tree_shape listPQ (fun _ => 0)).1 (by decide)⟩,
   ⟨by decide, (built_tree_shape listPQ (singleFrequency 7 3)).2.1 7 (by decide)⟩,
   ⟨by decide, (built_tree_shape listPQ twoSymbols).2.2 (by decide)⟩⟩

theorem sum_filter_of_zero (f g : Nat → Nat) (hz : ∀ s, f s = 0 → g s = 0) (L : List Nat) :
    ((L.filter (fun s => decide (f s ≠ 0))).map g).sum = (L.map g).sum := by
  induction L with
  | nil => rfl
  | cons a L ih =>
    by_cases h : f a = 0
    · have hd : decide (f a ≠ 0) = false := by simp [h]
      rw [List.filter_cons, hd]
      simp only [Bool.false_eq_true, if_false, List.map_cons, List.sum_cons, hz a h, ih,
        Nat.zero_add]
    · have hd : decide (f a ≠ 0) = true := by simp [h]
      rw [List.filter_cons, hd]
      simp only [if_true, List.map_cons, List.sum_cons, ih]

theorem make_table_new (s : Nat) : make_table HuffTree.new s = (0, 0) := by
  unfold make_table HuffTree.new TreeNode.new
  simp only [make_table_impl]
  by_cases h : s = 0
  · subst h; simp
  · simp [Function.update_noteq h]

/-- The length of a table entry is the depth of the leaf, for every leaf of the
built tree. -/
theorem make_table_length (P : PriorityQueue) (f : Nat → Nat) (e : List Bool × Nat)
    (he : e ∈ leafPaths (HuffTree.ofFrequencies P f).root) :
    (make_table (HuffTree.ofFrequencies P f) e.2).2 = e.1.length := by
  obtain ⟨hnd, hlen, -⟩ := ofFrequencies_paths P f
  rw [make_table_mem _ hnd e he]
  show pathLen 0 e.1 = e.1.length
  rw [pathLen_eq e.1 0 (by have := hlen e he; omega)]
  omega

/-- The value `get_total_length` returns is the weighted length of the built
tree modulo `2^32`. -/
theorem get_total_length_eq (P : PriorityQueue) (f : Nat → Nat) :
    (HuffTree.ofFrequencies P f).get_total_length
      = weightedLength f (HuffTree.ofFrequencies P f).root % 4294967296 := by
  unfold HuffTree.get_total_length
  rw [get_total_length_impl_eq _ 0 0 rfl, cost_eq_sum f _ (ofFrequencies_carries P f) 0]
  unfold weightedLength
  simp only [Nat.zero_add]

theorem code_len_eq_weightedLength (P : PriorityQueue) (f : Nat → Nat) :
    encode_code_len f (make_table (HuffTree.ofFrequencies P f))
      = weightedLength f (HuffTree.ofFrequencies P f).root % 4294967296 := by
  rw [encode_code_len_eq]
  by_cases h0 : symbols f = []
  · rw [ofFrequencies_empty P f h0]
    have e1 : ((List.range VALUES_RANGE).map
        (fun s => f s * (make_table ⟨TreeNode.new⟩ s).2)).sum = 0 := by
      apply List.sum_eq_zero
      intro x hx
      obtain ⟨s, -, rfl⟩ := List.mem_map.1 hx
      have := make_table_new s
      unfold HuffTree.new at this
      rw [this]
      exact Nat.mul_zero _
    rw [e1]
    simp [weightedLength, leafPaths, TreeNode.new]
  · obtain ⟨-, -, h3⟩ := ofFrequencies_paths P f
    obtain ⟨hperm, -⟩ := h3 h0
    refine congrArg (fun x => x % 4294967296) ?_
    rw [← sum_filter_of_zero f (fun s => f s * (make_table (HuffTree.ofFrequencies P f) s).2)
      (fun s hs => by simp [hs])]
    show ((symbols f).map _).sum = _
    rw [← (hperm.map _).sum_eq]
    unfold weightedLength letters
    rw [List.map_map]
    congr 1
    apply List.map_congr_left
    intro e he
    simp only [Function.comp]
    rw [make_table_length P f e he, Nat.mul_comm]

/-- C15 (two ways of sizing the payload agree): for every frequency table the
`code_len` that `encode` computes from the table equals `get_total_length()` of
the tree built from the same frequencies, which is the sum over the leaves of
depth times frequency in 32-bit arithmetic; for the empty tree `HuffTree()`
both are 0. -/
theorem code_len_eq_total_length (P : PriorityQueue) (frequencies : Nat → Nat) :
    encode_code_len frequencies (make_table (HuffTree.ofFrequencies P frequencies))
      = (HuffTree.ofFrequencies P frequencies).get_total_length ∧
    encode_code_len frequencies (make_table (HuffTree.ofFrequencies P frequencies))
      = ((List.range VALUES_RANGE).map (fun b =>
          frequencies b * (make_table (HuffTree.ofFrequencies P frequencies) b).2)).sum
          % 4294967296 ∧
    (HuffTree.ofFrequencies P frequencies).get_total_length
      = weightedLength frequencies (HuffTree.ofFrequencies P frequencies).root % 4294967296 ∧
    encode_code_len frequencies (make_table HuffTree.new) = 0 ∧
    HuffTree.new.get_total_length = 0 := by
  refine ⟨?_, encode_code_len_eq _ _, get_total_length_eq P frequencies, ?_, rfl⟩
  · rw [code_len_eq_weightedLength, get_total_length_eq]
  · rw [encode_code_len_eq]
    have e1 : ((List.range VALUES_RANGE).map
        (fun s => frequencies s * (make_table HuffTree.new s).2)).sum = 0 := by
      apply List.sum_eq_zero
      intro x hx
      obtain ⟨s, -, rfl⟩ := List.mem_map.1 hx
      rw [make_table_new s]
      exact Nat.mul_zero _
    rw [e1]

theorem table_length_ne_zero_iff (P : PriorityQueue) (f : Nat → Nat) (b : Nat) (hb : b < 256) :
    (make_table (HuffTree.ofFrequencies P f) b).2 ≠ 0 ↔ f b ≠ 0 := by
  by_cases h0 : symbols f = []
  · rw [ofFrequencies_empty P f h0]
    have e := make_table_new b
    unfold HuffTree.new at e
    rw [e]
    have hn : b ∉ symbols f := by rw [h0]; simp
    rw [mem_symbols] at hn
    constructor
    · intro h; exact absurd rfl h
    · intro h; exact absurd ⟨hb, h⟩ hn
  · obtain ⟨-, -, h3⟩ := ofFrequencies_paths P f
    obtain ⟨hperm, hne⟩ := h3 h0
    constructor
    · intro h hf
      apply h
      have hn : b ∉ letters (HuffTree.ofFrequencies P f).root := by
        intro hm
        have := (mem_symbols.1 (hperm.mem_iff.1 hm)).2
        exact this hf
      rw [make_table_not_mem _ b hn]
    · intro hf
      have hm : b ∈ letters (HuffTree.ofFrequencies P f).root :=
        hperm.mem_iff.2 (mem_symbols.2 ⟨hb, hf⟩)
      obtain ⟨e, he, rfl⟩ := List.mem_map.1 hm
      rw [make_table_length P f e he]
      have := hne e he
      intro hl
      exact this (List.eq_nil_of_length_eq_zero hl)

theorem table_size_eq_symbols (P : PriorityQueue) (f : Nat → Nat) :
    encode_table_size (make_table (HuffTree.ofFrequencies P f)) = (symbols f).length := by
  rw [encode_table_size_eq]
  unfold symbols
  congr 1
  apply List.filter_congr
  intro s hs
  have hs' : s < 256 := by simpa [VALUES_RANGE] using hs
  have := table_length_ne_zero_iff P f s hs'
  simp only [decide_eq_decide]
  exact this

/-- C14 (table entries exist exactly for present symbols): for every frequency
table the entry of symbol `b` has non-zero code length if and only if
`frequencies[b]` is non-zero, so `table_size` is the number of non-zero
entries of the frequency table; for every input in which no byte value occurs
a positive multiple of `2^32` times, the `table_size` computed by `encode` is
the number of distinct byte values in the input. -/
theorem table_entries_for_present_symbols (P : PriorityQueue) (frequencies : Nat → Nat) :
    (∀ b, b < 256 →
      ((make_table (HuffTree.ofFrequencies P frequencies) b).2 ≠ 0 ↔ frequencies b ≠ 0)) ∧
    encode_table_size (make_table (HuffTree.ofFrequencies P frequencies))
      = (symbols frequencies).length ∧
    ∀ input : List byte_t,
      (∀ b, b < 256 → 0 < occurrences input b → occurrences input b % 4294967296 ≠ 0) →
      encode_table_size (make_table (HuffTree.ofFrequencies P (get_frequencies input)))
        = distinctBytes input := by
  refine ⟨table_length_ne_zero_iff P frequencies, table_size_eq_symbols P frequencies, ?_⟩
  intro input hwrap
  rw [table_size_eq_symbols]
  unfold symbols distinctBytes
  congr 1
  apply List.filter_congr
  intro s hs
  have hs' : s < 256 := by simpa [VALUES_RANGE] using hs
  simp only [decide_eq_decide]
  rw [get_frequencies_eq]
  constructor
  · intro h
    by_contra hc
    have : occurrences input s = 0 := by omega
    rw [this] at h
    exact h rfl
  · intro h
    exact hwrap s hs' h

set_option maxRecDepth 1000000 in
/-- The two-byte input `smallInput` meets the hypothesis of
`table_entries_for_present_symbols`, and its `table_size` is its number of
distinct byte values. -/
theorem table_entries_for_present_symbols_witness :
    (∀ b, b < 256 → 0 < occurrences smallInput b →
      occurrences smallInput b % 4294967296 ≠ 0) ∧
    encode_table_size (make_table (HuffTree.ofFrequencies listPQ (get_frequencies smallInput)))
      = distinctBytes smallInput :=
  ⟨by decide,
   (table_entries_for_present_symbols listPQ (get_frequencies smallInput)).2.2 smallInput
     (by decide)⟩

set_option maxRecDepth 1000000 in
/-- C14 as stated fails: in an input of `2^32` bytes 0 one byte value occurs,
but its count wraps to 0, no table entry is made and `table_size` is 0. -/
theorem table_size_misses_wrapped_count :
    get_frequencies manyZeros 0 = 0 ∧
    encode_table_size (make_table (HuffTree.ofFrequencies listPQ (get_frequencies manyZeros)))
      = 0 ∧
    distinctBytes manyZeros = 1 ∧
    encode_table_size (make_table (HuffTree.ofFrequencies listPQ (get_frequencies manyZeros)))
      ≠ distinctBytes manyZeros := by
  have h1 : encode_table_size
      (make_table (HuffTree.ofFrequencies listPQ (get_frequencies manyZeros))) = 0 := by
    rw [get_frequencies_manyZeros]; decide
  have h2 : distinctBytes manyZeros = 1 := by
    unfold distinctBytes
    simp only [manyZeros, occurrences_replicate]
    decide
  refine ⟨by rw [get_frequencies_manyZeros], h1, h2, ?_⟩
  rw [h1, h2]
  decide

theorem encode_file_size_eq (f : Nat → Nat) :
    encode_file_size f = ((List.range VALUES_RANGE).map f).sum % 4294967296 := by
  unfold encode_file_size
  generalize VALUES_RANGE = N
  induction N with
  | zero => simp [forRange_zero]
  | succ N ih =>
    rw [forRange_succ, ih, List.range_succ, List.map_append, List.sum_append]
    simp only [List.map_cons, List.map_nil, List.sum_cons, List.sum_nil, Nat.add_zero]
    omega

theorem occurrences_le (input : List byte_t) (s : Nat) : occurrences input s ≤ input.length := by
  unfold occurrences
  have := List.count_le_length s (input.map Fin.val)
  simpa using this

theorem sum_occurrences_eq_length (input : List byte_t) :
    ((List.range VALUES_RANGE).map (occurrences input)).sum = input.length := by
  have h := sum_occurrences (fun _ => 1) VALUES_RANGE input (fun b _ => b.isLt)
  simpa using h

/-- C16 (frequency table): for every input of fewer than `2^32` bytes the table
returned by `get_frequencies` holds for each byte value the number of its
occurrences in the input, and the sum of the entries that `encode` computes
as `file_size` is the number of bytes of the input. -/
theorem frequency_table_counts (input : List byte_t) (hS : input.length < 4294967296) :
    (∀ b, get_frequencies input b = occurrences input b) ∧
    encode_file_size (get_frequencies input) = input.length := by
  have h1 : ∀ b, get_frequencies input b = occurrences input b := by
    intro b
    rw [get_frequencies_eq]
    exact Nat.mod_eq_of_lt (lt_of_le_of_lt (occurrences_le input b) hS)
  refine ⟨h1, ?_⟩
  rw [encode_file_size_eq]
  have : get_frequencies input = occurrences input := funext h1
  rw [this, sum_occurrences_eq_length]
  exact Nat.mod_eq_of_lt hS

set_option maxRecDepth 1000000 in
/-- The two-byte input `smallInput` meets the hypothesis of
`frequency_table_counts`. -/
theorem frequency_table_counts_witness :
    smallInput.length < 4294967296 ∧
    (∀ b, get_frequencies smallInput b = occurrences smallInput b) ∧
    encode_file_size (get_frequencies smallInput) = smallInput.length :=
  ⟨by decide, frequency_table_counts smallInput (by decide)⟩

set_option maxRecDepth 1000000 in
/-- C16 as stated fails: for the input of `2^32` bytes 0 the entry of byte 0 is
0, not the `2^32` occurrences, and `file_size` is 0, not the `2^32` bytes of
the input. -/
theorem frequency_table_wraps :
    get_frequencies manyZeros 0 = 0 ∧ occurrences manyZeros 0 = 4294967296 ∧
    get_frequencies manyZeros 0 ≠ occurrences manyZeros 0 ∧
    encode_file_size (get_frequencies manyZeros) = 0 ∧ manyZeros.length = 4294967296 ∧
    encode_file_size (get_frequencies manyZeros) ≠ manyZeros.length := by
  have h1 : get_frequencies manyZeros 0 = 0 := by rw [get_frequencies_manyZeros]
  have h2 : occurrences manyZeros 0 = 4294967296 := by
    rw [manyZeros, occurrences_replicate]; exact if_pos rfl
  have h3 : encode_file_size (get_frequencies manyZeros) = 0 := by
    rw [get_frequencies_manyZeros]; decide
  have h4 : manyZeros.length = 4294967296 := by
    rw [manyZeros, List.length_replicate]
  refine ⟨h1, h2, ?_, h3, h4, ?_⟩
  · rw [h1, h2]; decide
  · rw [h3, h4]; decide

theorem foldl_add_letter_root (table : Table) : ∀ (L : List Nat) (T0 : HuffTree),
    (∀ s ∈ L, (table s).2 ≤ 32) →
    (L.foldl (fun (t : HuffTree) (s : Nat) => t.add_letter (table s).1 (table s).2 s) T0).root
      = insertAll (L.map (fun s => (codeBits (table s), s))) T0.root := by
  intro L
  induction L with
  | nil => intro T0 _; rfl
  | cons s L ih =>
    intro T0 h
    rw [List.foldl_cons, ih _ (fun x hx => h x (List.mem_cons_of_mem _ hx))]
    simp only [List.map_cons, insertAll, List.foldl_cons,
      add_letter_eq _ _ _ _ (h s (List.mem_cons_self _ _))]

theorem rebuilt_eq (table : Table) (h : ∀ s, s < 256 → (table s).2 ≤ 32) :
    (rebuilt table).root = insertAll (tableCodes table) TreeNode.new :=
  foldl_add_letter_root table (codedSymbols table) HuffTree.new
    (fun s hs => h s (mem_codedSymbols.1 hs).1)

theorem skeleton_node {l r : TreeNodePtr} (s f : Nat) (h : ¬(l = null ∧ r = null)) :
    skeleton (node l r s f) = node (skeleton l) (skeleton r) 0 0 := by
  cases l <;> cases r <;> simp_all [skeleton]

/-- Two trees with the same paths and the same letters at the leaves have the
same skeleton. -/
theorem skeleton_ext : ∀ (t₁ t₂ : TreeNodePtr),
    (∀ q, nodeAt t₁ q = null ↔ nodeAt t₂ q = null) →
    (∀ q, (nodeAt t₁ q).is_leaf = true → (nodeAt t₁ q).letter = (nodeAt t₂ q).letter) →
    skeleton t₁ = skeleton t₂ := by
  intro t₁
  induction t₁ with
  | null =>
    intro t₂ h _
    have : t₂ = null := (h []).1 rfl
    rw [this]
  | node l₁ r₁ s₁ f₁ ihl ihr =>
    intro t₂ h hl
    cases t₂ with
    | null => exact absurd ((h []).2 rfl) (by simp [nodeAt])
    | node l₂ r₂ s₂ f₂ =>
      have el : skeleton l₁ = skeleton l₂ :=
        ihl l₂ (fun q => h (false :: q)) (fun q => hl (false :: q))
      have er : skeleton r₁ = skeleton r₂ :=
        ihr r₂ (fun q => h (true :: q)) (fun q => hl (true :: q))
      have hnl : l₁ = null ↔ l₂ = null := h [false]
      have hnr : r₁ = null ↔ r₂ = null := h [true]
      by_cases hleaf : l₁ = null ∧ r₁ = null
      · obtain ⟨h1, h2⟩ := hleaf
        have h3 := hnl.1 h1
        have h4 := hnr.1 h2
        subst h1 h2 h3 h4
        have := hl [] rfl
        simp only [nodeAt, TreeNodePtr.letter] at this
        simp [skeleton, this]
      · have hleaf' : ¬(l₂ = null ∧ r₂ = null) := fun hc => hleaf ⟨hnl.2 hc.1, hnr.2 hc.2⟩
        rw [skeleton_node _ _ hleaf, skeleton_node _ _ hleaf', el, er]

/-- A path stays inside a tree exactly when it is the beginning of the path to
a leaf. -/
theorem nodeAt_ne_null_iff (t : TreeNodePtr) : ∀ (q : List Bool),
    nodeAt t q ≠ null ↔ ∃ e ∈ leafPaths t, q <+: e.1 := by
  induction t using tree_induction with
  | hnull => intro q; simp [nodeAt_null, leafPaths]
  | hleaf s f =>
    intro q
    cases q with
    | nil => simp [nodeAt, leafPaths]
    | cons b q =>
      cases b <;>
        simp [nodeAt, leafPaths, TreeNodePtr.left, TreeNodePtr.right, nodeAt_null]
  | hnode l r s f hn ihl ihr =>
    intro q
    rw [leafPaths_node s f hn]
    cases q with
    | nil =>
      have hex : ∃ e, e ∈ leafPaths l ∨ e ∈ leafPaths r := by
        by_cases h1 : l = null
        · have h2 : r ≠ null := fun h2 => hn ⟨h1, h2⟩
          obtain ⟨e, he, -⟩ := (ihr []).1 h2
          exact ⟨e, Or.inr he⟩
        · obtain ⟨e, he, -⟩ := (ihl []).1 h1
          exact ⟨e, Or.inl he⟩
      obtain ⟨e, he⟩ := hex
      simp only [nodeAt, ne_eq, not_false_eq_true, List.mem_append, List.mem_map,
        List.nil_prefix, and_true, true_iff, reduceCtorEq]
      rcases he with he | he
      · exact ⟨_, Or.inl ⟨e, he, rfl⟩⟩
      · exact ⟨_, Or.inr ⟨e, he, rfl⟩⟩
    | cons b q =>
      cases b with
      | false =>
        simp only [nodeAt, TreeNodePtr.left, Bool.false_eq_true, if_false]
        rw [ihl q]
        constructor
        · rintro ⟨e, he, hp⟩
          exact ⟨(false :: e.1, e.2), List.mem_append_left _ (List.mem_map.2 ⟨e, he, rfl⟩),
            by simpa using hp⟩
        · rintro ⟨e, he, hp⟩
          rcases List.mem_append.1 he with h1 | h1
          · obtain ⟨x, hx, rfl⟩ := List.mem_map.1 h1
            exact ⟨x, hx, by simpa using hp⟩
          · obtain ⟨x, hx, rfl⟩ := List.mem_map.1 h1
            simp at hp
      | true =>
        simp only [nodeAt, TreeNodePtr.right, if_true]
        rw [ihr q]
        constructor
        · rintro ⟨e, he, hp⟩
          exact ⟨(true :: e.1, e.2), List.mem_append_right _ (List.mem_map.2 ⟨e, he, rfl⟩),
            by simpa using hp⟩
        · rintro ⟨e, he, hp⟩
          rcases List.mem_append.1 he with h1 | h1
          · obtain ⟨x, hx, rfl⟩ := List.mem_map.1 h1
            simp at hp
          · obtain ⟨x, hx, rfl⟩ := List.mem_map.1 h1
            exact ⟨x, hx, by simpa using hp⟩

/-- A leaf reached along `q` is listed by `leafPaths` with the path `q`. -/
theorem nodeAt_leaf_mem : ∀ (q : List Bool) (t : TreeNodePtr),
    (nodeAt t q).is_leaf = true → (q, (nodeAt t q).letter) ∈ leafPaths t := by
  intro q
  induction q with
  | nil =>
    intro t h
    cases t with
    | null => simp [nodeAt, is_leaf] at h
    | node l r s f =>
      simp only [nodeAt, is_leaf_node, decide_eq_true_eq] at h
      obtain ⟨rfl, rfl⟩ := h
      simp [nodeAt, leafPaths, TreeNodePtr.letter]
  | cons b q ih =>
    intro t h
    cases t with
    | null => simp [nodeAt_null, is_leaf] at h
    | node l r s f =>
      have hchild : (if b then r else l) ≠ null := by
        intro hc
        simp only [nodeAt, TreeNodePtr.left, TreeNodePtr.right] at h
        rw [hc, nodeAt_null] at h
        simp [is_leaf] at h
      have hn : ¬(l = null ∧ r = null) := by
        rintro ⟨rfl, rfl⟩
        cases b <;> simp at hchild
      rw [leafPaths_node s f hn]
      cases b with
      | false =>
        simp only [nodeAt, TreeNodePtr.left, Bool.false_eq_true, if_false] at h ⊢
        exact List.mem_append_left _ (List.mem_map.2 ⟨_, ih l h, rfl⟩)
      | true =>
        simp only [nodeAt, TreeNodePtr.right, if_true] at h ⊢
        exact List.mem_append_right _ (List.mem_map.2 ⟨_, ih r h, rfl⟩)

/-- The path listed for a leaf leads to that leaf. -/
theorem leafPaths_nodeAt (t : TreeNodePtr) : ∀ e ∈ leafPaths t,
    (nodeAt t e.1).is_leaf = true ∧ (nodeAt t e.1).letter = e.2 := by
  induction t using tree_induction with
  | hnull => intro e he; simp [leafPaths] at he
  | hleaf s f =>
    intro e he
    simp only [leafPaths, List.mem_singleton] at he
    subst he
    simp [nodeAt, is_leaf, TreeNodePtr.letter]
  | hnode l r s f hn ihl ihr =>
    intro e he
    rw [leafPaths_node s f hn] at he
    rcases List.mem_append.1 he with h1 | h1
    · obtain ⟨x, hx, rfl⟩ := List.mem_map.1 h1
      simpa [nodeAt, TreeNodePtr.left] using ihl x hx
    · obtain ⟨x, hx, rfl⟩ := List.mem_map.1 h1
      simpa [nodeAt, TreeNodePtr.right] using ihr x hx

theorem huffTree_ext (a b : HuffTree) (h : a.root = b.root) : a = b := by
  cases a; cases b; simp only at h; rw [h]

/-- The paths of the rebuilt tree are those of the built tree, and the rebuilt
tree holds at the end of every leaf path the letter of that leaf. -/
theorem rebuilt_paths (P : PriorityQueue) (f : Nat → Nat)
    (hlen : ∀ s, s < 256 → (make_table (HuffTree.ofFrequencies P f) s).2 ≤ 32)
    (hne : symbols f ≠ []) :
    (∀ q, nodeAt (rebuilt (make_table (HuffTree.ofFrequencies P f))).root q ≠ null ↔
      nodeAt (HuffTree.ofFrequencies P f).root q ≠ null) ∧
    (∀ e ∈ leafPaths (HuffTree.ofFrequencies P f).root,
      (nodeAt (rebuilt (make_table (HuffTree.ofFrequencies P f))).root e.1).letter = e.2) := by
  have hsub := tableCodes_subset P f hlen
  have hsup := leafPaths_subset P f hlen hne
  have hnew : TreeNode.new ≠ null := by simp [TreeNode.new]
  obtain ⟨-, -, hsym⟩ := ofFrequencies_paths P f
  obtain ⟨hperm, -⟩ := hsym hne
  have hex : ∃ e, e ∈ leafPaths (HuffTree.ofFrequencies P f).root := by
    cases hl : leafPaths (HuffTree.ofFrequencies P f).root with
    | nil =>
      have := hperm.length_eq
      simp only [letters, hl, List.map_nil, List.length_nil] at this
      exact absurd (List.eq_nil_of_length_eq_zero this.symm) hne
    | cons e _ => exact ⟨e, List.mem_cons_self _ _⟩
  refine ⟨fun q => ?_, fun e he => ?_⟩
  · rw [rebuilt_eq _ hlen, nodeAt_insertAll_ne_null _ _ _ hnew, nodeAt_new, nodeAt_ne_null_iff]
    constructor
    · rintro (rfl | ⟨e, he, hp⟩)
      · obtain ⟨e, he⟩ := hex
        exact ⟨e, he, List.nil_prefix⟩
      · exact ⟨e, hsub e he, hp⟩
    · rintro ⟨e, he, hp⟩
      exact Or.inr ⟨e, (hsup e he).1, hp⟩
  · rw [rebuilt_eq _ hlen]
    apply nodeAt_insertAll_letter _ _ hnew _ e (hsup e he).1
    intro e₁ h₁ e₂ h₂ h12
    have := leafPaths_prefix_free _ e₁ (hsub e₁ h₁) e₂ (hsub e₂ h₂) (by rw [h12])
    rw [this]

/-- C17 (tree reconstruction agrees with construction): for every frequency
table whose assigned code lengths are all at most 32, the tree obtained from
`HuffTree()` by `add_letter(code, length, symbol)` for every table entry of
non-zero length has the shape of `HuffTree(frequencies)` and the same letter at
every leaf; in both trees, following the bits of a symbol's code from the least
significant one (0 = left, 1 = right) for length steps ends at a leaf holding
that symbol; and it is the tree `decode` builds from the table `encode` wrote. -/
theorem rebuilt_tree_agrees (P : PriorityQueue) (frequencies : Nat → Nat)
    (hlen : ∀ s, s < 256 → (make_table (HuffTree.ofFrequencies P frequencies) s).2 ≤ 32) :
    skeleton (rebuilt (make_table (HuffTree.ofFrequencies P frequencies))).root
      = skeleton (HuffTree.ofFrequencies P frequencies).root ∧
    (∀ s, s < 256 → (make_table (HuffTree.ofFrequencies P frequencies) s).2 ≠ 0 →
      ((nodeAt (rebuilt (make_table (HuffTree.ofFrequencies P frequencies))).root
          (codeBits (make_table (HuffTree.ofFrequencies P frequencies) s))).is_leaf = true ∧
        (nodeAt (rebuilt (make_table (HuffTree.ofFrequencies P frequencies))).root
          (codeBits (make_table (HuffTree.ofFrequencies P frequencies) s))).letter = s) ∧
      ((nodeAt (HuffTree.ofFrequencies P frequencies).root
          (codeBits (make_table (HuffTree.ofFrequencies P frequencies) s))).is_leaf = true ∧
        (nodeAt (HuffTree.ofFrequencies P frequencies).root
          (codeBits (make_table (HuffTree.ofFrequencies P frequencies) s))).letter = s)) ∧
    treeOfEntries (tableEntries (make_table (HuffTree.ofFrequencies P frequencies))) HuffTree.new
      = rebuilt (make_table (HuffTree.ofFrequencies P frequencies)) := by
  have h3 : treeOfEntries (tableEntries (make_table (HuffTree.ofFrequencies P frequencies)))
      HuffTree.new = rebuilt (make_table (HuffTree.ofFrequencies P frequencies)) := by
    apply huffTree_ext
    rw [rebuilt_root P frequencies hlen, rebuilt_eq _ hlen]
  by_cases hne : symbols frequencies = []
  · have hcs : codedSymbols (make_table (HuffTree.ofFrequencies P frequencies)) = [] := by
      apply List.eq_nil_iff_forall_not_mem.2
      intro s hs
      obtain ⟨h1, h2⟩ := mem_codedSymbols.1 hs
      have hz := (table_length_ne_zero_iff P frequencies s h1).1 h2
      have : s ∈ symbols frequencies := mem_symbols.2 ⟨h1, hz⟩
      rw [hne] at this
      simp at this
    refine ⟨?_, ?_, h3⟩
    · unfold rebuilt
      rw [hcs, ofFrequencies_empty P frequencies hne]
      rfl
    · intro s hs hz
      exact absurd (mem_codedSymbols.2 ⟨hs, hz⟩) (by rw [hcs]; simp)
  · obtain ⟨hpaths, hletters⟩ := rebuilt_paths P frequencies hlen hne
    refine ⟨?_, ?_, h3⟩
    · symm
      apply skeleton_ext
      · intro q
        have := hpaths q
        constructor
        · intro h; by_contra hc; exact (this.1 hc) h
        · intro h; by_contra hc; exact (this.2 hc) h
      · intro q hq
        have hm := nodeAt_leaf_mem q _ hq
        exact (hletters _ hm).symm
    · intro s hs hz
      have hc : (codeBits (make_table (HuffTree.ofFrequencies P frequencies) s), s)
          ∈ leafPaths (HuffTree.ofFrequencies P frequencies).root :=
        tableCodes_subset P frequencies hlen _
          (List.mem_map.2 ⟨s, mem_codedSymbols.2 ⟨hs, hz⟩, rfl⟩)
      have hB := leafPaths_nodeAt _ _ hc
      refine ⟨⟨?_, hletters _ hc⟩, hB⟩
      rw [is_leaf_iff]
      have hchild : ∀ b : Bool,
          nodeAt (rebuilt (make_table (HuffTree.ofFrequencies P frequencies))).root
            (codeBits (make_table (HuffTree.ofFrequencies P frequencies) s) ++ [b]) = null := by
        intro b
        by_contra hcn
        have h1 := (hpaths _).1 hcn
        have h2 := (is_leaf_iff _).1 hB.1
        rw [nodeAt_append_singleton] at h1
        cases b
        · exact h1 h2.2.1
        · exact h1 h2.2.2
      refine ⟨(hpaths _).2 ((is_leaf_iff _).1 hB.1).1, ?_, ?_⟩
      · have := hchild false
        rw [nodeAt_append_singleton] at this
        simpa using this
      · have := hchild true
        rw [nodeAt_append_singleton] at this
        simpa using this

set_option maxRecDepth 1000000 in
/-- The table `twoSymbols` meets the hypothesis of `rebuilt_tree_agrees`. -/
theorem rebuilt_tree_agrees_witness :
    (∀ s, s < 256 → (make_table (HuffTree.ofFrequencies listPQ twoSymbols) s).2 ≤ 32) ∧
    skeleton (rebuilt (make_table (HuffTree.ofFrequencies listPQ twoSymbols))).root
      = skeleton (HuffTree.ofFrequencies listPQ twoSymbols).root ∧
    (∀ s, s < 256 → (make_table (HuffTree.ofFrequencies listPQ twoSymbols) s).2 ≠ 0 →
      ((nodeAt (rebuilt (make_table (HuffTree.ofFrequencies listPQ twoSymbols))).root
          (codeBits (make_table (HuffTree.ofFrequencies listPQ twoSymbols) s))).is_leaf = true ∧
        (nodeAt (rebuilt (make_table (HuffTree.ofFrequencies listPQ twoSymbols))).root
          (codeBits (make_table (HuffTree.ofFrequencies listPQ twoSymbols) s))).letter = s) ∧
      ((nodeAt (HuffTree.ofFrequencies listPQ twoSymbols).root
          (codeBits (make_table (HuffTree.ofFrequencies listPQ twoSymbols) s))).is_leaf = true ∧
        (nodeAt (HuffTree.ofFrequencies listPQ twoSymbols).root
          (codeBits (make_table (HuffTree.ofFrequencies listPQ twoSymbols) s))).letter = s)) ∧
    treeOfEntries (tableEntries (make_table (HuffTree.ofFrequencies listPQ twoSymbols)))
        HuffTree.new
      = rebuilt (make_table (HuffTree.ofFrequencies listPQ twoSymbols)) :=
  ⟨by decide, rebuilt_tree_agrees listPQ twoSymbols (by decide)⟩

theorem occurrences_blocks : ∀ (cs : List Nat) (s t : Nat), s + cs.length ≤ 256 →
    occurrences (blocks cs s) t = if s ≤ t then cs.getD (t - s) 0 else 0 := by
  intro cs
  induction cs with
  | nil => intro s t _; simp [blocks, occurrences]
  | cons c cs ih =>
    intro s t h
    have hlen : s + 1 + cs.length ≤ 256 := by simp only [List.length_cons] at h; omega
    have hs : (toByte s).val = s := toByte_val_of_lt (by omega)
    rw [blocks, occurrences_append, occurrences_replicate, ih (s + 1) t hlen, hs]
    by_cases h1 : s = t
    · subst h1
      rw [if_pos rfl, if_neg (by omega), if_pos (le_refl _), Nat.sub_self]
      rfl
    · rw [if_neg h1]
      by_cases h2 : s + 1 ≤ t
      · rw [if_pos h2, if_pos (by omega)]
        have e : t - s = (t - (s + 1)) + 1 := by omega
        rw [e, List.getD_cons_succ, Nat.zero_add]
      · rw [if_neg h2, if_neg (by omega)]

theorem blocks_length : ∀ (cs : List Nat) (s : Nat), (blocks cs s).length = cs.sum := by
  intro cs
  induction cs with
  | nil => intro s; rfl
  | cons c cs ih =>
    intro s
    rw [blocks, List.length_append, List.length_replicate, ih, List.sum_cons]

theorem skewed_getD_lt (t : Nat) : skewed.getD t 0 < 4294967296 := by
  by_cases h : t < skewed.length
  · rw [List.getD_eq_getElem _ _ h]
    have hall : ∀ x ∈ skewed, x < 4294967296 := by decide
    exact hall _ (List.getElem_mem h)
  · rw [List.getD_eq_default _ _ (by omega)]
    decide

theorem get_frequencies_skewedInput : get_frequencies skewedInput = skewedFrequencies := by
  funext t
  rw [get_frequencies_eq, skewedInput, occurrences_blocks skewed 0 t (by decide),
    if_pos (Nat.zero_le _), Nat.sub_zero, Nat.mod_eq_of_lt (skewed_getD_lt t)]
  rfl

set_option maxRecDepth 1000000 in
theorem tableEntries_head (table : Table) (h : (table 0).2 ≠ 0) :
    ∃ rest, tableEntries table = tableEntry table 0 ++ rest := by
  have hr : List.range VALUES_RANGE = 0 :: List.range' 1 255 := by decide
  unfold tableEntries tableEntriesBelow
  rw [hr, List.filter_cons, if_pos (by simpa using h), List.map_cons, List.flatten_cons]
  exact ⟨_, rfl⟩

/-- Byte 12 of the output file is the length field of the entry of symbol 0,
when that symbol has an entry. -/
theorem encode_byte_12 (P : PriorityQueue) (input : List byte_t)
    (h : (make_table (HuffTree.ofFrequencies P (get_frequencies input)) 0).2 ≠ 0) :
    (encode P input).getD 12 0
      = toByte (make_table (HuffTree.ofFrequencies P (get_frequencies input)) 0).2 := by
  unfold encode
  rw [write_encoded_bits]
  obtain ⟨rest, hE⟩ := tableEntries_head _ h
  rw [hE]
  generalize written _ = W
  generalize make_table _ = table
  generalize encode_code_len _ _ = n
  generalize encode_table_size _ = m
  simp [tableEntry, le_bytes, List.getD]

set_option maxRecDepth 1000000 in
/-- C19 as stated fails: for an input of 48,315,633 bytes in which byte `s < 35`
occurs `skewed[s]` times, the entry `encode` writes for symbol 0 has the length
field 34; it is byte 12 of the output file. -/
theorem length_field_exceeds_32 :
    skewedInput.length = 48315633 ∧
    (make_table (HuffTree.ofFrequencies listPQ (get_frequencies skewedInput)) 0).2 = 34 ∧
    (encode listPQ skewedInput).getD 12 0 = 34 ∧
    ¬ ((encode listPQ skewedInput).getD 12 0).val ≤ 32 := by
  have hT : make_table (HuffTree.ofFrequencies listPQ skewedFrequencies) 0
      = (4294967295, 34) := by decide
  have hT2 : (make_table (HuffTree.ofFrequencies listPQ (get_frequencies skewedInput)) 0).2
      = 34 := by
    rw [get_frequencies_skewedInput, hT]
  have h12 := encode_byte_12 listPQ skewedInput (by rw [hT2]; decide)
  rw [hT2] at h12
  have hlen : skewedInput.length = 48315633 := by
    rw [skewedInput, blocks_length]; decide
  refine ⟨hlen, hT2, h12, ?_⟩
  rw [h12]
  decide

theorem positive_node {l r : TreeNodePtr} (s f : Nat) (h : ¬(l = null ∧ r = null)) :
    positive (node l r s f) ↔ positive l ∧ positive r := by
  cases l <;> cases r <;> simp_all [positive]

theorem weight_pos (t : TreeNodePtr) : isFull t = true → positive t → 0 < weight t := by
  induction t using tree_induction with
  | hnull => intro h; simp [isFull] at h
  | hleaf s f => intro _ hp; exact hp
  | hnode l r s f hn ihl _ =>
    intro hf hp
    rw [isFull_node s f hn, Bool.and_eq_true] at hf
    rw [positive_node s f hn] at hp
    rw [weight_node s f hn]
    have := ihl hf.1 hp.1
    omega

/-- In a tree with the sibling property a leaf at depth `d` forces the weight
of the tree to be at least the Fibonacci number `fib (d + 2)`. -/
theorem balanced_fib (t : TreeNodePtr) : isFull t = true → positive t → Balanced t →
    ∀ e ∈ leafPaths t, Nat.fib (e.1.length + 2) ≤ weight t ∧
      (e.1 ≠ [] → Nat.fib (e.1.length + 1) ≤ childWeight t) := by
  induction t using tree_induction with
  | hnull => intro h; simp [isFull] at h
  | hleaf s f =>
    intro _ hp _ e he
    simp only [leafPaths, List.mem_singleton] at he
    subst he
    refine ⟨?_, fun h => absurd rfl h⟩
    show Nat.fib 2 ≤ f
    have : Nat.fib 2 = 1 := by decide
    have hp' : 0 < f := hp
    omega
  | hnode l r s f hn ihl ihr =>
    intro hf hp hb e he
    rw [isFull_node s f hn, Bool.and_eq_true] at hf
    rw [positive_node s f hn] at hp
    obtain ⟨b1, b2, b3, b4⟩ := hb
    rw [weight_node s f hn]
    have hcw : childWeight (node l r s f) = max (weight l) (weight r) := rfl
    rw [hcw]
    have hwl := weight_pos l hf.1 hp.1
    have hwr := weight_pos r hf.2 hp.2
    have hfib1 : Nat.fib 1 = 1 := by decide
    rw [leafPaths_node s f hn] at he
    rcases List.mem_append.1 he with h1 | h1
    · obtain ⟨x, hx, rfl⟩ := List.mem_map.1 h1
      obtain ⟨i1, i2⟩ := ihl hf.1 hp.1 b3 x hx
      have hstep : Nat.fib (x.1.length + 1 + 2)
          = Nat.fib (x.1.length + 1) + Nat.fib (x.1.length + 2) := Nat.fib_add_two
      have hr : Nat.fib (x.1.length + 1) ≤ weight r := by
        by_cases hnil : x.1 = []
        · rw [hnil]; simp only [List.length_nil, Nat.zero_add]; omega
        · exact le_trans (i2 hnil) b1
      simp only [List.length_cons]
      refine ⟨by omega, fun _ => le_trans i1 (le_max_left _ _)⟩
    · obtain ⟨x, hx, rfl⟩ := List.mem_map.1 h1
      obtain ⟨i1, i2⟩ := ihr hf.2 hp.2 b4 x hx
      have hstep : Nat.fib (x.1.length + 1 + 2)
          = Nat.fib (x.1.length + 1) + Nat.fib (x.1.length + 2) := Nat.fib_add_two
      have hr : Nat.fib (x.1.length + 1) ≤ weight l := by
        by_cases hnil : x.1 = []
        · rw [hnil]; simp only [List.length_nil, Nat.zero_add]; omega
        · exact le_trans (i2 hnil) b2
      simp only [List.length_cons]
      refine ⟨by omega, fun _ => le_trans i1 (le_max_right _ _)⟩

/-- The merge loop keeps the sibling property: it always joins the two lightest
queued nodes, so every node queued later weighs at least as much as either. -/
theorem reduces_balanced {F : Multiset TreeNodePtr} {T : TreeNodePtr} (h : Reduces F T) :
    (∀ x ∈ F, isFull x = true ∧ positive x ∧ Balanced x ∧ x.frequency = weight x) →
    (∀ x ∈ F, ∀ y ∈ F, childWeight x ≤ weight y) →
    (F.map weight).sum < 4294967296 →
    isFull T = true ∧ positive T ∧ Balanced T ∧ weight T = (F.map weight).sum := by
  induction h with
  | single t =>
    intro hF _ _
    obtain ⟨h1, h2, h3, -⟩ := hF t (by simp)
    exact ⟨h1, h2, h3, by simp⟩
  | step F l r t hl hlmin hr hrmin h ih =>
    intro hF hpair hsum
    have hdec := reduces_decompose hl hr
    have hr' : r ∈ F := Multiset.mem_of_mem_erase hr
    obtain ⟨fl, pl, bl, wl⟩ := hF l hl
    obtain ⟨fr, pr, br, wr⟩ := hF r hr'
    have hn : ¬(l = null ∧ r = null) := by
      rintro ⟨rfl, -⟩; simp [isFull] at fl
    have hsumdec : (F.map weight).sum
        = weight l + (weight r + (((F.erase l).erase r).map weight).sum) := by
      conv_lhs => rw [hdec]
      simp
    have hfreq : (TreeNode.merge l r).frequency = weight (TreeNode.merge l r) := by
      rw [weight_merge fl]
      show (l.frequency + r.frequency) % 4294967296 = weight l + weight r
      rw [wl, wr]
      have hlt : weight l + weight r < 4294967296 := by omega
      exact Nat.mod_eq_of_lt hlt
    have hcw : childWeight (TreeNode.merge l r) = max (weight l) (weight r) := rfl
    have hsub : ∀ x ∈ (F.erase l).erase r, x ∈ F := fun x hx =>
      Multiset.mem_of_mem_erase (Multiset.mem_of_mem_erase hx)
    have hF' : ∀ x ∈ TreeNode.merge l r ::ₘ (F.erase l).erase r,
        isFull x = true ∧ positive x ∧ Balanced x ∧ x.frequency = weight x := by
      intro x hx
      rcases Multiset.mem_cons.1 hx with rfl | hx
      · refine ⟨isFull_merge fl fr, ?_, ?_, hfreq⟩
        · exact (positive_node _ _ hn).2 ⟨pl, pr⟩
        · exact ⟨hpair l hl r hr', hpair r hr' l hl, bl, br⟩
      · exact hF x (hsub x hx)
    have hpair' : ∀ x ∈ TreeNode.merge l r ::ₘ (F.erase l).erase r,
        ∀ y ∈ TreeNode.merge l r ::ₘ (F.erase l).erase r, childWeight x ≤ weight y := by
      intro x hx y hy
      rcases Multiset.mem_cons.1 hx with rfl | hx <;> rcases Multiset.mem_cons.1 hy with rfl | hy
      · rw [hcw, weight_merge fl]
        exact max_le (by omega) (by omega)
      · rw [hcw]
        have h1 := hlmin y (hsub y hy)
        have h2 := hrmin y (Multiset.mem_of_mem_erase hy)
        rw [wl, (hF y (hsub y hy)).2.2.2] at h1
        rw [wr, (hF y (hsub y hy)).2.2.2] at h2
        exact max_le h1 h2
      · rw [weight_merge fl]
        have := hpair x (hsub x hx) l hl
        omega
      · exact hpair x (hsub x hx) y (hsub y hy)
    have hsum' : ((TreeNode.merge l r ::ₘ (F.erase l).erase r).map weight).sum
        = (F.map weight).sum := by
      simp only [Multiset.map_cons, Multiset.sum_cons, weight_merge fl]
      omega
    obtain ⟨i1, i2, i3, i4⟩ := ih hF' hpair' (by rw [hsum']; exact hsum)
    exact ⟨i1, i2, i3, by rw [i4, hsum']⟩

/-- A tree built from frequencies that sum to less than `fib 35 = 9227465` has
no leaf deeper than 32. -/
theorem depth_le_32 (P : PriorityQueue) (f : Nat → Nat)
    (hsum : ((List.range VALUES_RANGE).map f).sum < 9227465) :
    ∀ e ∈ leafPaths (HuffTree.ofFrequencies P f).root, e.1.length ≤ 32 := by
  rcases ofFrequencies_cases P f with ⟨-, hr⟩ | ⟨s, -, hr⟩ | ⟨-, hred⟩
  · rw [hr]
    intro e he
    simp only [TreeNode.new, leafPaths, List.mem_singleton] at he
    simp [he]
  · rw [hr]
    intro e he
    have hp : leafPaths (node (TreeNode.leaf s (f s)) null 0 0) = [([false], s)] := by
      simp [leafPaths, TreeNode.leaf]
    rw [hp, List.mem_singleton] at he
    simp [he]
  · have hw : ((leafNodes f : Multiset TreeNodePtr).map weight).sum
        = ((List.range VALUES_RANGE).map f).sum := by
      rw [leafNodes_weight, Multiset.sum_coe]
      exact sum_filter_ne_zero f _
    have hF : ∀ x ∈ (leafNodes f : Multiset TreeNodePtr),
        isFull x = true ∧ positive x ∧ Balanced x ∧ x.frequency = weight x := by
      intro x hx
      have hg := leafNodes_good f x hx
      simp only [leafNodes, Multiset.mem_coe, List.mem_map] at hx
      obtain ⟨s, hs, rfl⟩ := hx
      refine ⟨hg.1, ?_, ?_, hg.2.2⟩
      · show 0 < f s
        exact Nat.pos_of_ne_zero (mem_symbols.1 hs).2
      · simp [TreeNode.leaf, Balanced, childWeight, weight]
    have hpair : ∀ x ∈ (leafNodes f : Multiset TreeNodePtr),
        ∀ y ∈ (leafNodes f : Multiset TreeNodePtr), childWeight x ≤ weight y := by
      intro x hx y _
      simp only [leafNodes, Multiset.mem_coe, List.mem_map] at hx
      obtain ⟨s, -, rfl⟩ := hx
      simp [TreeNode.leaf, childWeight, weight]
    obtain ⟨i1, i2, i3, i4⟩ := reduces_balanced hred hF hpair (by rw [hw]; omega)
    intro e he
    obtain ⟨hfib, -⟩ := balanced_fib _ i1 i2 i3 e he
    rw [i4, hw] at hfib
    by_contra hc
    have h35 : Nat.fib 35 ≤ Nat.fib (e.1.length + 2) := Nat.fib_mono (by omega)
    have hval : Nat.fib 35 = 9227465 := by decide
    omega

theorem sum_get_frequencies_le (input : List byte_t) :
    ((List.range VALUES_RANGE).map (get_frequencies input)).sum ≤ input.length := by
  rw [← sum_occurrences_eq_length input]
  apply List.sum_le_sum
  intro s _
  rw [get_frequencies_eq]
  exact Nat.mod_le _ _

/-- C19 (code lengths and the range of the format): for every input and every
symbol-table entry that `encode` writes (the symbols `s < 256` whose table
entry has non-zero length) the length is between 1 and 255 and is the value of
the length byte written; when the input has fewer than 9,227,465 bytes (the
Fibonacci number `fib 35`) the length is between 1 and 32. -/
theorem code_lengths_in_range (P : PriorityQueue) (input : List byte_t) (s : Nat)
    (hs : s < 256)
    (hne : (make_table (HuffTree.ofFrequencies P (get_frequencies input)) s).2 ≠ 0) :
    1 ≤ (make_table (HuffTree.ofFrequencies P (get_frequencies input)) s).2 ∧
    (make_table (HuffTree.ofFrequencies P (get_frequencies input)) s).2 ≤ 255 ∧
    (toByte (make_table (HuffTree.ofFrequencies P (get_frequencies input)) s).2).val
      = (make_table (HuffTree.ofFrequencies P (get_frequencies input)) s).2 ∧
    (input.length < 9227465 →
      (make_table (HuffTree.ofFrequencies P (get_frequencies input)) s).2 ≤ 32) := by
  obtain ⟨hnd, hlen, -⟩ := ofFrequencies_paths P (get_frequencies input)
  obtain ⟨e, he, rfl, -⟩ := entry_of_length_ne_zero _ hnd s hne
  have h255 := hlen e he
  rw [make_table_length P _ e he] at hne ⊢
  refine ⟨by omega, h255, toByte_val_of_lt (by omega), fun hS => ?_⟩
  exact depth_le_32 P _ (lt_of_le_of_lt (sum_get_frequencies_le input) hS) e he

set_option maxRecDepth 1000000 in
/-- The entry of symbol 104 for the two-byte input `smallInput` meets the
hypotheses of `code_lengths_in_range`. -/
theorem code_lengths_in_range_witness :
    ((104 : Nat) < 256 ∧
      (make_table (HuffTree.ofFrequencies listPQ (get_frequencies smallInput)) 104).2 ≠ 0 ∧
      smallInput.length < 9227465) ∧
    1 ≤ (make_table (HuffTree.ofFrequencies listPQ (get_frequencies smallInput)) 104).2 ∧
    (make_table (HuffTree.ofFrequencies listPQ (get_frequencies smallInput)) 104).2 ≤ 255 ∧
    (toByte (make_table (HuffTree.ofFrequencies listPQ (get_frequencies smallInput)) 104).2).val
      = (make_table (HuffTree.ofFrequencies listPQ (get_frequencies smallInput)) 104).2 ∧
    (make_table (HuffTree.ofFrequencies listPQ (get_frequencies smallInput)) 104).2 ≤ 32 :=
  ⟨⟨by decide, by decide, by decide⟩,
   (code_lengths_in_range listPQ smallInput 104 (by decide) (by decide)).1,
   (code_lengths_in_range listPQ smallInput 104 (by decide) (by decide)).2.1,
   (code_lengths_in_range listPQ smallInput 104 (by decide) (by decide)).2.2.1,
   (code_lengths_in_range listPQ smallInput 104 (by decide) (by decide)).2.2.2 (by decide)⟩

/-- For an input of fewer than `2^32` bytes the sum over the symbols of
frequency times code length is the number of payload bits. -/
theorem payload_sum_eq (table : Table) (input : List byte_t) (hS : input.length < 4294967296) :
    ((List.range VALUES_RANGE).map (fun s => get_frequencies input s * (table s).2)).sum
      = (payloadBits table input).length := by
  rw [payloadBits_length,
    ← sum_occurrences (fun s => (table s).2) VALUES_RANGE input (fun b _ => by simp [VALUES_RANGE])]
  apply congrArg List.sum
  apply List.map_congr_left
  intro s _
  rw [get_frequencies_eq, Nat.mod_eq_of_lt (lt_of_le_of_lt (occurrences_le input s) hS)]

/-- C21 (bounded round trip): for every byte sequence of fewer than `2^32`
bytes such that every code length assigned by `make_table` is at most 32 and
the sum over the symbols of frequency times code length is less than `2^32`,
`decode` applied to the output of `encode` returns exactly the input; the
output of `encode` is the header, the table and a payload, `code_len` is the
number of payload bits written, and the loop of `decode`, started at the root
of the tree rebuilt from the table with the reader at the payload, ends after
exactly `code_len` bits at the root with the input written, leaving only the
padding bits unread. -/
theorem bounded_round_trip (P : PriorityQueue) (input : List byte_t)
    (hS : input.length < 4294967296)
    (hlen : ∀ s, s < 256 →
      (make_table (HuffTree.ofFrequencies P (get_frequencies input)) s).2 ≤ 32)
    (hsum : ((List.range VALUES_RANGE).map (fun s => get_frequencies input s *
      (make_table (HuffTree.ofFrequencies P (get_frequencies input)) s).2)).sum < 4294967296) :
    decode (encode P input) = DecodeResult.ok input ∧
    ∃ payload pad, pad < 8 ∧
      encode P input =
        le_bytes (encode_code_len (get_frequencies input)
            (make_table (HuffTree.ofFrequencies P (get_frequencies input))))
          ++ le_bytes (encode_table_size
            (make_table (HuffTree.ofFrequencies P (get_frequencies input))))
          ++ tableEntries (make_table (HuffTree.ofFrequencies P (get_frequencies input)))
          ++ payload ∧
      encode_code_len (get_frequencies input)
          (make_table (HuffTree.ofFrequencies P (get_frequencies input)))
        = (payloadBits (make_table (HuffTree.ofFrequencies P (get_frequencies input)))
            input).length ∧
      decode_table
          (encode_table_size (make_table (HuffTree.ofFrequencies P (get_frequencies input))))
          ⟨tableEntries (make_table (HuffTree.ofFrequencies P (get_frequencies input)))
            ++ payload, false, 8, 0⟩ HuffTree.new
        = some (treeOfEntries (tableEntries (make_table (HuffTree.ofFrequencies P
            (get_frequencies input)))) HuffTree.new, BitReader.open payload) ∧
      decode_loop
          (treeOfEntries (tableEntries (make_table (HuffTree.ofFrequencies P
            (get_frequencies input)))) HuffTree.new).root
          (encode_code_len (get_frequencies input)
            (make_table (HuffTree.ofFrequencies P (get_frequencies input))))
          (BitReader.open payload)
          (treeOfEntries (tableEntries (make_table (HuffTree.ofFrequencies P
            (get_frequencies input)))) HuffTree.new).root
          BitWriter.open
        = WalkResult.done
            (BitReader.skip
              (encode_code_len (get_frequencies input)
                (make_table (HuffTree.ofFrequencies P (get_frequencies input))))
              (BitReader.open payload))
            (treeOfEntries (tableEntries (make_table (HuffTree.ofFrequencies P
              (get_frequencies input)))) HuffTree.new).root
            ⟨input, 0, 0⟩ ∧
      (BitReader.skip
          (encode_code_len (get_frequencies input)
            (make_table (HuffTree.ofFrequencies P (get_frequencies input))))
          (BitReader.open payload)).bits = List.replicate pad false := by
  have hbits : (payloadBits (make_table (HuffTree.ofFrequencies P (get_frequencies input)))
      input).length < 4294967296 := by
    rw [← payload_sum_eq _ input hS]; exact hsum
  have hn := code_len_exact _ _ hbits
  have hts : encode_table_size (make_table (HuffTree.ofFrequencies P (get_frequencies input)))
      < 4294967296 := Nat.mod_lt _ (by norm_num)
  have hE : (tableEntries (make_table (HuffTree.ofFrequencies P (get_frequencies input)))).length
      = 6 * encode_table_size (make_table (HuffTree.ofFrequencies P (get_frequencies input))) := by
    rw [tableEntries_length, encode_table_size_eq]
  obtain ⟨pad, hpad8, hpad⟩ := written_bits
    (payloadBits (make_table (HuffTree.ofFrequencies P (get_frequencies input))) input)
  have hwalk := roundtrip_walk P input hS hlen
  have henc : encode P input =
      le_bytes (encode_code_len (get_frequencies input)
          (make_table (HuffTree.ofFrequencies P (get_frequencies input))))
        ++ le_bytes (encode_table_size
          (make_table (HuffTree.ofFrequencies P (get_frequencies input))))
        ++ tableEntries (make_table (HuffTree.ofFrequencies P (get_frequencies input)))
        ++ written (payloadBits (make_table (HuffTree.ofFrequencies P (get_frequencies input)))
            input) := by
    unfold encode
    rw [write_encoded_eq _ _ _ _ hlen]
  refine ⟨?_, written _, pad, hpad8, henc, hn, ?_, ?_, ?_⟩
  · rw [henc, decode_eq (le_bytes _) (le_bytes _) _ _ rfl rfl
      (by rw [le_value_le_bytes _ hts]; exact hE)]
    rw [le_value_le_bytes _ (by rw [hn]; exact hbits), hn, hpad, List.take_left' rfl, hwalk]
    simp only [decodeResult, hpad, List.length_append]
    rw [if_neg (by omega)]
  · exact decode_table_eq _ _ _ _ _ _ _ hE
  · have hout : BitWriter.open.out = [] := rfl
    rw [decode_loop_eq _ _ _ _ _ (by simp [BitReader.open]), open_bits, hn, hpad,
      List.take_left' rfl, hout, hwalk]
    simp only [loopResult, open_bits, hpad, List.length_append]
    rw [if_neg (by omega)]
    rfl
  · rw [(skip_bits _ _ (by simp [BitReader.open])
      (by rw [open_bits, hpad, hn, List.length_append]; omega)).1, open_bits, hpad, hn,
      List.drop_left' rfl]

set_option maxRecDepth 1000000 in
/-- The two-byte input `smallInput` meets the hypotheses of
`bounded_round_trip`. -/
theorem bounded_round_trip_witness :
    (smallInput.length < 4294967296 ∧
      (∀ s, s < 256 →
        (make_table (HuffTree.ofFrequencies listPQ (get_frequencies smallInput)) s).2 ≤ 32) ∧
      ((List.range VALUES_RANGE).map (fun s => get_frequencies smallInput s *
        (make_table (HuffTree.ofFrequencies listPQ (get_frequencies smallInput)) s).2)).sum
          < 4294967296) ∧
    decode (encode listPQ smallInput) = DecodeResult.ok smallInput :=
  ⟨⟨by decide, by decide, by decide⟩,
   (bounded_round_trip listPQ smallInput (by decide) (by decide) (by decide)).1⟩

theorem get_frequencies_zerosThenOne : get_frequencies zerosThenOne = singleFrequency 1 1 := by
  funext s
  have h1 : occurrences [(1 : byte_t)] s = if s = 1 then 1 else 0 := by
    by_cases h : s = 1
    · subst h; rfl
    · have h' : ¬ ((1 : byte_t).val == s) = true := by
        simp only [beq_iff_eq]; exact fun e => h e.symm
      simp [occurrences, List.count_cons, h', h]
  rw [get_frequencies_eq, zerosThenOne, occurrences_append, occurrences_replicate, h1]
  unfold singleFrequency
  by_cases h0 : s = 0
  · subst h0; rfl
  · have e0 : ¬ ((0 : byte_t).val = s) := fun e => h0 e.symm
    rw [if_neg e0, Nat.zero_add]
    by_cases h : s = 1
    · rw [if_pos h]
    · rw [if_neg h]

theorem payloadBits_append (table : Table) (a b : List byte_t) :
    payloadBits table (a ++ b) = payloadBits table a ++ payloadBits table b := by
  simp [payloadBits]

set_option maxRecDepth 1000000 in
/-- C21 as stated fails: for `2^32` bytes 0 followed by one byte 1 the count of
byte 0 wraps to 0, so 0 gets no code; every code length is at most 32 and the
payload has one bit, but `decode` applied to the output of `encode` returns the
single byte 1. -/
theorem bounded_round_trip_fails_when_count_wraps :
    (∀ s, s < 256 →
      (make_table (HuffTree.ofFrequencies listPQ (get_frequencies zerosThenOne)) s).2 ≤ 32) ∧
    ((List.range VALUES_RANGE).map (fun s => get_frequencies zerosThenOne s *
      (make_table (HuffTree.ofFrequencies listPQ (get_frequencies zerosThenOne)) s).2)).sum
        = 1 ∧
    (payloadBits (make_table (HuffTree.ofFrequencies listPQ (get_frequencies zerosThenOne)))
      zerosThenOne).length = 1 ∧
    encode listPQ zerosThenOne = [1, 0, 0, 0, 1, 0, 0, 0, 0, 0, 0, 0, 1, 1, 0] ∧
    decode (encode listPQ zerosThenOne) = DecodeResult.ok [1] ∧
    decode (encode listPQ zerosThenOne) ≠ DecodeResult.ok zerosThenOne := by
  have hz : (make_table (HuffTree.ofFrequencies listPQ (singleFrequency 1 1)) 0).2 = 0 := by
    decide
  have hp0 : payloadBits (make_table (HuffTree.ofFrequencies listPQ (singleFrequency 1 1)))
      (List.replicate 4294967296 0) = [] := by
    apply List.eq_nil_of_length_eq_zero
    rw [payloadBits_length, List.map_replicate, List.sum_replicate]
    have e0 : ((0 : byte_t).val) = 0 := rfl
    rw [e0, hz]
    rfl
  have hp : payloadBits (make_table (HuffTree.ofFrequencies listPQ (singleFrequency 1 1)))
      zerosThenOne = [false] := by
    rw [zerosThenOne, payloadBits_append, hp0]
    decide
  have hl : ∀ s, s < 256 →
      (make_table (HuffTree.ofFrequencies listPQ (get_frequencies zerosThenOne)) s).2 ≤ 32 := by
    rw [get_frequencies_zerosThenOne]; decide
  have he : encode listPQ zerosThenOne = [1, 0, 0, 0, 1, 0, 0, 0, 0, 0, 0, 0, 1, 1, 0] := by
    unfold encode
    rw [write_encoded_eq _ _ _ _ hl, get_frequencies_zerosThenOne, hp]
    decide
  refine ⟨?_, ?_, ?_, he, by rw [he]; decide, ?_⟩
  · rw [get_frequencies_zerosThenOne]; decide
  · rw [get_frequencies_zerosThenOne]; decide
  · rw [get_frequencies_zerosThenOne, hp]; rfl
  · rw [he]
    intro h
    have h1 : DecodeResult.ok [1] = DecodeResult.ok zerosThenOne := by
      rw [← h]; decide
    have h2 := congrArg List.length (DecodeResult.ok.inj h1)
    rw [zerosThenOne, List.length_append, List.length_replicate] at h2
    exact absurd h2 (by decide)

theorem written_testBit (bits : List Bool) (k j : Nat) (hk : k < (written bits).length)
    (hj : j < 8) :
    ((written bits).getD k 0).val.testBit j = bits.getD (8 * k + j) false := by
  obtain ⟨pad, -, h⟩ := written_bits bits
  have hlen : 8 * (written bits).length = bits.length + pad := by
    rw [← bytesBits_length, h]; simp
  rw [← bytesBits_getD _ k j hk hj, h]
  by_cases hlt : 8 * k + j < bits.length
  · rw [List.getD_append _ _ _ _ hlt]
  · rw [List.getD_append_right _ _ _ _ (by omega), getD_replicate_false,
      List.getD_eq_default _ _ (by omega)]

theorem byte_all_ones (b : byte_t) (h : ∀ j, j < 8 → b.val.testBit j = true) : b = 255 := by
  apply Fin.ext
  apply Nat.eq_of_testBit_eq
  intro i
  by_cases hi : i < 8
  · rw [h i hi]
    have : ∀ j, j < 8 → (255 : Nat).testBit j = true := by decide
    exact (this i hi).symm
  · have h1 : b.val < 2 ^ i :=
      lt_of_lt_of_le b.isLt (by
        have : (256 : Nat) = 2 ^ 8 := by norm_num
        rw [this]; exact Nat.pow_le_pow_right (by decide) (by omega))
    have h2 : (255 : Nat) < 2 ^ i :=
      lt_of_lt_of_le (by decide : (255 : Nat) < 256) (by
        have : (256 : Nat) = 2 ^ 8 := by norm_num
        rw [this]; exact Nat.pow_le_pow_right (by decide) (by omega))
    show b.val.testBit i = (255 : Nat).testBit i
    rw [Nat.testBit_lt_two_pow h1, Nat.testBit_lt_two_pow h2]

theorem writtenBits_blocks_head (table : Table) (c : Nat) (cs : List Nat) (s : Nat) :
    writtenBits table (blocks ((c + 2) :: cs) s)
      = shiftedBits (table (toByte s).val)
        ++ (shiftedBits (table (toByte s).val) ++ writtenBits table (blocks (c :: cs) s)) := by
  simp [blocks, writtenBits, List.replicate_succ]

theorem payloadBits_blocks_head (table : Table) (c : Nat) (cs : List Nat) (s : Nat) :
    payloadBits table (blocks ((c + 2) :: cs) s)
      = codeBits (table (toByte s).val)
        ++ (codeBits (table (toByte s).val) ++ payloadBits table (blocks (c :: cs) s)) := by
  simp [blocks, payloadBits, List.replicate_succ]

theorem getD_replicate_true (n i : Nat) (h : i < n) : (List.replicate n true).getD i false = true := by
  rw [List.getD_eq_getElem _ _ (by simpa using h)]
  simp

set_option maxRecDepth 1000000 in
/-- C7 as amended, at the input `smallInput`. -/
theorem payload_content_witness :
    (∀ s, s < 256 →
      (make_table (HuffTree.ofFrequencies listPQ (get_frequencies smallInput)) s).2 ≤ 32) ∧
    ∃ payload pad, pad < 8 ∧
      encode listPQ smallInput =
        le_bytes (encode_code_len (get_frequencies smallInput)
            (make_table (HuffTree.ofFrequencies listPQ (get_frequencies smallInput))))
          ++ le_bytes (encode_table_size
            (make_table (HuffTree.ofFrequencies listPQ (get_frequencies smallInput))))
          ++ tableEntries (make_table (HuffTree.ofFrequencies listPQ (get_frequencies smallInput)))
          ++ payload ∧
      bytesBits payload =
        payloadBits (make_table (HuffTree.ofFrequencies listPQ (get_frequencies smallInput)))
            smallInput
          ++ List.replicate pad false :=
  ⟨by decide, payload_content listPQ smallInput (by decide)⟩

set_option maxRecDepth 1000000 in
/-- The bits written for `skewedInput`, whose first two bytes are 0: the 34 bits
taken from the entry `(4294967295, 34)` of symbol 0, twice, then the rest. -/
theorem writtenBits_skewedInput :
    ∃ rest, writtenBits (make_table (HuffTree.ofFrequencies listPQ skewedFrequencies))
      skewedInput = List.replicate 68 true ++ rest := by
  have hT : make_table (HuffTree.ofFrequencies listPQ skewedFrequencies) 0
      = (4294967295, 34) := by decide
  have hsb : shiftedBits (4294967295, 34) = List.replicate 34 true := by decide
  have h := writtenBits_blocks_head (make_table (HuffTree.ofFrequencies listPQ skewedFrequencies))
    0 skewed.tail 0
  have e0 : (toByte 0).val = 0 := rfl
  rw [e0, hT, hsb] at h
  refine ⟨writtenBits (make_table (HuffTree.ofFrequencies listPQ skewedFrequencies))
    (blocks (0 :: skewed.tail) 0), ?_⟩
  have e68 : List.replicate 68 true = List.replicate 34 true ++ List.replicate 34 true := by
    decide
  rw [e68, List.append_assoc]
  exact h

set_option maxRecDepth 1000000 in
/-- The bit string of the claim for `skewedInput`: 32 ones and two zeros for
each of the first two bytes. -/
theorem payloadBits_skewedInput :
    ∃ rest, payloadBits (make_table (HuffTree.ofFrequencies listPQ skewedFrequencies))
      skewedInput = List.replicate 32 true ++ (false :: rest) := by
  have hT : make_table (HuffTree.ofFrequencies listPQ skewedFrequencies) 0
      = (4294967295, 34) := by decide
  have hcb : codeBits (4294967295, 34) = List.replicate 32 true ++ [false, false] := by decide
  have h := payloadBits_blocks_head (make_table (HuffTree.ofFrequencies listPQ skewedFrequencies))
    0 skewed.tail 0
  have e0 : (toByte 0).val = 0 := rfl
  rw [e0, hT, hcb] at h
  refine ⟨false :: (List.replicate 32 true ++ [false, false]
    ++ payloadBits (make_table (HuffTree.ofFrequencies listPQ skewedFrequencies))
      (blocks (0 :: skewed.tail) 0)), ?_⟩
  have h' : payloadBits (make_table (HuffTree.ofFrequencies listPQ skewedFrequencies))
      skewedInput = List.replicate 32 true ++ [false, false] ++
        (List.replicate 32 true ++ [false, false] ++
          payloadBits (make_table (HuffTree.ofFrequencies listPQ skewedFrequencies))
            (blocks (0 :: skewed.tail) 0)) := h
  rw [h', List.append_assoc]
  rfl

set_option maxRecDepth 1000000 in
/-- C7 as stated fails: for the input `skewedInput` symbol 0 has the entry
`(4294967295, 34)`; the first five payload bytes of the output of `encode`
(bytes 218 to 222 of the file) are all 255, whereas bit 32 of the bit string
of the claim is 0, so no padding makes the payload equal to that string. -/
theorem payload_differs_beyond_32_bits :
    make_table (HuffTree.ofFrequencies listPQ (get_frequencies skewedInput)) 0
      = (4294967295, 34) ∧
    (∀ k, k < 5 → (encode listPQ skewedInput).getD (218 + k) 0 = 255) ∧
    (payloadBits (make_table (HuffTree.ofFrequencies listPQ (get_frequencies skewedInput)))
      skewedInput).getD 32 true = false ∧
    ¬ ∃ payload pad, pad < 8 ∧
      encode listPQ skewedInput =
        le_bytes (encode_code_len (get_frequencies skewedInput)
            (make_table (HuffTree.ofFrequencies listPQ (get_frequencies skewedInput))))
          ++ le_bytes (encode_table_size
            (make_table (HuffTree.ofFrequencies listPQ (get_frequencies skewedInput))))
          ++ tableEntries (make_table (HuffTree.ofFrequencies listPQ
              (get_frequencies skewedInput)))
          ++ payload ∧
      bytesBits payload =
        payloadBits (make_table (HuffTree.ofFrequencies listPQ (get_frequencies skewedInput)))
            skewedInput
          ++ List.replicate pad false := by
  rw [get_frequencies_skewedInput]
  have hT : make_table (HuffTree.ofFrequencies listPQ skewedFrequencies) 0
      = (4294967295, 34) := by decide
  obtain ⟨W, hW⟩ := writtenBits_skewedInput
  obtain ⟨C, hC⟩ := payloadBits_skewedInput
  have henc : encode listPQ skewedInput =
      le_bytes (encode_code_len skewedFrequencies
          (make_table (HuffTree.ofFrequencies listPQ skewedFrequencies)))
        ++ le_bytes (encode_table_size
          (make_table (HuffTree.ofFrequencies listPQ skewedFrequencies)))
        ++ tableEntries (make_table (HuffTree.ofFrequencies listPQ skewedFrequencies))
        ++ written (List.replicate 68 true ++ W) := by
    unfold encode
    rw [write_encoded_bits, get_frequencies_skewedInput, hW]
  have hsym : (symbols skewedFrequencies).length = 35 := by decide
  have hH : (le_bytes (encode_code_len skewedFrequencies
          (make_table (HuffTree.ofFrequencies listPQ skewedFrequencies)))
        ++ le_bytes (encode_table_size
          (make_table (HuffTree.ofFrequencies listPQ skewedFrequencies)))
        ++ tableEntries (make_table (HuffTree.ofFrequencies listPQ skewedFrequencies))).length
      = 218 := by
    rw [List.length_append, List.length_append, tableEntries_length, ← encode_table_size_eq,
      table_size_eq_symbols, hsym]
    rfl
  have hbit : ∀ i, i < 68 → (List.replicate 68 true ++ W).getD i false = true := by
    intro i hi
    rw [List.getD_append _ _ _ _ (by simpa using hi)]
    exact getD_replicate_true 68 i hi
  have hwl : 9 ≤ (written (List.replicate 68 true ++ W)).length := by
    rw [written_length, List.length_append, List.length_replicate]
    omega
  refine ⟨hT, ?_, ?_, ?_⟩
  · intro k hk
    rw [henc, List.getD_append_right _ _ _ _ (by rw [hH]; omega), hH]
    have e : 218 + k - 218 = k := by omega
    rw [e]
    apply byte_all_ones
    intro j hj
    rw [written_testBit _ k j (by omega) hj]
    exact hbit _ (by omega)
  · rw [hC, List.getD_append_right _ _ _ _ (by simp)]
    simp
  · rintro ⟨payload, pad, -, h1, h2⟩
    rw [henc] at h1
    have hp := List.append_cancel_left h1
    obtain ⟨pad', -, h3⟩ := written_bits (List.replicate 68 true ++ W)
    rw [← hp, h3, hC] at h2
    have h4 := congrArg (fun l => l.getD 32 false) h2
    simp only at h4
    rw [List.getD_append _ _ _ _ (by simp), hbit 32 (by decide),
      List.append_assoc, List.getD_append_right _ _ _ _ (by simp)] at h4
    simp at h4

/-- A missing child met within the first `n` bits makes the walk over those bits
end as corrupt. -/
theorem walk_missing_child (root : TreeNodePtr) (bits : List Bool) (n k : Nat) (hk : k < n)
    (hkp : k < bits.length) (cur : TreeNodePtr) (output : List byte_t)
    (hwalk : walk root (bits.take k) root [] = WalkOutcome.done cur output)
    (hmiss : (if bits.getD k false then cur.right else cur.left) = null) :
    walk root (bits.take n) root [] = WalkOutcome.corrupt := by
  have hsplit : bits.take n
      = bits.take k ++ (bits.getD k false :: (bits.drop (k + 1)).take (n - (k + 1))) := by
    have h1 : bits.take n = (bits.take k ++ bits.drop k).take n := by
      rw [List.take_append_drop]
    rw [h1, List.take_append_eq_append_take, List.take_take, Nat.min_eq_right (le_of_lt hk),
      List.length_take, Nat.min_eq_left (le_of_lt hkp), List.drop_eq_getElem_cons hkp]
    have h2 : n - k = (n - (k + 1)) + 1 := by omega
    rw [h2, List.take_succ_cons]
    simp [List.getD_eq_getElem?_getD, List.getElem?_eq_getElem hkp]
  rw [hsplit, walk_append, hwalk]
  simp only [walk]
  rw [if_pos hmiss]

/-- C9 (corruption is detected): for every tree that the table loop of `decode`
may have rebuilt and every reader state, if the walk over the first
`k < code_len` bits the reader delivers has reached `cur` and bit `k` selects a
child of `cur` that does not exist, the payload loop of `decode` ends at
`Incorrect input file` (result `corrupt`) and not normally; hence `decode`
ends so on every file made of a header, a table whose entries have lengths of
at most 32 and a payload, when the tree rebuilt from the table and the reader
at the payload are in that situation. -/
theorem corruption_detected (root : TreeNodePtr) (reader : BitReader) (code_len k : Nat)
    (hr : reader.current_bit ≤ 8) (hk : k < code_len) (hkp : k < reader.bits.length)
    (cur : TreeNodePtr) (output : List byte_t)
    (hwalk : walk root (reader.bits.take k) root [] = WalkOutcome.done cur output)
    (hmiss : (if reader.bits.getD k false then cur.right else cur.left) = null) :
    decode_loop root code_len reader root BitWriter.open = WalkResult.corrupt ∧
    ∀ (a b E p : List byte_t), a.length = 4 → b.length = 4 → E.length = 6 * le_value b →
      (∀ i, i < le_value b → (E.getD (6 * i + 4) 0).val ≤ 32) →
      le_value a = code_len → (treeOfEntries E HuffTree.new).root = root →
      BitReader.open p = reader →
      decode (a ++ b ++ E ++ p) = DecodeResult.corrupt := by
  have hw := walk_missing_child root reader.bits code_len k hk hkp cur output hwalk hmiss
  refine ⟨?_, ?_⟩
  · have hout : BitWriter.open.out = [] := rfl
    rw [decode_loop_eq _ _ _ _ _ hr, hout, hw]
    rfl
  · intro a b E p ha hb hE _ hn hroot hreader
    rw [decode_eq a b E p ha hb hE, hn, hroot]
    rw [← hreader, open_bits] at hw
    rw [hw]
    rfl

set_option maxRecDepth 1000000 in
/-- C9 at a file whose only code is `00` and whose payload starts with a 1. -/
theorem corruption_detected_witness :
    ((BitReader.open [1]).current_bit ≤ 8 ∧ 0 < 1 ∧ 0 < (BitReader.open [1]).bits.length ∧
      walk (treeOfEntries [0, 0, 0, 0, 2, 5] HuffTree.new).root
        ((BitReader.open [1]).bits.take 0)
        (treeOfEntries [0, 0, 0, 0, 2, 5] HuffTree.new).root []
        = WalkOutcome.done (treeOfEntries [0, 0, 0, 0, 2, 5] HuffTree.new).root [] ∧
      (if (BitReader.open [1]).bits.getD 0 false
        then (treeOfEntries [0, 0, 0, 0, 2, 5] HuffTree.new).root.right
        else (treeOfEntries [0, 0, 0, 0, 2, 5] HuffTree.new).root.left) = null) ∧
    decode_loop (treeOfEntries [0, 0, 0, 0, 2, 5] HuffTree.new).root 1 (BitReader.open [1])
        (treeOfEntries [0, 0, 0, 0, 2, 5] HuffTree.new).root BitWriter.open
      = WalkResult.corrupt ∧
    (∀ i, i < le_value [1, 0, 0, 0] →
      (([0, 0, 0, 0, 2, 5] : List byte_t).getD (6 * i + 4) 0).val ≤ 32) ∧
    decode ([1, 0, 0, 0] ++ [1, 0, 0, 0] ++ [0, 0, 0, 0, 2, 5] ++ [1]) = DecodeResult.corrupt :=
  ⟨⟨by decide, by decide, by decide, by decide, by decide⟩,
   (corruption_detected (treeOfEntries [0, 0, 0, 0, 2, 5] HuffTree.new).root (BitReader.open [1])
      1 0 (by decide) (by decide) (by decide)
      (treeOfEntries [0, 0, 0, 0, 2, 5] HuffTree.new).root [] (by decide) (by decide)).1,
   by decide,
   (corruption_detected (treeOfEntries [0, 0, 0, 0, 2, 5] HuffTree.new).root (BitReader.open [1])
      1 0 (by decide) (by decide) (by decide)
      (treeOfEntries [0, 0, 0, 0, 2, 5] HuffTree.new).root [] (by decide) (by decide)).2
      [1, 0, 0, 0] [1, 0, 0, 0] [0, 0, 0, 0, 2, 5] [1] (by decide) (by decide) (by decide)
      (by decide) (by decide) rfl rfl⟩

end Huffman
